import Mathlib

/-!
# bamToWig: region catalog, read-depth accumulation and track writers

A shallow embedding of `bamToWig.c`.  C `unsigned int` values are natural
numbers with an explicit reduction modulo `2^32` wherever the C arithmetic can
wrap.  The hash tables of the supporting library are association lists kept
in iteration order; a lookup returns the first entry with the requested name,
which is what the library's bucket scan returns.  Operations that abort
(`errAbort`) or that have no defined behaviour in C (an array access outside
the allocation, a NULL dereference) return a `Fault`.
-/

namespace BamToWig

/-! ## Data model -/

/-- Modulus of the C type `unsigned int`. -/
def UINT_MOD : Nat := 4294967296

/-- Conversion of a C `int` to `unsigned int`. -/
def toUnsigned (i : Int) : Nat := (i % 4294967296).toNat

/-- Ways in which a run of the program can fail. -/
inductive Fault where
  /-- The library called `errAbort`. -/
  | abort
  /-- An access outside an allocated array, or through a NULL pointer. -/
  | undefinedBehaviour
deriving DecidableEq, Repr

/-- The fields of `struct bed` that the program reads. -/
structure Bed where
  chrom : String
  chromStart : Nat
  chromEnd : Nat
deriving DecidableEq, Repr

/-- The `struct slChrom` record: a chromosome name and its length. -/
structure SlChrom where
  name : String
  length : Nat
deriving DecidableEq, Repr

/-- A `struct hash`: the entries in the order `hashFirst`/`hashNext` visit them. -/
abbrev Hash (α : Type) := List (String × α)

/-- The library lookup `hashFindVal`: value of the first entry named `name`. -/
def hashFindVal {α : Type} : Hash α → String → Option α
  | [], _ => none
  | (k, v) :: rest, name => if k = name then some v else hashFindVal rest name

/-- The library lookup `hashMustFindVal`: as `hashFindVal`, aborting when absent. -/
def hashMustFindVal {α : Type} (h : Hash α) (name : String) : Except Fault α :=
  match hashFindVal h name with
  | some v => .ok v
  | none => .error .abort

/-- Position of the entry that `hashFindVal` returns; it stands for the pointer
to that entry's value. -/
def hashFindIdx {α : Type} : Hash α → String → Option Nat
  | [], _ => none
  | (k, _) :: rest, name =>
    if k = name then some 0
    else match hashFindIdx rest name with
      | some i => some (i + 1)
      | none => none

/-- The library insertion `hashAdd`: the new entry is found first by later
lookups.  Where the library places it among the entries of other names depends
on its hash function; no statement below depends on that place. -/
def hashAdd {α : Type} (h : Hash α) (name : String) (v : α) : Hash α := (name, v) :: h

/-- The library insertion `hashAddUnique`: aborts when `name` is already present. -/
def hashAddUnique {α : Type} (h : Hash α) (name : String) (v : α) : Except Fault (Hash α) :=
  match hashFindVal h name with
  | some _ => .error .abort
  | none => .ok (hashAdd h name v)

/-- Read of `coverage[i]`. -/
def readAt (coverage : List Nat) (i : Nat) : Except Fault Nat :=
  match coverage[i]? with
  | some v => .ok v
  | none => .error .undefinedBehaviour

/-! ## Chromosome lengths and the coverage store -/

/-- The scan `if(bunk->chromEnd > max){max = bunk->chromEnd;}` over a bed list. -/
def maxEndLoop : List Bed → Nat → Nat
  | [], max => max
  | bunk :: rest, max => maxEndLoop rest (if bunk.chromEnd > max then bunk.chromEnd else max)

/-- Source function `chromListFromNoGapHash`: each visited entry is pushed on the
front of the result.  An entry with a NULL list faults at `headBed->chrom`. -/
def chromListFromNoGapHashLoop : Hash (List Bed) → List SlChrom → Except Fault (List SlChrom)
  | [], headChrom => .ok headChrom
  | (_, headBed) :: rest, headChrom =>
    match headBed with
    | [] => .error .undefinedBehaviour
    | b :: _ => chromListFromNoGapHashLoop rest (⟨b.chrom, maxEndLoop headBed 0⟩ :: headChrom)

/-- Source function `chromListFromNoGapHash`. -/
def chromListFromNoGapHash (noGapHash : Hash (List Bed)) : Except Fault (List SlChrom) :=
  chromListFromNoGapHashLoop noGapHash []

/-- Loop of `chromListToUnsignedHash`: one zeroed array per chromosome. -/
def chromListToUnsignedHashLoop : List SlChrom → Hash (List Nat) → Except Fault (Hash (List Nat))
  | [], answer => .ok answer
  | currChrom :: rest, answer =>
    match hashAddUnique answer currChrom.name (List.replicate currChrom.length 0) with
    | .error e => .error e
    | .ok answer1 => chromListToUnsignedHashLoop rest answer1

/-- Source function `chromListToUnsignedHash`. -/
def chromListToUnsignedHash (chromList : List SlChrom) : Except Fault (Hash (List Nat)) :=
  chromListToUnsignedHashLoop chromList []

/-- Source function `findChromMax`. -/
def findChromMax (noGapHash : Hash (List Bed)) (chrom : String) : Nat :=
  match hashFindVal noGapHash chrom with
  | none => 0
  | some curr => maxEndLoop curr 0

/-- Source function `minUnsigned`. -/
def minUnsigned (a b : Nat) : Nat :=
  if a ≤ b then a else b

/-- The two steps of `bamToWig` that build the coverage store from the catalog. -/
def buildCoverageHash (noGapHash : Hash (List Bed)) : Except Fault (Hash (List Nat)) :=
  match chromListFromNoGapHash noGapHash with
  | .error e => .error e
  | .ok chromList => chromListToUnsignedHash chromList

/-! ## Read projection and accumulation -/

/-- Flag bit `BAM_FREVERSE` of the alignment library. -/
def BAM_FREVERSE : Nat := 16

/-- Flag bit `BAM_FUNMAP` of the alignment library. -/
def BAM_FUNMAP : Nat := 4

/-- Flag bit `BAM_FSECONDARY` of the alignment library. -/
def BAM_FSECONDARY : Nat := 256

/-- Flag bit `BAM_FQCFAIL` of the alignment library. -/
def BAM_FQCFAIL : Nat := 512

/-- Flag bit `BAM_FDUP` of the alignment library. -/
def BAM_FDUP : Nat := 1024

/-- The fields of an alignment record that `addReadCounts` reads: `core.tid`,
`core.pos`, `core.flag`, and `calend`, the value of `bam_calend(c, bam1_cigar(b))`. -/
structure Bam1 where
  tid : Int
  pos : Int
  flag : Nat
  calend : Nat
deriving DecidableEq, Repr

/-- The local variables of `addReadCounts` that survive an iteration, together
with the coverage store.  `coverage` is the cached pointer: `none` is NULL and
`some i` points at the array of entry `i` of the store. -/
structure ReadState where
  chromId : Int
  coverage : Option Nat
  chromMax : Nat
  coverageHash : Hash (List Nat)
deriving DecidableEq, Repr

/-- The test `!(c->flag&(BAM_FSECONDARY|BAM_FQCFAIL|BAM_FDUP|BAM_FUNMAP))`. -/
def keepRead (b : Bam1) : Bool :=
  b.flag &&& (BAM_FSECONDARY ||| BAM_FQCFAIL ||| BAM_FDUP ||| BAM_FUNMAP) == 0

/-- The header access `samFp->header->target_name[chromId]`. -/
def targetNameAt (targetName : List String) (tid : Int) : Except Fault String :=
  if tid < 0 then .error .undefinedBehaviour
  else match targetName[tid.toNat]? with
    | some chrom => .ok chrom
    | none => .error .undefinedBehaviour

/-- Lines 176-189 of `addReadCounts`: the interval `(chromStart, chromEnd)` that
the counting loop walks, from the record, the expansion option and `chromMax`. -/
def projectRead (optExpansion : Int) (b : Bam1) (chromMax : Nat) : Nat × Nat :=
  let chromStart := toUnsigned b.pos
  let chromEnd := b.calend
  if optExpansion ≠ 0 then
    if b.flag &&& BAM_FREVERSE ≠ 0 then
      if chromEnd > toUnsigned optExpansion
      then ((chromEnd + UINT_MOD - toUnsigned optExpansion) % UINT_MOD, chromEnd)
      else (0, chromEnd)
    else (chromStart, minUnsigned ((chromStart + toUnsigned optExpansion) % UINT_MOD) chromMax)
  else (chromStart, chromEnd)

/-- The statement `coverage[x]++`. -/
def incrAt (coverage : List Nat) (x : Nat) : Except Fault (List Nat) :=
  match coverage[x]? with
  | some v => .ok (coverage.set x ((v + 1) % UINT_MOD))
  | none => .error .undefinedBehaviour

/-- The loop `for(x = chromStart; x < chromEnd; x++) coverage[x]++`: `n` iterations
remain, the next one at `x`.  It is entered with `n = chromEnd - chromStart`. -/
def incrLoop : Nat → Nat → List Nat → Except Fault (List Nat)
  | 0, _, coverage => .ok coverage
  | n + 1, x, coverage =>
    match incrAt coverage x with
    | .error e => .error e
    | .ok coverage1 => incrLoop n (x + 1) coverage1

/-- The counting loop run through the cached pointer `i` into the store. -/
def addCounts (coverageHash : Hash (List Nat)) (i chromStart chromEnd : Nat) :
    Except Fault (Hash (List Nat)) :=
  match coverageHash[i]? with
  | none => .error .undefinedBehaviour
  | some (name, coverage) =>
    match incrLoop (chromEnd - chromStart) chromStart coverage with
    | .error e => .error e
    | .ok coverage1 => .ok (coverageHash.set i (name, coverage1))

/-- Lines 168-174 of `addReadCounts`: refresh of the cache when `c->tid` differs
from `chromId`. -/
def resolveChrom (noGapHash : Hash (List Bed)) (targetName : List String)
    (st : ReadState) (b : Bam1) : Except Fault ReadState :=
  if b.tid ≠ st.chromId then
    match targetNameAt targetName b.tid with
    | .error e => .error e
    | .ok chrom =>
      .ok { chromId := b.tid
            coverage := hashFindIdx st.coverageHash chrom
            chromMax := findChromMax noGapHash chrom
            coverageHash := st.coverageHash }
  else .ok st

/-- One iteration of the `while(samread(samFp, b) >= 0)` loop of `addReadCounts`. -/
def addReadCountsStep (noGapHash : Hash (List Bed)) (targetName : List String)
    (optExpansion : Int) (st : ReadState) (b : Bam1) : Except Fault ReadState :=
  if keepRead b then
    match resolveChrom noGapHash targetName st b with
    | .error e => .error e
    | .ok st1 =>
      match st1.coverage with
      | none => .ok st1
      | some i =>
        match addCounts st1.coverageHash i (projectRead optExpansion b st1.chromMax).1
            (projectRead optExpansion b st1.chromMax).2 with
        | .error e => .error e
        | .ok coverageHash1 => .ok { st1 with coverageHash := coverageHash1 }
  else .ok st

/-- The `while` loop of `addReadCounts` over the records of the alignment file. -/
def addReadCountsLoop (noGapHash : Hash (List Bed)) (targetName : List String)
    (optExpansion : Int) : List Bam1 → ReadState → Except Fault ReadState
  | [], st => .ok st
  | b :: rest, st =>
    match addReadCountsStep noGapHash targetName optExpansion st b with
    | .error e => .error e
    | .ok st1 => addReadCountsLoop noGapHash targetName optExpansion rest st1

/-- The values of the locals of `addReadCounts` before the first record. -/
def initialState (coverageHash : Hash (List Nat)) : ReadState :=
  { chromId := -1, coverage := none, chromMax := 0, coverageHash := coverageHash }

/-- Source function `addReadCounts`.  The alignment file is given by the target
names of its header and its records in file order; the global `optExpansion` is
an argument.  The result is the coverage store after the last record. -/
def addReadCounts (noGapHash : Hash (List Bed)) (coverageHash : Hash (List Nat))
    (targetName : List String) (optExpansion : Int) (reads : List Bam1) :
    Except Fault (Hash (List Nat)) :=
  match addReadCountsLoop noGapHash targetName optExpansion reads (initialState coverageHash) with
  | .error e => .error e
  | .ok st => .ok st.coverageHash

/-! ## Track writers -/

/-- A line written by `printCoverage`. -/
inductive WigLine where
  /-- The line `fixedStep chrom=%s start=%u step=1`. -/
  | fixedStep (chrom : String) (start : Nat)
  /-- The line `%u` carrying one counter. -/
  | value (v : Nat)
deriving DecidableEq, Repr

/-- A line `%s\t%u\t%u\t%u` written by `printCoverageBedGraph`. -/
structure BedGraphLine where
  chrom : String
  chromStart : Nat
  chromEnd : Nat
  value : Nat
deriving DecidableEq, Repr

/-- Text of a `printCoverage` line, without the newline. -/
def WigLine.render : WigLine → String
  | .fixedStep chrom start => "fixedStep chrom=" ++ chrom ++ " start=" ++ toString start ++ " step=1"
  | .value v => toString v

/-- Text of a `printCoverageBedGraph` line, without the newline. -/
def BedGraphLine.render (r : BedGraphLine) : String :=
  r.chrom ++ "\t" ++ toString r.chromStart ++ "\t" ++ toString r.chromEnd ++ "\t" ++ toString r.value

/-- Inner loop of `printCoverage`: `n` iterations remain, the next one at `basePos`.
The loop `for(basePos=chromStart; basePos < chromEnd; basePos++)` is entered with
`n = chromEnd - chromStart` (zero when `chromEnd <= chromStart`). -/
def printCoverageValues (coverage : List Nat) : Nat → Nat → Except Fault (List WigLine)
  | 0, _ => .ok []
  | n + 1, basePos =>
    match readAt coverage basePos with
    | .error e => .error e
    | .ok v =>
      match printCoverageValues coverage n (basePos + 1) with
      | .error e => .error e
      | .ok rest => .ok (WigLine.value v :: rest)

/-- Body of the `bunk` loop of `printCoverage` for one interval. -/
def printCoverageBunk (coverage : List Nat) (bunk : Bed) : Except Fault (List WigLine) :=
  match printCoverageValues coverage (bunk.chromEnd - bunk.chromStart) bunk.chromStart with
  | .error e => .error e
  | .ok vals => .ok (WigLine.fixedStep bunk.chrom ((bunk.chromStart + 1) % UINT_MOD) :: vals)

/-- The `bunk` loop of `printCoverage` over one chromosome's interval list. -/
def printCoverageBunks (coverage : List Nat) : List Bed → Except Fault (List WigLine)
  | [] => .ok []
  | bunk :: rest =>
    match printCoverageBunk coverage bunk with
    | .error e => .error e
    | .ok out =>
      match printCoverageBunks coverage rest with
      | .error e => .error e
      | .ok outRest => .ok (out ++ outRest)

/-- Source function `printCoverage`: the lines written, in order. -/
def printCoverage (noGapHash : Hash (List Bed)) (coverageHash : Hash (List Nat)) :
    Except Fault (List WigLine) :=
  match noGapHash with
  | [] => .ok []
  | (_, headBed) :: rest =>
    match headBed with
    | [] => .error .undefinedBehaviour
    | b :: _ =>
      match hashMustFindVal coverageHash b.chrom with
      | .error e => .error e
      | .ok coverage =>
        match printCoverageBunks coverage headBed with
        | .error e => .error e
        | .ok out =>
          match printCoverage rest coverageHash with
          | .error e => .error e
          | .ok outRest => .ok (out ++ outRest)

/-- Inner loop of `printCoverageBedGraph`: `n` iterations remain, the next one at
`basePos`; `printStart` and `printNum` are the open run.  The loop
`for(basePos=chromStart+1; basePos < chromEnd; basePos++)` is entered with
`n = chromEnd - (chromStart+1)`. -/
def printBedGraphLoop (coverage : List Nat) (chrom : String) (chromEnd : Nat) :
    Nat → Nat → Nat → Nat → Except Fault (List BedGraphLine)
  | 0, _, _, _ => .ok []
  | n + 1, basePos, printStart, printNum =>
    match readAt coverage basePos with
    | .error e => .error e
    | .ok v =>
      let changed : Bool := v != printNum
      let out1 : List BedGraphLine :=
        if changed then [⟨chrom, printStart, basePos, printNum⟩] else []
      let printStart1 := if changed then basePos else printStart
      let printNum1 := if changed then v else printNum
      let out2 : List BedGraphLine :=
        if basePos = (chromEnd + UINT_MOD - 1) % UINT_MOD
        then [⟨chrom, printStart1, (basePos + 1) % UINT_MOD, printNum1⟩] else []
      match printBedGraphLoop coverage chrom chromEnd n (basePos + 1) printStart1 printNum1 with
      | .error e => .error e
      | .ok rest => .ok (out1 ++ out2 ++ rest)

/-- Body of the `bunk` loop of `printCoverageBedGraph` for one interval. -/
def printBedGraphBunk (coverage : List Nat) (bunk : Bed) : Except Fault (List BedGraphLine) :=
  match readAt coverage bunk.chromStart with
  | .error e => .error e
  | .ok printNum =>
    printBedGraphLoop coverage bunk.chrom bunk.chromEnd
      (bunk.chromEnd - (bunk.chromStart + 1) % UINT_MOD)
      ((bunk.chromStart + 1) % UINT_MOD) bunk.chromStart printNum

/-- The `bunk` loop of `printCoverageBedGraph` over one chromosome's interval list. -/
def printBedGraphBunks (coverage : List Nat) : List Bed → Except Fault (List BedGraphLine)
  | [] => .ok []
  | bunk :: rest =>
    match printBedGraphBunk coverage bunk with
    | .error e => .error e
    | .ok out =>
      match printBedGraphBunks coverage rest with
      | .error e => .error e
      | .ok outRest => .ok (out ++ outRest)

/-- Source function `printCoverageBedGraph`: the lines written, in order. -/
def printCoverageBedGraph (noGapHash : Hash (List Bed)) (coverageHash : Hash (List Nat)) :
    Except Fault (List BedGraphLine) :=
  match noGapHash with
  | [] => .ok []
  | (_, headBed) :: rest =>
    match headBed with
    | [] => .error .undefinedBehaviour
    | b :: _ =>
      match hashMustFindVal coverageHash b.chrom with
      | .error e => .error e
      | .ok coverage =>
        match printBedGraphBunks coverage headBed with
        | .error e => .error e
        | .ok out =>
          match printCoverageBedGraph rest coverageHash with
          | .error e => .error e
          | .ok outRest => .ok (out ++ outRest)

/-- Position-by-position reading of run-length lines: a line `(chrom, s, e, v)`
stands for the value `v` at each of the positions `s .. e-1`. -/
def expandBedGraph : List BedGraphLine → List Nat
  | [] => []
  | r :: rest => List.replicate (r.chromEnd - r.chromStart) r.value ++ expandBedGraph rest

/-- The counters carried by the value lines of a dense block. -/
def wigValues : List WigLine → List Nat
  | [] => []
  | .fixedStep _ _ :: rest => wigValues rest
  | .value v :: rest => v :: wigValues rest

/-- Shape of the run-length lines for the positions `s .. e-1` of `coverage`:
consecutive lines that start at `s`, end at `e`, each carrying the counter of
every position it covers, and each followed by a position with another value. -/
inductive RunsFrom (coverage : List Nat) (chrom : String) (e : Nat) :
    Nat → List BedGraphLine → Prop where
  | last (s v : Nat) : s < e → (∀ j, s ≤ j → j < e → coverage[j]? = some v) →
      RunsFrom coverage chrom e s [⟨chrom, s, e, v⟩]
  | cons (s m v w : Nat) (rest : List BedGraphLine) : s < m → m < e →
      (∀ j, s ≤ j → j < m → coverage[j]? = some v) → coverage[m]? = some w → w ≠ v →
      RunsFrom coverage chrom e m rest →
      RunsFrom coverage chrom e s (⟨chrom, s, m, v⟩ :: rest)

/-! ## Specification vocabulary for the accumulation -/

/-- The cache of `addReadCounts` agrees with a fresh resolution of `chromId`:
either no chromosome has been resolved yet, or `coverage` and `chromMax` are
what lines 171-173 compute for the target named by `chromId`. -/
def CacheOk (noGapHash : Hash (List Bed)) (targetName : List String) (st : ReadState) : Prop :=
  (st.chromId = -1 ∧ st.coverage = none) ∨
    ∃ chrom, targetNameAt targetName st.chromId = .ok chrom ∧
      st.coverage = hashFindIdx st.coverageHash chrom ∧
      st.chromMax = findChromMax noGapHash chrom

/-- One iteration of the `while` loop of `addReadCounts` in which the array and
`chromMax` are looked up for the record itself instead of being taken from the
cache. -/
def addReadCountsFresh (noGapHash : Hash (List Bed)) (targetName : List String)
    (optExpansion : Int) (coverageHash : Hash (List Nat)) (b : Bam1) :
    Except Fault (Hash (List Nat)) :=
  if keepRead b then
    match targetNameAt targetName b.tid with
    | .error e => .error e
    | .ok chrom =>
      match hashFindIdx coverageHash chrom with
      | none => .ok coverageHash
      | some i =>
        addCounts coverageHash i (projectRead optExpansion b (findChromMax noGapHash chrom)).1
          (projectRead optExpansion b (findChromMax noGapHash chrom)).2
  else .ok coverageHash

/-- The record `b` is kept, lies on the chromosome `chrom`, and its projected
interval contains the position `p`. -/
def coversPosition (noGapHash : Hash (List Bed)) (targetName : List String)
    (optExpansion : Int) (chrom : String) (p : Nat) (b : Bam1) : Bool :=
  keepRead b &&
    match targetNameAt targetName b.tid with
    | .error _ => false
    | .ok c =>
      c == chrom &&
        (decide ((projectRead optExpansion b (findChromMax noGapHash c)).1 ≤ p) &&
          decide (p < (projectRead optExpansion b (findChromMax noGapHash c)).2))

/-- The projected interval of a kept record is empty or ends inside the array
that the store holds for the record's chromosome. -/
def InBounds (noGapHash : Hash (List Bed)) (targetName : List String) (optExpansion : Int)
    (coverageHash : Hash (List Nat)) (b : Bam1) : Prop :=
  ∀ chrom coverage, targetNameAt targetName b.tid = .ok chrom →
    hashFindVal coverageHash chrom = some coverage →
    (projectRead optExpansion b (findChromMax noGapHash chrom)).1
      < (projectRead optExpansion b (findChromMax noGapHash chrom)).2 →
    (projectRead optExpansion b (findChromMax noGapHash chrom)).2 ≤ coverage.length

/-- A kept record names a target of the header. -/
def ValidTarget (targetName : List String) (b : Bam1) : Prop :=
  keepRead b = true → ∃ chrom, targetNameAt targetName b.tid = .ok chrom

/-- The accumulation of `addReadCounts` without the cache: the coverage array
and `chromMax` are looked up afresh for every kept record. -/
def addReadCountsNoCache (noGapHash : Hash (List Bed)) (targetName : List String)
    (optExpansion : Int) : List Bam1 → Hash (List Nat) → Except Fault (Hash (List Nat))
  | [], coverageHash => .ok coverageHash
  | b :: rest, coverageHash =>
    match addReadCountsFresh noGapHash targetName optExpansion coverageHash b with
    | .error e => .error e
    | .ok coverageHash1 => addReadCountsNoCache noGapHash targetName optExpansion rest coverageHash1

/-- The record `b` is kept and lies on the chromosome `chrom`. -/
def onChrom (targetName : List String) (chrom : String) (b : Bam1) : Bool :=
  keepRead b &&
    match targetNameAt targetName b.tid with
    | .error _ => false
    | .ok c => c == chrom

/-- Length of the projected interval of `b` (`end - start`, or 0 when
`end <= start`) when `b` is kept and lies on `chrom`, and 0 otherwise. -/
def projectedLength (noGapHash : Hash (List Bed)) (targetName : List String)
    (optExpansion : Int) (chrom : String) (b : Bam1) : Nat :=
  if onChrom targetName chrom b then
    (projectRead optExpansion b (findChromMax noGapHash chrom)).2
      - (projectRead optExpansion b (findChromMax noGapHash chrom)).1
  else 0

/-! ## Specification vocabulary for catalogs and writers -/

/-- Shape of the catalogs that `bedLoadNInHash` builds: no chromosome is a key
twice, every list is non-empty, and every interval of a list carries the key as
its chromosome name. -/
def CatalogOk (noGapHash : Hash (List Bed)) : Prop :=
  (noGapHash.map Prod.fst).Nodup ∧
    ∀ kv ∈ noGapHash, kv.2 ≠ [] ∧ ∀ b ∈ kv.2, b.chrom = kv.1

/-- Some entry of the catalog names (by `headBed->chrom`) a chromosome that has
no entry in the coverage store. -/
def MissingChrom (noGapHash : Hash (List Bed)) (coverageHash : Hash (List Nat)) : Prop :=
  ∃ kv ∈ noGapHash, ∃ b rest, kv.2 = b :: rest ∧ hashFindVal coverageHash b.chrom = none

/-- Every array access of the writers is defined: every list of the catalog is
non-empty, and when its chromosome has an array in the store, every interval of
the list starts and ends inside that array. -/
def ReadsInBounds (noGapHash : Hash (List Bed)) (coverageHash : Hash (List Nat)) : Prop :=
  ∀ kv ∈ noGapHash, ∃ b rest, kv.2 = b :: rest ∧
    ∀ coverage, hashFindVal coverageHash b.chrom = some coverage →
      ∀ bunk ∈ kv.2, bunk.chromStart < coverage.length ∧ bunk.chromEnd ≤ coverage.length

/-- The traversal that `printCoverage` and `printCoverageBedGraph` share: for
each entry of the catalog, the hard lookup of `headBed->chrom` in the store,
then the lines of the entry's intervals. -/
def writeTrack {α : Type} (perChrom : List Nat → List Bed → Except Fault (List α)) :
    Hash (List Bed) → Hash (List Nat) → Except Fault (List α)
  | [], _ => .ok []
  | (_, headBed) :: rest, coverageHash =>
    match headBed with
    | [] => .error .undefinedBehaviour
    | b :: _ =>
      match hashMustFindVal coverageHash b.chrom with
      | .error e => .error e
      | .ok coverage =>
        match perChrom coverage headBed with
        | .error e => .error e
        | .ok out =>
          match writeTrack perChrom rest coverageHash with
          | .error e => .error e
          | .ok outRest => .ok (out ++ outRest)

/-! ## The region catalog -/

/-- Modelled from the spec: the order of the library comparison `bedCmp`, which
is not part of this repository's source; the spec sorts the entries by
(chromosome, start).  Names are compared character by character, as `strcmp`
does. -/
def bedLe (a b : Bed) : Prop :=
  a.chrom.data < b.chrom.data ∨ (a.chrom = b.chrom ∧ a.chromStart ≤ b.chromStart)

instance bedLeDecidable : DecidableRel bedLe := fun a b =>
  inferInstanceAs
    (Decidable (a.chrom.data < b.chrom.data ∨ (a.chrom = b.chrom ∧ a.chromStart ≤ b.chromStart)))

/-- Modelled from the spec: the library call `slSort(&regions, bedCmp)`, which is
not part of this repository's source; the spec says that the entries are sorted
by (chromosome, start). -/
def slSortBed (regions : List Bed) : List Bed :=
  List.insertionSort bedLe regions

/-- The test `(bed->next == NULL) || differentString(bed->chrom, bed->next->chrom)`. -/
def endsRun (bed : Bed) (rest : List Bed) : Bool :=
  match rest with
  | [] => true
  | next :: _ => decide (bed.chrom ≠ next.chrom)

/-- The test `restrictToChrom == NULL || sameString(bed->chrom, restrictToChrom)`. -/
def passesRestrict (restrictToChrom : Option String) (chrom : String) : Bool :=
  match restrictToChrom with
  | none => true
  | some r => decide (chrom = r)

/-- The `for` loop of `bedLoadNInHash` over the sorted list: `currList` holds the
intervals of the open run that precede `bed`.  A run that ends at `bed` is cut
off and added to the hash under `bed->chrom`, or freed when the filter rejects
it. -/
def bedLoadNInHashLoop (restrictToChrom : Option String) :
    List Bed → List Bed → Hash (List Bed) → Hash (List Bed)
  | [], _, regionHash => regionHash
  | bed :: rest, currList, regionHash =>
    if endsRun bed rest then
      if passesRestrict restrictToChrom bed.chrom then
        bedLoadNInHashLoop restrictToChrom rest []
          (hashAdd regionHash bed.chrom (currList ++ [bed]))
      else bedLoadNInHashLoop restrictToChrom rest [] regionHash
    else bedLoadNInHashLoop restrictToChrom rest (currList ++ [bed]) regionHash

/-- Source function `bedLoadNInHash`.  The file is given by the list of its
records, which `bedLoadNAll` returns; `restrictToChrom` is `none` for NULL. -/
def bedLoadNInHash (regions : List Bed) (restrictToChrom : Option String) : Hash (List Bed) :=
  bedLoadNInHashLoop restrictToChrom (slSortBed regions) [] []

/-! ## The dense track as the spec describes it -/

/-- The dense block of one interval `[s, e)` in the spec's words: the header
naming the chromosome and the 1-based start `s + 1`, then one value line per
position `s, s+1, .., e-1`, in ascending order. -/
def denseBlock (coverage : List Nat) (bunk : Bed) : List WigLine :=
  WigLine.fixedStep bunk.chrom (bunk.chromStart + 1) ::
    ((coverage.drop bunk.chromStart).take (bunk.chromEnd - bunk.chromStart)).map WigLine.value

/-- The blocks of the intervals of one chromosome, in the order of its list. -/
def denseBlocks (coverage : List Nat) : List Bed → List WigLine
  | [] => []
  | bunk :: rest => denseBlock coverage bunk ++ denseBlocks coverage rest

/-- The dense track in the spec's words: for each entry of the catalog, in
catalog order, the blocks of its intervals over the array that the store holds
for the entry's chromosome. -/
def denseTrack : Hash (List Bed) → Hash (List Nat) → List WigLine
  | [], _ => []
  | (_, headBed) :: rest, coverageHash =>
    (match headBed with
      | [] => []
      | b :: _ =>
        match hashFindVal coverageHash b.chrom with
        | none => []
        | some coverage => denseBlocks coverage headBed)
      ++ denseTrack rest coverageHash

/-- The store covers the catalog: every list of the catalog is non-empty, its
chromosome has an array in the store, and every non-empty interval of the list
ends inside that array. -/
def DenseDefined (noGapHash : Hash (List Bed)) (coverageHash : Hash (List Nat)) : Prop :=
  ∀ kv ∈ noGapHash, ∃ b rest, kv.2 = b :: rest ∧
    ∃ coverage, hashFindVal coverageHash b.chrom = some coverage ∧
      ∀ bunk ∈ kv.2, bunk.chromStart < bunk.chromEnd → bunk.chromEnd ≤ coverage.length

/-! ## Array reads -/

theorem readAt_eq_ok {coverage : List Nat} {i v : Nat} :
    readAt coverage i = .ok v ↔ coverage[i]? = some v := by
  unfold readAt
  cases h : coverage[i]? <;> simp

theorem readAt_of_lt {coverage : List Nat} {i : Nat} (h : i < coverage.length) :
    ∃ v, readAt coverage i = .ok v := by
  refine ⟨coverage[i], ?_⟩
  rw [readAt_eq_ok]
  exact List.getElem?_eq_getElem h

/-! ## The run-length loop -/

theorem printBedGraphLoop_runs (coverage : List Nat) (chrom : String) (e : Nat)
    (he : e < UINT_MOD) :
    ∀ (n basePos printStart printNum : Nat) (recs : List BedGraphLine),
      0 < n → basePos + n = e → printStart < basePos →
      (∀ j, printStart ≤ j → j < basePos → coverage[j]? = some printNum) →
      printBedGraphLoop coverage chrom e n basePos printStart printNum = .ok recs →
      RunsFrom coverage chrom e printStart recs := by
  intro n
  induction n with
  | zero => intro _ _ _ _ h; omega
  | succ n ih =>
    intro basePos printStart printNum recs _ hsum hlt hrun hout
    unfold printBedGraphLoop at hout
    cases hr : readAt coverage basePos with
    | error err => rw [hr] at hout; cases hout
    | ok v =>
      rw [hr] at hout
      have hv : coverage[basePos]? = some v := readAt_eq_ok.mp hr
      simp only [] at hout
      by_cases hn : n = 0
      · subst hn
        have hend : basePos + 1 = e := by omega
        have hlast : basePos = (e + UINT_MOD - 1) % UINT_MOD := by
          simp only [UINT_MOD] at he ⊢; omega
        by_cases hc : v = printNum
        · subst hc
          simp [printBedGraphLoop, ← hlast] at hout
          subst hout
          clear hlast
          rw [hend, Nat.mod_eq_of_lt he]
          apply RunsFrom.last printStart v
          · omega
          intro j h1 h2
          by_cases hj : j < basePos
          · exact hrun j h1 hj
          · have : j = basePos := by omega
            rw [this]; exact hv
        · simp [printBedGraphLoop, ← hlast, hc] at hout
          subst hout
          clear hlast
          rw [hend, Nat.mod_eq_of_lt he]
          apply RunsFrom.cons printStart basePos printNum v _ hlt _ hrun hv hc
          · apply RunsFrom.last basePos v
            · omega
            intro j h2 h3
            have : j = basePos := by omega
            rw [this]; exact hv
          · omega
      · have hnotlast : basePos ≠ (e + UINT_MOD - 1) % UINT_MOD := by
          simp only [UINT_MOD] at he ⊢; omega
        by_cases hc : v = printNum
        · subst hc
          simp [hnotlast] at hout
          cases hrest : printBedGraphLoop coverage chrom e n (basePos + 1) printStart v with
          | error err => rw [hrest] at hout; cases hout
          | ok rest =>
            rw [hrest] at hout
            simp at hout
            subst hout
            refine ih (basePos + 1) printStart v rest (by omega) (by omega) (by omega) ?_ hrest
            intro j h1 h2
            by_cases hj : j < basePos
            · exact hrun j h1 hj
            · have : j = basePos := by omega
              rw [this]; exact hv
        · simp [hnotlast, hc] at hout
          cases hrest : printBedGraphLoop coverage chrom e n (basePos + 1) basePos v with
          | error err => rw [hrest] at hout; cases hout
          | ok rest =>
            rw [hrest] at hout
            simp at hout
            subst hout
            apply RunsFrom.cons printStart basePos printNum v rest hlt _ hrun hv hc
            swap
            · omega
            refine ih (basePos + 1) basePos v rest (by omega) (by omega) (by omega) ?_ hrest
            intro j h1 h2
            have : j = basePos := by omega
            rw [this]; exact hv

theorem printBedGraphLoop_ok (coverage : List Nat) (chrom : String) (e : Nat) :
    ∀ (n basePos printStart printNum : Nat), basePos + n ≤ coverage.length →
      ∃ recs, printBedGraphLoop coverage chrom e n basePos printStart printNum = .ok recs := by
  intro n
  induction n with
  | zero => intro _ _ _ _; exact ⟨[], rfl⟩
  | succ n ih =>
    intro basePos printStart printNum hlen
    obtain ⟨v, hv⟩ := @readAt_of_lt coverage basePos (by omega)
    unfold printBedGraphLoop
    rw [hv]
    simp only []
    obtain ⟨rest, hrest⟩ := ih (basePos + 1) (if (v != printNum) = true then basePos else printStart)
      (if (v != printNum) = true then v else printNum) (by omega)
    rw [hrest]
    exact ⟨_, rfl⟩

/-- On a type-valid interval end, consecutive lines of the loop carry different
values, and the first line carries the value of the open run. -/
theorem printBedGraphLoop_values (coverage : List Nat) (chrom : String) (e : Nat)
    (he : e < UINT_MOD) :
    ∀ (n basePos printStart printNum : Nat) (recs : List BedGraphLine),
      basePos + n = e →
      printBedGraphLoop coverage chrom e n basePos printStart printNum = .ok recs →
      List.Chain' (fun a b : BedGraphLine => a.value ≠ b.value) recs ∧
        ∀ r, recs.head? = some r → r.value = printNum := by
  intro n
  induction n with
  | zero =>
    intro _ _ _ recs _ h
    simp [printBedGraphLoop] at h
    subst h
    simp
  | succ n ih =>
    intro basePos printStart printNum recs hsum hout
    unfold printBedGraphLoop at hout
    cases hr : readAt coverage basePos with
    | error err => rw [hr] at hout; cases hout
    | ok v =>
      rw [hr] at hout
      simp only [] at hout
      by_cases hn : n = 0
      · subst hn
        have hlast : basePos = (e + UINT_MOD - 1) % UINT_MOD := by
          simp only [UINT_MOD] at he ⊢; omega
        by_cases hc : v = printNum
        · subst hc
          simp [printBedGraphLoop, ← hlast] at hout
          subst hout
          simp
        · simp [printBedGraphLoop, ← hlast, hc] at hout
          subst hout
          simp [List.Chain', Ne.symm hc]
      · have hnotlast : basePos ≠ (e + UINT_MOD - 1) % UINT_MOD := by
          simp only [UINT_MOD] at he ⊢; omega
        by_cases hc : v = printNum
        · subst hc
          simp [hnotlast] at hout
          cases hrest : printBedGraphLoop coverage chrom e n (basePos + 1) printStart v with
          | error err => rw [hrest] at hout; cases hout
          | ok rest =>
            rw [hrest] at hout
            simp at hout
            subst hout
            exact ih (basePos + 1) printStart v rest (by omega) hrest
        · simp [hnotlast, hc] at hout
          cases hrest : printBedGraphLoop coverage chrom e n (basePos + 1) basePos v with
          | error err => rw [hrest] at hout; cases hout
          | ok rest =>
            rw [hrest] at hout
            simp at hout
            subst hout
            obtain ⟨hchain, hhead⟩ := ih (basePos + 1) basePos v rest (by omega) hrest
            refine ⟨?_, by simp⟩
            cases rest with
            | nil => simp
            | cons r rest1 =>
              rw [List.chain'_cons]
              refine ⟨?_, hchain⟩
              have := hhead r rfl
              simp only
              rw [this]
              exact Ne.symm hc

/-! ## Properties of a tiling by runs -/

theorem RunsFrom.ne_nil {coverage : List Nat} {chrom : String} {e s : Nat}
    {recs : List BedGraphLine} (h : RunsFrom coverage chrom e s recs) : recs ≠ [] := by
  cases h <;> simp

theorem RunsFrom.head_start {coverage : List Nat} {chrom : String} {e s : Nat}
    {recs : List BedGraphLine} (h : RunsFrom coverage chrom e s recs) :
    ∃ r, recs.head? = some r ∧ r.chromStart = s := by
  cases h <;> simp

theorem RunsFrom.last_end {coverage : List Nat} {chrom : String} {e s : Nat}
    {recs : List BedGraphLine} (h : RunsFrom coverage chrom e s recs) :
    ∃ r, recs.getLast? = some r ∧ r.chromEnd = e := by
  induction h with
  | last s v _ _ => simp
  | cons s m v w rest _ _ _ _ _ hrest ih =>
    obtain ⟨r, hr, hre⟩ := ih
    refine ⟨r, ?_, hre⟩
    cases rest with
    | nil => cases hrest
    | cons r1 rest1 => rw [List.getLast?_cons_cons]; exact hr

theorem RunsFrom.contiguous {coverage : List Nat} {chrom : String} {e s : Nat}
    {recs : List BedGraphLine} (h : RunsFrom coverage chrom e s recs) :
    List.Chain' (fun a b : BedGraphLine => b.chromStart = a.chromEnd) recs := by
  induction h with
  | last s v _ _ => simp
  | cons s m v w rest _ _ _ _ _ hrest ih =>
    cases rest with
    | nil => cases hrest
    | cons r1 rest1 =>
      rw [List.chain'_cons]
      refine ⟨?_, ih⟩
      obtain ⟨r, hr, hrs⟩ := hrest.head_start
      simp at hr
      subst hr
      exact hrs

theorem RunsFrom.each_line {coverage : List Nat} {chrom : String} {e s : Nat}
    {recs : List BedGraphLine} (h : RunsFrom coverage chrom e s recs) :
    ∀ r ∈ recs, r.chrom = chrom ∧ s ≤ r.chromStart ∧ r.chromStart < r.chromEnd ∧ r.chromEnd ≤ e ∧
      ∀ p, r.chromStart ≤ p → p < r.chromEnd → coverage[p]? = some r.value := by
  induction h with
  | last s v hlt hrun =>
    intro r hr
    simp at hr
    subst hr
    exact ⟨rfl, le_refl _, hlt, le_refl _, hrun⟩
  | cons s m v w rest hsm hme hrun _ _ _ ih =>
    intro r hr
    rcases List.mem_cons.mp hr with h1 | h1
    · subst h1
      exact ⟨rfl, le_refl _, hsm, by simp only; omega, hrun⟩
    · obtain ⟨h2, h3, h4, h5, h6⟩ := ih r h1
      exact ⟨h2, by omega, h4, h5, h6⟩

theorem RunsFrom.equal_neighbours {coverage : List Nat} {chrom : String} {e s : Nat}
    {recs : List BedGraphLine} (h : RunsFrom coverage chrom e s recs) :
    ∀ p, s ≤ p → p + 1 < e → coverage[p]? = coverage[p + 1]? →
      ∃ r ∈ recs, r.chromStart ≤ p ∧ p + 1 < r.chromEnd := by
  induction h with
  | last s v hlt hrun =>
    intro p h1 h2 _
    exact ⟨_, List.mem_singleton.mpr rfl, h1, h2⟩
  | cons s m v w rest hsm hme hrun hw hne _ ih =>
    intro p h1 h2 heq
    by_cases hp : p + 1 < m
    · exact ⟨_, List.mem_cons_self _ _, h1, hp⟩
    · by_cases hp2 : p + 1 = m
      · exfalso
        rw [hp2, hw, hrun p h1 (by omega)] at heq
        exact hne (Option.some.inj heq).symm
      · obtain ⟨r, hr, h3, h4⟩ := ih p (by omega) h2 heq
        exact ⟨r, List.mem_cons_of_mem _ hr, h3, h4⟩

theorem RunsFrom.expand {coverage : List Nat} {chrom : String} {e s : Nat}
    {recs : List BedGraphLine} (h : RunsFrom coverage chrom e s recs) :
    (expandBedGraph recs).length = e - s ∧
      ∀ i, i < e - s → (expandBedGraph recs)[i]? = coverage[s + i]? := by
  induction h with
  | last s v hlt hrun =>
    refine ⟨by simp [expandBedGraph], ?_⟩
    intro i hi
    simp [expandBedGraph, List.getElem?_replicate, hi]
    exact (hrun (s + i) (by omega) (by omega)).symm
  | cons s m v w rest hsm hme hrun hw hne _ ih =>
    obtain ⟨hlen, hget⟩ := ih
    refine ⟨by simp [expandBedGraph, hlen]; omega, ?_⟩
    intro i hi
    simp only [expandBedGraph]
    by_cases h1 : i < m - s
    · rw [List.getElem?_append_left (by simpa using h1)]
      simp [List.getElem?_replicate, h1]
      exact (hrun (s + i) (by omega) (by omega)).symm
    · rw [List.getElem?_append_right (by simp; omega)]
      simp only [List.length_replicate]
      rw [hget (i - (m - s)) (by omega)]
      congr 1
      omega

/-! ## The writers on one interval -/

theorem printBedGraphBunk_runs {coverage : List Nat} {bunk : Bed} {recs : List BedGraphLine}
    (hlen : bunk.chromStart + 1 < bunk.chromEnd) (he : bunk.chromEnd < UINT_MOD)
    (h : printBedGraphBunk coverage bunk = .ok recs) :
    RunsFrom coverage bunk.chrom bunk.chromEnd bunk.chromStart recs := by
  unfold printBedGraphBunk at h
  cases hr : readAt coverage bunk.chromStart with
  | error err => rw [hr] at h; cases h
  | ok v =>
    rw [hr] at h
    have hmod : (bunk.chromStart + 1) % UINT_MOD = bunk.chromStart + 1 :=
      Nat.mod_eq_of_lt (by omega)
    rw [hmod] at h
    refine printBedGraphLoop_runs coverage bunk.chrom bunk.chromEnd he _ _ _ _ recs
      (by omega) (by omega) (by omega) ?_ h
    intro j h1 h2
    have : j = bunk.chromStart := by omega
    rw [this]
    exact readAt_eq_ok.mp hr

theorem printBedGraphBunk_ok {coverage : List Nat} {bunk : Bed}
    (hs : bunk.chromStart < coverage.length) (he : bunk.chromEnd ≤ coverage.length) :
    ∃ recs, printBedGraphBunk coverage bunk = .ok recs := by
  unfold printBedGraphBunk
  obtain ⟨v, hv⟩ := readAt_of_lt hs
  rw [hv]
  have hmod : (bunk.chromStart + 1) % UINT_MOD ≤ bunk.chromStart + 1 := Nat.mod_le _ _
  exact printBedGraphLoop_ok coverage bunk.chrom bunk.chromEnd _ _ _ _ (by omega)

/-- An interval of a single base: the loop body of the run-length writer is
never entered, so the run opened at the interval start is never written. -/
theorem printBedGraphBunk_single {coverage : List Nat} {bunk : Bed}
    (hs : bunk.chromStart < coverage.length) (hlen : bunk.chromEnd = bunk.chromStart + 1)
    (he : bunk.chromEnd < UINT_MOD) :
    printBedGraphBunk coverage bunk = .ok [] := by
  unfold printBedGraphBunk
  obtain ⟨v, hv⟩ := readAt_of_lt hs
  rw [hv]
  have hmod : (bunk.chromStart + 1) % UINT_MOD = bunk.chromStart + 1 :=
    Nat.mod_eq_of_lt (by omega)
  have hzero : bunk.chromEnd - (bunk.chromStart + 1) = 0 := by omega
  simp only [hmod, hzero, printBedGraphLoop]

theorem printCoverageValues_spec (coverage : List Nat) :
    ∀ (n basePos : Nat) (vals : List WigLine),
      printCoverageValues coverage n basePos = .ok vals →
      vals.length = n ∧ (wigValues vals).length = n ∧
        ∀ i, i < n → vals[i]? = (coverage[basePos + i]?).map WigLine.value ∧
          (wigValues vals)[i]? = coverage[basePos + i]? ∧ basePos + i < coverage.length := by
  intro n
  induction n with
  | zero =>
    intro _ vals h
    simp [printCoverageValues] at h
    subst h
    simp [wigValues]
  | succ n ih =>
    intro basePos vals h
    unfold printCoverageValues at h
    cases hr : readAt coverage basePos with
    | error err => rw [hr] at h; cases h
    | ok v =>
      rw [hr] at h
      have hv : coverage[basePos]? = some v := readAt_eq_ok.mp hr
      cases hrest : printCoverageValues coverage n (basePos + 1) with
      | error err => rw [hrest] at h; cases h
      | ok rest =>
        rw [hrest] at h
        simp at h
        subst h
        obtain ⟨h1, h2, h3⟩ := ih (basePos + 1) rest hrest
        refine ⟨by simp [h1], by simp [wigValues, h2], ?_⟩
        intro i hi
        cases i with
        | zero =>
          have hb : basePos < coverage.length := by
            by_contra hcon
            rw [List.getElem?_eq_none (by omega)] at hv
            cases hv
          simpa [wigValues, hv] using hb
        | succ i =>
          have := h3 i (by omega)
          have hidx : basePos + (i + 1) = basePos + 1 + i := by omega
          simp only [wigValues, List.getElem?_cons_succ, hidx]
          exact this

theorem printCoverageValues_ok (coverage : List Nat) :
    ∀ (n basePos : Nat), basePos + n ≤ coverage.length →
      ∃ vals, printCoverageValues coverage n basePos = .ok vals := by
  intro n
  induction n with
  | zero => intro _ _; exact ⟨[], rfl⟩
  | succ n ih =>
    intro basePos hlen
    obtain ⟨v, hv⟩ := @readAt_of_lt coverage basePos (by omega)
    obtain ⟨rest, hrest⟩ := ih (basePos + 1) (by omega)
    unfold printCoverageValues
    rw [hv]
    simp only [hrest]
    exact ⟨_, rfl⟩

/-- On an interval of at least two bases the run-length lines, read position by
position, are the values of the dense block. -/
theorem printBedGraphBunk_expand {coverage : List Nat} {bunk : Bed}
    {recs : List BedGraphLine} {out : List WigLine}
    (hlen : bunk.chromStart + 1 < bunk.chromEnd) (he : bunk.chromEnd < UINT_MOD)
    (hb : printBedGraphBunk coverage bunk = .ok recs)
    (hd : printCoverageBunk coverage bunk = .ok out) :
    expandBedGraph recs = wigValues out := by
  obtain ⟨h1, h2⟩ := (printBedGraphBunk_runs hlen he hb).expand
  unfold printCoverageBunk at hd
  cases hv : printCoverageValues coverage (bunk.chromEnd - bunk.chromStart) bunk.chromStart with
  | error err => rw [hv] at hd; cases hd
  | ok vals =>
    rw [hv] at hd
    simp at hd
    subst hd
    obtain ⟨_, h3, h4⟩ := printCoverageValues_spec coverage _ _ vals hv
    apply List.ext_getElem?
    intro i
    by_cases hi : i < bunk.chromEnd - bunk.chromStart
    · rw [h2 i hi]
      simp only [wigValues]
      exact ((h4 i hi).2.1).symm
    · rw [List.getElem?_eq_none (by omega), List.getElem?_eq_none (by simp only [wigValues]; omega)]

/-- What the run-length writer emits for an interval of at least two bases: a
non-empty list of lines that starts at the interval start, ends at the
interval end, is contiguous, and whose lines are non-empty and carry the counter
of every position they cover. -/
theorem printBedGraphBunk_tiles {coverage : List Nat} {bunk : Bed} {recs : List BedGraphLine}
    (hlen : bunk.chromStart + 1 < bunk.chromEnd) (he : bunk.chromEnd < UINT_MOD)
    (h : printBedGraphBunk coverage bunk = .ok recs) :
    recs ≠ [] ∧
      (∃ r, recs.head? = some r ∧ r.chromStart = bunk.chromStart) ∧
      (∃ r, recs.getLast? = some r ∧ r.chromEnd = bunk.chromEnd) ∧
      List.Chain' (fun a b : BedGraphLine => b.chromStart = a.chromEnd) recs ∧
      ∀ r ∈ recs, r.chrom = bunk.chrom ∧ r.chromStart < r.chromEnd ∧
        ∀ p, r.chromStart ≤ p → p < r.chromEnd → coverage[p]? = some r.value := by
  have hruns := printBedGraphBunk_runs hlen he h
  refine ⟨hruns.ne_nil, hruns.head_start, hruns.last_end, hruns.contiguous, ?_⟩
  intro r hr
  obtain ⟨h1, _, h3, _, h5⟩ := hruns.each_line r hr
  exact ⟨h1, h3, h5⟩

/-! ## Claims on the track writers -/

/-- C1 (the run-length output, expanded position by position, reproduces the
dense output, intervals of length 1 included): evaluation of the code on the
catalog `chr1 5 6` with one forward read on `[5,6)` and expansion 0.  The store
holds the count 1 at position 5; the dense writer emits the header and the
value 1, the run-length writer emits no line at all, so the expansion of the
run-length output is empty while the dense block has one value. -/
theorem C1_single_base_interval_not_reproduced :
    buildCoverageHash [("chr1", [⟨"chr1", 5, 6⟩])] = .ok [("chr1", [0, 0, 0, 0, 0, 0])] ∧
    addReadCounts [("chr1", [⟨"chr1", 5, 6⟩])] [("chr1", [0, 0, 0, 0, 0, 0])] ["chr1"] 0
        [⟨0, 5, 0, 6⟩] = .ok [("chr1", [0, 0, 0, 0, 0, 1])] ∧
    printCoverage [("chr1", [⟨"chr1", 5, 6⟩])] [("chr1", [0, 0, 0, 0, 0, 1])]
      = .ok [.fixedStep "chr1" 6, .value 1] ∧
    printCoverageBedGraph [("chr1", [⟨"chr1", 5, 6⟩])] [("chr1", [0, 0, 0, 0, 0, 1])] = .ok [] ∧
    wigValues [.fixedStep "chr1" 6, .value 1] = [1] ∧
    expandBedGraph [] = [] :=
  ⟨rfl, rfl, rfl, rfl, rfl, rfl⟩

/-- C4 (the run-length lines of an interval `[s, e)` with `s < e` are a non-empty
tiling of the interval): evaluation of the code on the catalog with the
intervals `chr1 0 3` and `chr1 4 5` and the counters `0,0,1,1,1,0`.  The
interval `[4,5)` has `4 < 5`, yet no line is written for it: the only lines are
the two runs of the interval `[0,3)`. -/
theorem C4_single_base_interval_no_lines :
    printBedGraphBunk [0, 0, 1, 1, 1, 0] ⟨"chr1", 4, 5⟩ = .ok [] ∧
    printCoverageBedGraph [("chr1", [⟨"chr1", 0, 3⟩, ⟨"chr1", 4, 5⟩])]
        [("chr1", [0, 0, 1, 1, 1, 0])]
      = .ok [⟨"chr1", 0, 2, 0⟩, ⟨"chr1", 2, 3, 1⟩] :=
  ⟨rfl, rfl⟩

/-- C5 (runs are maximal within an interval): for every coverage array and every
interval whose end is a 32-bit value, any two consecutive lines that the
run-length writer emits for the interval carry different values, and two
adjacent positions of the interval with equal counters lie in one line. -/
theorem C5_runs_maximal (coverage : List Nat) (bunk : Bed) (recs : List BedGraphLine)
    (he : bunk.chromEnd < UINT_MOD)
    (h : printBedGraphBunk coverage bunk = .ok recs) :
    List.Chain' (fun a b : BedGraphLine => a.value ≠ b.value) recs ∧
      ∀ p, bunk.chromStart ≤ p → p + 1 < bunk.chromEnd → coverage[p]? = coverage[p + 1]? →
        ∃ r ∈ recs, r.chromStart ≤ p ∧ p + 1 < r.chromEnd := by
  constructor
  · unfold printBedGraphBunk at h
    cases hr : readAt coverage bunk.chromStart with
    | error err => rw [hr] at h; cases h
    | ok v =>
      rw [hr] at h
      by_cases hle : (bunk.chromStart + 1) % UINT_MOD ≤ bunk.chromEnd
      · exact (printBedGraphLoop_values coverage bunk.chrom bunk.chromEnd he _ _ _ _ recs
          (by omega) h).1
      · have hzero : bunk.chromEnd - (bunk.chromStart + 1) % UINT_MOD = 0 := by omega
        rw [hzero] at h
        simp [printBedGraphLoop] at h
        subst h
        simp
  · intro p h1 h2 heq
    exact (printBedGraphBunk_runs (by omega) he h).equal_neighbours p h1 h2 heq

/-- C5 at the coverage `0,0,1,1,1,0,0,0,0,0` and the interval `chr1 0 10`. -/
theorem C5_runs_maximal_witness :
    List.Chain' (fun a b : BedGraphLine => a.value ≠ b.value)
        [⟨"chr1", 0, 2, 0⟩, ⟨"chr1", 2, 5, 1⟩, ⟨"chr1", 5, 10, 0⟩] ∧
      ∀ p, 0 ≤ p → p + 1 < 10 →
        [0, 0, 1, 1, 1, 0, 0, 0, 0, 0][p]? = [0, 0, 1, 1, 1, 0, 0, 0, 0, 0][p + 1]? →
        ∃ r ∈ ([⟨"chr1", 0, 2, 0⟩, ⟨"chr1", 2, 5, 1⟩, ⟨"chr1", 5, 10, 0⟩] : List BedGraphLine),
          r.chromStart ≤ p ∧ p + 1 < r.chromEnd :=
  C5_runs_maximal [0, 0, 1, 1, 1, 0, 0, 0, 0, 0] ⟨"chr1", 0, 10⟩
    [⟨"chr1", 0, 2, 0⟩, ⟨"chr1", 2, 5, 1⟩, ⟨"chr1", 5, 10, 0⟩] (by decide) rfl

/-! ## Hash lookups and writes through a pointer -/

theorem hashFindIdx_eq_none {α : Type} (h : Hash α) (name : String) :
    hashFindIdx h name = none ↔ hashFindVal h name = none := by
  induction h with
  | nil => simp [hashFindIdx, hashFindVal]
  | cons kv rest ih =>
    obtain ⟨k, v⟩ := kv
    by_cases hk : k = name
    · simp [hashFindIdx, hashFindVal, hk]
    · simp only [hashFindIdx, hashFindVal, hk, if_false]
      rw [← ih]
      cases hashFindIdx rest name <;> simp

theorem hashFindIdx_get {α : Type} (h : Hash α) (name : String) (i : Nat)
    (hi : hashFindIdx h name = some i) :
    ∃ v, h[i]? = some (name, v) ∧ hashFindVal h name = some v := by
  induction h generalizing i with
  | nil => simp [hashFindIdx] at hi
  | cons kv rest ih =>
    obtain ⟨k, v⟩ := kv
    by_cases hk : k = name
    · simp [hashFindIdx, hk] at hi
      subst hi
      exact ⟨v, by simp [hk], by simp [hashFindVal, hk]⟩
    · simp only [hashFindIdx, hk, if_false] at hi
      cases hrest : hashFindIdx rest name with
      | none => rw [hrest] at hi; cases hi
      | some j =>
        rw [hrest] at hi
        simp at hi
        subst hi
        obtain ⟨w, h1, h2⟩ := ih j hrest
        exact ⟨w, by simpa using h1, by simpa [hashFindVal, hk] using h2⟩

theorem hashFindIdx_set {α : Type} (h : Hash α) (name : String) (i : Nat) (v w : α)
    (hi : h[i]? = some (name, v)) (c : String) :
    hashFindIdx (h.set i (name, w)) c = hashFindIdx h c := by
  induction h generalizing i with
  | nil => simp
  | cons kv rest ih =>
    obtain ⟨k, u⟩ := kv
    cases i with
    | zero =>
      simp at hi
      obtain ⟨hk, _⟩ := hi
      subst hk
      simp [hashFindIdx]
    | succ j =>
      simp at hi
      simp only [List.set_cons_succ, hashFindIdx]
      rw [ih j hi]

theorem hashFindVal_set {α : Type} (h : Hash α) (name : String) (i : Nat) (w : α)
    (hi : hashFindIdx h name = some i) (c : String) :
    hashFindVal (h.set i (name, w)) c = if name = c then some w else hashFindVal h c := by
  induction h generalizing i with
  | nil => simp [hashFindIdx] at hi
  | cons kv rest ih =>
    obtain ⟨k, u⟩ := kv
    by_cases hk : k = name
    · simp [hashFindIdx, hk] at hi
      subst hi
      subst hk
      simp only [List.set_cons_zero, hashFindVal]
      by_cases hkc : k = c <;> simp [hkc]
    · simp only [hashFindIdx, hk, if_false] at hi
      cases hrest : hashFindIdx rest name with
      | none => rw [hrest] at hi; cases hi
      | some j =>
        rw [hrest] at hi
        simp at hi
        subst hi
        simp only [List.set_cons_succ, hashFindVal]
        rw [ih j hrest]
        by_cases hkc : k = c
        · have : ¬ name = c := fun hn => hk (hkc.trans hn.symm)
          simp [hkc, this]
        · simp [hkc]

/-! ## The counting loop -/

theorem incrAt_of_lt (coverage : List Nat) (x : Nat) (hx : x < coverage.length) :
    incrAt coverage x = .ok (coverage.set x ((coverage[x] + 1) % UINT_MOD)) := by
  unfold incrAt
  rw [List.getElem?_eq_getElem hx]

theorem incrAt_of_ge (coverage : List Nat) (x : Nat) (hx : coverage.length ≤ x) :
    incrAt coverage x = .error .undefinedBehaviour := by
  unfold incrAt
  rw [List.getElem?_eq_none hx]

theorem incrLoop_spec :
    ∀ (n x : Nat) (coverage : List Nat), (0 < n → x + n ≤ coverage.length) →
      ∃ coverage1, incrLoop n x coverage = .ok coverage1 ∧
        coverage1.length = coverage.length ∧
        ∀ p, coverage1[p]? =
          if x ≤ p ∧ p < x + n then (coverage[p]?).map (fun v => (v + 1) % UINT_MOD)
          else coverage[p]? := by
  intro n
  induction n with
  | zero =>
    intro x coverage _
    refine ⟨coverage, rfl, rfl, ?_⟩
    intro p
    have : ¬ (x ≤ p ∧ p < x + 0) := by omega
    rw [if_neg this]
  | succ n ih =>
    intro x coverage hlen
    have hx : x < coverage.length := by omega
    obtain ⟨c1, h1, h2, h3⟩ := ih (x + 1) (coverage.set x ((coverage[x] + 1) % UINT_MOD))
      (by intro _; simp; omega)
    refine ⟨c1, ?_, by simpa using h2, ?_⟩
    · unfold incrLoop
      rw [incrAt_of_lt coverage x hx]
      exact h1
    · intro p
      rw [h3 p, List.getElem?_set]
      by_cases hp : x = p
      · subst hp
        have h4 : ¬ (x + 1 ≤ x ∧ x < x + 1 + n) := by omega
        have h5 : x ≤ x ∧ x < x + (n + 1) := by omega
        simp [h4, h5, hx]
      · by_cases hq : x + 1 ≤ p ∧ p < x + 1 + n
        · have h5 : x ≤ p ∧ p < x + (n + 1) := by omega
          simp [hq, h5, hp]
        · have h5 : ¬ (x ≤ p ∧ p < x + (n + 1)) := by omega
          simp [hq, h5, hp]

/-- The counting loop faults as soon as its interval is non-empty and ends
outside the array. -/
theorem incrLoop_out_of_bounds :
    ∀ (n x : Nat) (coverage : List Nat), 0 < n → coverage.length < x + n →
      incrLoop n x coverage = .error .undefinedBehaviour := by
  intro n
  induction n with
  | zero => intro _ _ h; omega
  | succ n ih =>
    intro x coverage _ hlen
    unfold incrLoop
    by_cases hx : x < coverage.length
    · rw [incrAt_of_lt coverage x hx]
      exact ih (x + 1) _ (by omega) (by simp; omega)
    · rw [incrAt_of_ge coverage x (by omega)]

/-! ## One record -/

theorem addCounts_findIdx {coverageHash coverageHash1 : Hash (List Nat)} {i s e : Nat}
    (h : addCounts coverageHash i s e = .ok coverageHash1) (c : String) :
    hashFindIdx coverageHash1 c = hashFindIdx coverageHash c := by
  unfold addCounts at h
  cases hi : coverageHash[i]? with
  | none => rw [hi] at h; cases h
  | some kv =>
    obtain ⟨name, coverage⟩ := kv
    rw [hi] at h
    simp only [] at h
    cases hl : incrLoop (e - s) s coverage with
    | error err => rw [hl] at h; cases h
    | ok coverage1 =>
      rw [hl] at h
      simp at h
      subst h
      exact hashFindIdx_set coverageHash name i coverage coverage1 hi c

theorem addCounts_spec {coverageHash : Hash (List Nat)} {chrom : String} {i : Nat}
    {coverage : List Nat} (s e : Nat)
    (hi : hashFindIdx coverageHash chrom = some i)
    (hv : hashFindVal coverageHash chrom = some coverage)
    (hb : s < e → e ≤ coverage.length) :
    ∃ coverageHash1 coverage1, addCounts coverageHash i s e = .ok coverageHash1 ∧
      (∀ c, hashFindVal coverageHash1 c =
        if chrom = c then some coverage1 else hashFindVal coverageHash c) ∧
      coverage1.length = coverage.length ∧
      ∀ p, coverage1[p]? =
        if s ≤ p ∧ p < e then (coverage[p]?).map (fun v => (v + 1) % UINT_MOD)
        else coverage[p]? := by
  obtain ⟨w, h1, h2⟩ := hashFindIdx_get coverageHash chrom i hi
  rw [hv] at h2
  cases h2
  obtain ⟨c1, h3, h4, h5⟩ := incrLoop_spec (e - s) s coverage (by omega)
  refine ⟨coverageHash.set i (chrom, c1), c1, ?_, ?_, h4, ?_⟩
  · unfold addCounts
    rw [h1]
    simp only [h3]
  · intro c
    exact hashFindVal_set coverageHash chrom i c1 hi c
  · intro p
    rw [h5 p]
    by_cases hp : s ≤ p ∧ p < e
    · have : s ≤ p ∧ p < s + (e - s) := by omega
      rw [if_pos hp, if_pos this]
    · have : ¬ (s ≤ p ∧ p < s + (e - s)) := by omega
      rw [if_neg hp, if_neg this]

theorem targetNameAt_neg_one (targetName : List String) :
    targetNameAt targetName (-1) = .error .undefinedBehaviour := by
  simp [targetNameAt]

theorem resolveChrom_spec {noGapHash : Hash (List Bed)} {targetName : List String}
    {st : ReadState} {b : Bam1} {chrom : String}
    (hc : CacheOk noGapHash targetName st)
    (ht : targetNameAt targetName b.tid = .ok chrom) :
    ∃ st1, resolveChrom noGapHash targetName st b = .ok st1 ∧
      st1.chromId = b.tid ∧
      st1.coverageHash = st.coverageHash ∧
      st1.coverage = hashFindIdx st.coverageHash chrom ∧
      st1.chromMax = findChromMax noGapHash chrom := by
  unfold resolveChrom
  by_cases hid : b.tid = st.chromId
  · refine ⟨st, by simp [hid], hid.symm, rfl, ?_⟩
    rcases hc with ⟨h1, _⟩ | ⟨c, h1, h2, h3⟩
    · rw [hid, h1, targetNameAt_neg_one] at ht
      cases ht
    · rw [hid, h1] at ht
      cases ht
      exact ⟨h2, h3⟩
  · simp only [ne_eq, hid, not_false_eq_true, if_true, ht]
    exact ⟨_, rfl, rfl, rfl, rfl, rfl⟩

theorem resolveChrom_cacheOk {noGapHash : Hash (List Bed)} {targetName : List String}
    {st st0 : ReadState} {b : Bam1}
    (hc : CacheOk noGapHash targetName st)
    (h : resolveChrom noGapHash targetName st b = .ok st0) :
    CacheOk noGapHash targetName st0 ∧ st0.coverageHash = st.coverageHash := by
  unfold resolveChrom at h
  by_cases hid : b.tid = st.chromId
  · simp [hid] at h
    subst h
    exact ⟨hc, rfl⟩
  · simp only [ne_eq, hid, not_false_eq_true, if_true] at h
    cases ht : targetNameAt targetName b.tid with
    | error err => rw [ht] at h; cases h
    | ok chrom =>
      rw [ht] at h
      simp at h
      subst h
      exact ⟨Or.inr ⟨chrom, ht, rfl, rfl⟩, rfl⟩

/-- Every iteration keeps the cache consistent and never moves an entry of the
store. -/
theorem addReadCountsStep_cacheOk {noGapHash : Hash (List Bed)} {targetName : List String}
    {optExpansion : Int} {st st1 : ReadState} {b : Bam1}
    (hc : CacheOk noGapHash targetName st)
    (h : addReadCountsStep noGapHash targetName optExpansion st b = .ok st1) :
    CacheOk noGapHash targetName st1 ∧
      ∀ c, hashFindIdx st1.coverageHash c = hashFindIdx st.coverageHash c := by
  unfold addReadCountsStep at h
  by_cases hk : keepRead b = true
  · simp only [hk, if_true] at h
    cases hr : resolveChrom noGapHash targetName st b with
    | error err => rw [hr] at h; cases h
    | ok st0 =>
      rw [hr] at h
      obtain ⟨hc0, hh0⟩ := resolveChrom_cacheOk hc hr
      simp only [] at h
      cases hcov : st0.coverage with
      | none =>
        rw [hcov] at h
        simp at h
        subst h
        exact ⟨hc0, fun c => by rw [hh0]⟩
      | some i =>
        rw [hcov] at h
        simp only [] at h
        cases ha : addCounts st0.coverageHash i
            (projectRead optExpansion b st0.chromMax).1
            (projectRead optExpansion b st0.chromMax).2 with
        | error err => rw [ha] at h; cases h
        | ok h1 =>
          rw [ha] at h
          simp at h
          subst h
          have hidx := addCounts_findIdx ha
          refine ⟨?_, fun c => by simp only [hidx c, hh0]⟩
          rcases hc0 with ⟨_, h2⟩ | ⟨c, h2, h3, h4⟩
          · rw [hcov] at h2; cases h2
          · exact Or.inr ⟨c, h2, by simp only [hidx c]; rw [← hcov]; exact h3, h4⟩
  · simp [hk] at h
    subst h
    exact ⟨hc, fun _ => rfl⟩

/-- With a consistent cache and a record that names a target, the iteration
changes the store exactly as the iteration with a fresh lookup does. -/
theorem addReadCountsStep_map_eq {noGapHash : Hash (List Bed)} {targetName : List String}
    (optExpansion : Int) {st : ReadState} {b : Bam1}
    (hc : CacheOk noGapHash targetName st) (hv : ValidTarget targetName b) :
    Except.map ReadState.coverageHash
        (addReadCountsStep noGapHash targetName optExpansion st b)
      = addReadCountsFresh noGapHash targetName optExpansion st.coverageHash b := by
  unfold addReadCountsStep addReadCountsFresh
  by_cases hk : keepRead b = true
  · obtain ⟨chrom, ht⟩ := hv hk
    obtain ⟨st1, hr, hid, hh, hcov, hmax⟩ := resolveChrom_spec hc ht
    simp only [hk, if_true, hr, ht]
    rw [hcov, hmax, hh]
    cases hidx : hashFindIdx st.coverageHash chrom with
    | none => simp only [Except.map, hh]
    | some i =>
      simp only []
      cases ha : addCounts st.coverageHash i
          (projectRead optExpansion b (findChromMax noGapHash chrom)).1
          (projectRead optExpansion b (findChromMax noGapHash chrom)).2 with
      | error err => rfl
      | ok h1 => rfl
  · simp only [hk]
    rfl

theorem addReadCountsStep_fresh {noGapHash : Hash (List Bed)} {targetName : List String}
    (optExpansion : Int) {st : ReadState} {b : Bam1}
    (hc : CacheOk noGapHash targetName st) (hv : ValidTarget targetName b) :
    (∀ st1, addReadCountsStep noGapHash targetName optExpansion st b = .ok st1 →
      addReadCountsFresh noGapHash targetName optExpansion st.coverageHash b
          = .ok st1.coverageHash ∧ CacheOk noGapHash targetName st1) ∧
    (∀ st1, addReadCountsFresh noGapHash targetName optExpansion st.coverageHash b = .ok st1 →
      ∃ st2, addReadCountsStep noGapHash targetName optExpansion st b = .ok st2 ∧
        st2.coverageHash = st1) := by
  have heq := addReadCountsStep_map_eq optExpansion hc hv
  constructor
  · intro st1 h1
    rw [h1] at heq
    exact ⟨heq.symm, (addReadCountsStep_cacheOk hc h1).1⟩
  · intro h1 hf
    rw [hf] at heq
    cases hs : addReadCountsStep noGapHash targetName optExpansion st b with
    | error err => rw [hs] at heq; cases heq
    | ok st2 =>
      rw [hs] at heq
      simp only [Except.map] at heq
      cases heq
      exact ⟨st2, rfl, rfl⟩

/-- Effect of one kept or discarded record on every array of the store. -/
theorem addReadCountsFresh_spec {noGapHash : Hash (List Bed)} {targetName : List String}
    (optExpansion : Int) {coverageHash : Hash (List Nat)} {b : Bam1}
    (hv : ValidTarget targetName b)
    (hin : InBounds noGapHash targetName optExpansion coverageHash b) :
    ∃ coverageHash1,
      addReadCountsFresh noGapHash targetName optExpansion coverageHash b = .ok coverageHash1 ∧
      (∀ c, hashFindVal coverageHash c = none → hashFindVal coverageHash1 c = none) ∧
      ∀ c coverage, hashFindVal coverageHash c = some coverage →
        ∃ coverage1, hashFindVal coverageHash1 c = some coverage1 ∧
          coverage1.length = coverage.length ∧
          ∀ p v, coverage[p]? = some v → coverage1[p]? = some
            (if coversPosition noGapHash targetName optExpansion c p b
              then (v + 1) % UINT_MOD else v) := by
  unfold addReadCountsFresh
  by_cases hk : keepRead b = true
  · obtain ⟨chrom, ht⟩ := hv hk
    simp only [hk, if_true, ht]
    cases hidx : hashFindIdx coverageHash chrom with
    | none =>
      refine ⟨coverageHash, rfl, fun _ h => h, ?_⟩
      intro c coverage hc
      refine ⟨coverage, hc, rfl, ?_⟩
      intro p v hpv
      have hne : ¬ chrom = c := by
        intro heq
        rw [heq, hashFindIdx_eq_none, hc] at hidx
        cases hidx
      simp [coversPosition, hk, ht, hne, hpv]
    | some i =>
      obtain ⟨cov, hget, hval⟩ := hashFindIdx_get coverageHash chrom i hidx
      obtain ⟨h1, cov1, ha, hf, hlen, hpt⟩ := addCounts_spec
        (projectRead optExpansion b (findChromMax noGapHash chrom)).1
        (projectRead optExpansion b (findChromMax noGapHash chrom)).2 hidx hval
        (hin chrom cov ht hval)
      refine ⟨h1, ha, ?_, ?_⟩
      · intro c hc
        rw [hf c]
        by_cases hcc : chrom = c
        · rw [hcc, hc] at hval; cases hval
        · rw [if_neg hcc]; exact hc
      · intro c coverage hc
        rw [hf c]
        by_cases hcc : chrom = c
        · subst hcc
          rw [hval] at hc
          cases hc
          refine ⟨cov1, by simp, hlen, ?_⟩
          intro p v hpv
          rw [hpt p, hpv]
          by_cases hp : (projectRead optExpansion b (findChromMax noGapHash chrom)).1 ≤ p ∧
              p < (projectRead optExpansion b (findChromMax noGapHash chrom)).2
          · simp [coversPosition, hk, ht, hp]
          · rw [if_neg hp]
            have : coversPosition noGapHash targetName optExpansion chrom p b = false := by
              simp only [coversPosition, hk, ht, Bool.true_and, beq_self_eq_true]
              simp only [not_and, not_lt] at hp
              by_cases h1 : (projectRead optExpansion b (findChromMax noGapHash chrom)).1 ≤ p
              · have := hp h1
                simp [h1]
                omega
              · simp [h1]
            simp [this]
        · refine ⟨coverage, by rw [if_neg hcc]; exact hc, rfl, ?_⟩
          intro p v hpv
          simp [coversPosition, hk, ht, hcc, hpv]
  · refine ⟨coverageHash, by simp [hk], fun _ h => h, ?_⟩
    intro c coverage hc
    refine ⟨coverage, hc, rfl, ?_⟩
    intro p v hpv
    simp [coversPosition, hk, hpv]

theorem InBounds.transfer {noGapHash : Hash (List Bed)} {targetName : List String}
    {optExpansion : Int} {h h1 : Hash (List Nat)} {b : Bam1}
    (hin : InBounds noGapHash targetName optExpansion h b)
    (hnone : ∀ c, hashFindVal h c = none → hashFindVal h1 c = none)
    (hsome : ∀ c coverage, hashFindVal h c = some coverage →
      ∃ coverage1, hashFindVal h1 c = some coverage1 ∧ coverage1.length = coverage.length) :
    InBounds noGapHash targetName optExpansion h1 b := by
  intro chrom coverage1 ht hv hlt
  cases hc : hashFindVal h chrom with
  | none => rw [hnone chrom hc] at hv; cases hv
  | some coverage =>
    obtain ⟨cov1, h2, h3⟩ := hsome chrom coverage hc
    rw [h2] at hv
    cases hv
    rw [h3]
    exact hin chrom coverage ht hc hlt

/-! ## The whole alignment file -/

/-- Counting invariant of the `while` loop: from a state with a consistent cache,
the loop over in-bounds records ends normally, and each counter has grown, modulo
`2^32`, by the number of records that cover its position. -/
theorem addReadCountsLoop_counts (noGapHash : Hash (List Bed)) (targetName : List String)
    (optExpansion : Int) :
    ∀ (reads : List Bam1) (st : ReadState), CacheOk noGapHash targetName st →
      (∀ b ∈ reads, ValidTarget targetName b) →
      (∀ b ∈ reads, InBounds noGapHash targetName optExpansion st.coverageHash b) →
      ∃ st1, addReadCountsLoop noGapHash targetName optExpansion reads st = .ok st1 ∧
        CacheOk noGapHash targetName st1 ∧
        (∀ c, hashFindVal st.coverageHash c = none → hashFindVal st1.coverageHash c = none) ∧
        ∀ c coverage, hashFindVal st.coverageHash c = some coverage →
          ∃ coverage1, hashFindVal st1.coverageHash c = some coverage1 ∧
            coverage1.length = coverage.length ∧
            ∀ p v, coverage[p]? = some v → v < UINT_MOD → coverage1[p]? = some
              ((v + reads.countP (coversPosition noGapHash targetName optExpansion c p))
                % UINT_MOD) := by
  intro reads
  induction reads with
  | nil =>
    intro st hc _ _
    refine ⟨st, rfl, hc, fun _ h => h, ?_⟩
    intro c coverage hcov
    refine ⟨coverage, hcov, rfl, ?_⟩
    intro p v hpv hv
    simp [hpv, Nat.mod_eq_of_lt hv]
  | cons b rest ih =>
    intro st hc hvalid hin
    have hvb := hvalid b (List.mem_cons_self _ _)
    obtain ⟨h1, hf, hnone, hsome⟩ :=
      addReadCountsFresh_spec optExpansion hvb (hin b (List.mem_cons_self _ _))
    obtain ⟨st1, hstep, hh1⟩ := (addReadCountsStep_fresh optExpansion hc hvb).2 h1 hf
    have hc1 := ((addReadCountsStep_fresh optExpansion hc hvb).1 st1 hstep).2
    subst hh1
    have hin1 : ∀ b1 ∈ rest,
        InBounds noGapHash targetName optExpansion st1.coverageHash b1 := by
      intro b1 hb1
      refine (hin b1 (List.mem_cons_of_mem _ hb1)).transfer hnone ?_
      intro c coverage hcov
      obtain ⟨cov1, h2, h3, _⟩ := hsome c coverage hcov
      exact ⟨cov1, h2, h3⟩
    obtain ⟨st2, hloop, hc2, hnone2, hsome2⟩ :=
      ih st1 hc1 (fun b1 hb1 => hvalid b1 (List.mem_cons_of_mem _ hb1)) hin1
    refine ⟨st2, ?_, hc2, fun c h => hnone2 c (hnone c h), ?_⟩
    · simp only [addReadCountsLoop, hstep]
      exact hloop
    · intro c coverage hcov
      obtain ⟨cov1, h2, h3, h4⟩ := hsome c coverage hcov
      obtain ⟨cov2, h5, h6, h7⟩ := hsome2 c cov1 h2
      refine ⟨cov2, h5, by rw [h6, h3], ?_⟩
      intro p v hpv hv
      have hstep1 := h4 p v hpv
      have hM : 0 < UINT_MOD := by decide
      by_cases hcp : coversPosition noGapHash targetName optExpansion c p b = true
      · rw [if_pos hcp] at hstep1
        rw [h7 p _ hstep1 (Nat.mod_lt _ hM), List.countP_cons, if_pos hcp]
        congr 1
        rw [Nat.add_mod, Nat.mod_mod, ← Nat.add_mod]
        congr 1
        omega
      · rw [if_neg hcp] at hstep1
        rw [h7 p _ hstep1 hv, List.countP_cons, if_neg hcp]
        simp

theorem addReadCountsLoop_append (noGapHash : Hash (List Bed)) (targetName : List String)
    (optExpansion : Int) (pre post : List Bam1) (st : ReadState) :
    addReadCountsLoop noGapHash targetName optExpansion (pre ++ post) st =
      match addReadCountsLoop noGapHash targetName optExpansion pre st with
      | .error e => .error e
      | .ok st1 => addReadCountsLoop noGapHash targetName optExpansion post st1 := by
  induction pre generalizing st with
  | nil => rfl
  | cons b rest ih =>
    simp only [List.cons_append, addReadCountsLoop]
    cases addReadCountsStep noGapHash targetName optExpansion st b with
    | error err => rfl
    | ok st1 => exact ih st1

theorem addReadCountsLoop_cacheOk (noGapHash : Hash (List Bed)) (targetName : List String)
    (optExpansion : Int) :
    ∀ (reads : List Bam1) (st st1 : ReadState), CacheOk noGapHash targetName st →
      addReadCountsLoop noGapHash targetName optExpansion reads st = .ok st1 →
      CacheOk noGapHash targetName st1 ∧
        ∀ c, hashFindIdx st1.coverageHash c = hashFindIdx st.coverageHash c := by
  intro reads
  induction reads with
  | nil =>
    intro st st1 hc h
    simp [addReadCountsLoop] at h
    subst h
    exact ⟨hc, fun _ => rfl⟩
  | cons b rest ih =>
    intro st st1 hc h
    simp only [addReadCountsLoop] at h
    cases hs : addReadCountsStep noGapHash targetName optExpansion st b with
    | error err => rw [hs] at h; cases h
    | ok st0 =>
      rw [hs] at h
      obtain ⟨hc0, hidx0⟩ := addReadCountsStep_cacheOk hc hs
      obtain ⟨hc1, hidx1⟩ := ih st0 st1 hc0 h
      exact ⟨hc1, fun c => by rw [hidx1 c, hidx0 c]⟩

/-- The store after the loop depends on the starting state only through its
store, as long as the cache is consistent and the records name targets. -/
theorem addReadCountsLoop_store_eq (noGapHash : Hash (List Bed)) (targetName : List String)
    (optExpansion : Int) :
    ∀ (reads : List Bam1) (st st1 : ReadState), CacheOk noGapHash targetName st →
      CacheOk noGapHash targetName st1 → st.coverageHash = st1.coverageHash →
      (∀ b ∈ reads, ValidTarget targetName b) →
      Except.map ReadState.coverageHash
          (addReadCountsLoop noGapHash targetName optExpansion reads st)
        = Except.map ReadState.coverageHash
          (addReadCountsLoop noGapHash targetName optExpansion reads st1) := by
  intro reads
  induction reads with
  | nil =>
    intro st st1 _ _ heq _
    simp only [addReadCountsLoop, Except.map, heq]
  | cons b rest ih =>
    intro st st1 hc hc1 heq hvalid
    have hvb := hvalid b (List.mem_cons_self _ _)
    have h1 := addReadCountsStep_map_eq optExpansion hc hvb
    have h2 := addReadCountsStep_map_eq optExpansion hc1 hvb
    rw [heq, ← h2] at h1
    simp only [addReadCountsLoop]
    cases hs : addReadCountsStep noGapHash targetName optExpansion st b with
    | error err =>
      rw [hs] at h1
      cases hs1 : addReadCountsStep noGapHash targetName optExpansion st1 b with
      | error err1 =>
        rw [hs1] at h1
        simp only [Except.map] at h1
        cases h1
        rfl
      | ok st3 => rw [hs1] at h1; cases h1
    | ok st2 =>
      rw [hs] at h1
      cases hs1 : addReadCountsStep noGapHash targetName optExpansion st1 b with
      | error err1 => rw [hs1] at h1; cases h1
      | ok st3 =>
        rw [hs1] at h1
        simp only [Except.map] at h1
        have heq2 : st2.coverageHash = st3.coverageHash := by
          injection h1
        exact ih st2 st3 (addReadCountsStep_cacheOk hc hs).1 (addReadCountsStep_cacheOk hc1 hs1).1
          heq2 (fun b1 hb1 => hvalid b1 (List.mem_cons_of_mem _ hb1))

theorem initialState_cacheOk (noGapHash : Hash (List Bed)) (targetName : List String)
    (coverageHash : Hash (List Nat)) :
    CacheOk noGapHash targetName (initialState coverageHash) :=
  Or.inl ⟨rfl, rfl⟩

theorem addReadCounts_eq_map (noGapHash : Hash (List Bed)) (coverageHash : Hash (List Nat))
    (targetName : List String) (optExpansion : Int) (reads : List Bam1) :
    addReadCounts noGapHash coverageHash targetName optExpansion reads =
      Except.map ReadState.coverageHash
        (addReadCountsLoop noGapHash targetName optExpansion reads
          (initialState coverageHash)) := by
  unfold addReadCounts
  cases addReadCountsLoop noGapHash targetName optExpansion reads (initialState coverageHash)
    <;> rfl

/-- Replacing one record by another that acts alike on every consistent state
with the same store does not change the final store. -/
theorem addReadCounts_skip (noGapHash : Hash (List Bed)) (coverageHash : Hash (List Nat))
    (targetName : List String) (optExpansion : Int) (pre post : List Bam1) (b : Bam1)
    (hpost : ∀ r ∈ post, ValidTarget targetName r)
    (hb : ∀ st, CacheOk noGapHash targetName st →
      (∀ c, hashFindIdx st.coverageHash c = hashFindIdx coverageHash c) →
      ∃ st1, addReadCountsStep noGapHash targetName optExpansion st b = .ok st1 ∧
        st1.coverageHash = st.coverageHash) :
    addReadCounts noGapHash coverageHash targetName optExpansion (pre ++ b :: post) =
      addReadCounts noGapHash coverageHash targetName optExpansion (pre ++ post) := by
  rw [addReadCounts_eq_map, addReadCounts_eq_map, addReadCountsLoop_append,
    addReadCountsLoop_append]
  cases hpre : addReadCountsLoop noGapHash targetName optExpansion pre
      (initialState coverageHash) with
  | error err => rfl
  | ok st =>
    simp only [addReadCountsLoop]
    obtain ⟨hc, hidx⟩ := addReadCountsLoop_cacheOk noGapHash targetName optExpansion pre _ st
      (initialState_cacheOk noGapHash targetName coverageHash) hpre
    obtain ⟨st1, hs, hh⟩ := hb st hc hidx
    rw [hs]
    exact addReadCountsLoop_store_eq noGapHash targetName optExpansion post st1 st
      (addReadCountsStep_cacheOk hc hs).1 hc hh hpost

/-! ## The store built from the catalog -/

theorem hashFindVal_mem {α : Type} (h : Hash α) (name : String) (v : α)
    (hv : hashFindVal h name = some v) : (name, v) ∈ h := by
  induction h with
  | nil => simp [hashFindVal] at hv
  | cons kv rest ih =>
    obtain ⟨k, u⟩ := kv
    by_cases hk : k = name
    · simp [hashFindVal, hk] at hv
      subst hv
      subst hk
      exact List.mem_cons_self _ _
    · simp only [hashFindVal, hk, if_false] at hv
      exact List.mem_cons_of_mem _ (ih hv)

theorem chromListToUnsignedHashLoop_zero :
    ∀ (chromList : List SlChrom) (answer store : Hash (List Nat)),
      chromListToUnsignedHashLoop chromList answer = .ok store →
      (∀ kv ∈ answer, ∃ n, kv.2 = List.replicate n 0) →
      ∀ kv ∈ store, ∃ n, kv.2 = List.replicate n 0 := by
  intro chromList
  induction chromList with
  | nil =>
    intro answer store h hz
    simp [chromListToUnsignedHashLoop] at h
    subst h
    exact hz
  | cons c rest ih =>
    intro answer store h hz
    simp only [chromListToUnsignedHashLoop, hashAddUnique, hashAdd] at h
    cases hf : hashFindVal answer c.name with
    | some v => rw [hf] at h; cases h
    | none =>
      rw [hf] at h
      simp only [] at h
      refine ih _ store h ?_
      intro kv hkv
      rcases List.mem_cons.mp hkv with h1 | h1
      · subst h1
        exact ⟨c.length, rfl⟩
      · exact hz kv h1

/-- Every counter of the store built from the catalog is zero. -/
theorem buildCoverageHash_zero {noGapHash : Hash (List Bed)} {store : Hash (List Nat)}
    (h : buildCoverageHash noGapHash = .ok store) :
    ∀ (c : String) (coverage : List Nat), hashFindVal store c = some coverage →
      ∀ (p v : Nat), coverage[p]? = some v → v = 0 := by
  intro c coverage hc p v hpv
  unfold buildCoverageHash at h
  cases hl : chromListFromNoGapHash noGapHash with
  | error err => rw [hl] at h; cases h
  | ok chromList =>
    rw [hl] at h
    obtain ⟨n, hn⟩ := chromListToUnsignedHashLoop_zero chromList [] store h
      (by intro kv hkv; cases hkv) (c, coverage) (hashFindVal_mem store c coverage hc)
    simp only at hn
    rw [hn, List.getElem?_replicate] at hpv
    by_cases hp : p < n
    · rw [if_pos hp] at hpv
      exact (Option.some.inj hpv).symm
    · rw [if_neg hp] at hpv
      cases hpv

/-! ## The projected interval -/

theorem toUnsigned_natCast (n : Nat) (h : n < UINT_MOD) : toUnsigned (n : Int) = n := by
  simp only [toUnsigned, UINT_MOD] at *
  omega

theorem minUnsigned_eq_min (a b : Nat) : minUnsigned a b = min a b := by
  unfold minUnsigned
  split <;> omega

theorem projectRead_zero (b : Bam1) (chromMax : Nat) :
    projectRead 0 b chromMax = (toUnsigned b.pos, b.calend) := by
  simp [projectRead]

theorem projectRead_reverse (E : Nat) (b : Bam1) (chromMax : Nat)
    (hE : 0 < E) (hE2 : E < 2147483648) (hrev : b.flag &&& BAM_FREVERSE ≠ 0)
    (h32 : b.calend < UINT_MOD) :
    projectRead (E : Int) b chromMax = (if E < b.calend then b.calend - E else 0, b.calend) := by
  have hu : toUnsigned (E : Int) = E := toUnsigned_natCast E (by simp only [UINT_MOD]; omega)
  have hne : (E : Int) ≠ 0 := by omega
  simp only [projectRead, ne_eq, hne, not_false_eq_true, if_true, hrev, hu, gt_iff_lt]
  by_cases hlt : E < b.calend
  · simp only [hlt, if_true]
    congr 1
    simp only [UINT_MOD] at h32 ⊢
    omega
  · simp only [hlt, if_false]

theorem projectRead_forward (E : Nat) (b : Bam1) (chromMax : Nat)
    (hE : 0 < E) (hE2 : E < 2147483648) (hfwd : b.flag &&& BAM_FREVERSE = 0)
    (hsum : toUnsigned b.pos + E < UINT_MOD) :
    projectRead (E : Int) b chromMax
      = (toUnsigned b.pos, min (toUnsigned b.pos + E) chromMax) := by
  have hu : toUnsigned (E : Int) = E := toUnsigned_natCast E (by simp only [UINT_MOD]; omega)
  have hne : (E : Int) ≠ 0 := by omega
  simp only [projectRead, ne_eq, hne, not_false_eq_true, if_true, hfwd, hu, not_true_eq_false,
    if_false, minUnsigned_eq_min, Nat.mod_eq_of_lt hsum]

/-- Effect of one kept record whose chromosome has an array in the store: the
counters of the projected interval, and only those, are incremented. -/
theorem addReadCountsStep_interval {noGapHash : Hash (List Bed)} {targetName : List String}
    (optExpansion : Int) {st : ReadState} {b : Bam1} {chrom : String} {coverage : List Nat}
    (hc : CacheOk noGapHash targetName st) (hk : keepRead b = true)
    (ht : targetNameAt targetName b.tid = .ok chrom)
    (hv : hashFindVal st.coverageHash chrom = some coverage)
    (hb : (projectRead optExpansion b (findChromMax noGapHash chrom)).1
        < (projectRead optExpansion b (findChromMax noGapHash chrom)).2 →
      (projectRead optExpansion b (findChromMax noGapHash chrom)).2 ≤ coverage.length) :
    ∃ st1 coverage1,
      addReadCountsStep noGapHash targetName optExpansion st b = .ok st1 ∧
      hashFindVal st1.coverageHash chrom = some coverage1 ∧
      coverage1.length = coverage.length ∧
      (∀ p, coverage1[p]? =
        if (projectRead optExpansion b (findChromMax noGapHash chrom)).1 ≤ p ∧
            p < (projectRead optExpansion b (findChromMax noGapHash chrom)).2
        then (coverage[p]?).map (fun v => (v + 1) % UINT_MOD) else coverage[p]?) ∧
      ∀ c, c ≠ chrom → hashFindVal st1.coverageHash c = hashFindVal st.coverageHash c := by
  have hvalid : ValidTarget targetName b := fun _ => ⟨chrom, ht⟩
  cases hidx : hashFindIdx st.coverageHash chrom with
  | none =>
    rw [hashFindIdx_eq_none, hv] at hidx
    cases hidx
  | some i =>
    obtain ⟨h1, cov1, ha, hf, hlen, hpt⟩ := addCounts_spec
      (projectRead optExpansion b (findChromMax noGapHash chrom)).1
      (projectRead optExpansion b (findChromMax noGapHash chrom)).2 hidx hv hb
    have hfresh : addReadCountsFresh noGapHash targetName optExpansion st.coverageHash b
        = .ok h1 := by
      unfold addReadCountsFresh
      simp only [hk, if_true, ht, hidx]
      exact ha
    obtain ⟨st2, hs, hh⟩ := (addReadCountsStep_fresh optExpansion hc hvalid).2 h1 hfresh
    refine ⟨st2, cov1, hs, ?_, hlen, hpt, ?_⟩
    · rw [hh, hf chrom, if_pos rfl]
    · intro c hcc
      rw [hh, hf c, if_neg (Ne.symm hcc)]

theorem keepRead_eq_false (b : Bam1)
    (hflag : b.flag &&& BAM_FSECONDARY ≠ 0 ∨ b.flag &&& BAM_FQCFAIL ≠ 0 ∨
      b.flag &&& BAM_FDUP ≠ 0 ∨ b.flag &&& BAM_FUNMAP ≠ 0) :
    keepRead b = false := by
  have key : ∀ bit : Nat,
      (BAM_FSECONDARY ||| BAM_FQCFAIL ||| BAM_FDUP ||| BAM_FUNMAP) &&& bit = bit →
      b.flag &&& bit ≠ 0 →
      b.flag &&& (BAM_FSECONDARY ||| BAM_FQCFAIL ||| BAM_FDUP ||| BAM_FUNMAP) ≠ 0 := by
    intro bit hbit hne hzero
    apply hne
    rw [← hbit, ← Nat.and_assoc, hzero, Nat.zero_and]
  have hmask : b.flag &&& (BAM_FSECONDARY ||| BAM_FQCFAIL ||| BAM_FDUP ||| BAM_FUNMAP) ≠ 0 := by
    rcases hflag with h | h | h | h
    · exact key _ (by decide) h
    · exact key _ (by decide) h
    · exact key _ (by decide) h
    · exact key _ (by decide) h
  simp [keepRead, hmask]

theorem keepRead_flip_strand (b : Bam1) :
    keepRead { b with flag := b.flag ^^^ BAM_FREVERSE } = keepRead b := by
  have h : (b.flag ^^^ BAM_FREVERSE) &&&
      (BAM_FSECONDARY ||| BAM_FQCFAIL ||| BAM_FDUP ||| BAM_FUNMAP)
      = b.flag &&& (BAM_FSECONDARY ||| BAM_FQCFAIL ||| BAM_FDUP ||| BAM_FUNMAP) := by
    rw [Nat.and_xor_distrib_right]
    have : BAM_FREVERSE &&& (BAM_FSECONDARY ||| BAM_FQCFAIL ||| BAM_FDUP ||| BAM_FUNMAP) = 0 := by
      decide
    rw [this, Nat.xor_zero]
  simp only [keepRead, h]

/-! ## Claims on the accumulation -/

/-- C2 (coverage is the number of overlapping reads): from the all-zero store
built from the catalog, after `addReadCounts` has processed fewer than `2^32`
records that name header targets and whose projected intervals lie inside the
arrays, the run ends normally, the arrays keep their lengths, and every counter
`coverage[c][p]` equals the number of kept records on `c` whose projected
interval contains `p`. -/
theorem C2_coverage_counts_reads (noGapHash : Hash (List Bed)) (targetName : List String)
    (optExpansion : Int) (reads : List Bam1) (store0 : Hash (List Nat))
    (hbuild : buildCoverageHash noGapHash = .ok store0)
    (hvalid : ∀ b ∈ reads, ValidTarget targetName b)
    (hin : ∀ b ∈ reads, InBounds noGapHash targetName optExpansion store0 b)
    (hovf : reads.length < UINT_MOD) :
    ∃ store, addReadCounts noGapHash store0 targetName optExpansion reads = .ok store ∧
      ∀ c, (hashFindVal store c).map List.length = (hashFindVal store0 c).map List.length ∧
        ∀ coverage, hashFindVal store c = some coverage → ∀ p, p < coverage.length →
          coverage[p]? = some
            (reads.countP (coversPosition noGapHash targetName optExpansion c p)) := by
  obtain ⟨st1, hloop, _, hnone, hsome⟩ :=
    addReadCountsLoop_counts noGapHash targetName optExpansion reads (initialState store0)
      (initialState_cacheOk noGapHash targetName store0) hvalid hin
  refine ⟨st1.coverageHash, ?_, ?_⟩
  · simp only [addReadCounts, hloop]
  · intro c
    cases hc0 : hashFindVal store0 c with
    | none =>
      have := hnone c hc0
      simp only [initialState] at this
      rw [hnone c hc0]
      exact ⟨rfl, fun _ h => by cases h⟩
    | some cov0 =>
      obtain ⟨cov1, h1, h2, h3⟩ := hsome c cov0 hc0
      rw [h1]
      refine ⟨by simp [h2], ?_⟩
      intro coverage hcov p hp
      cases hcov
      have hp0 : p < cov0.length := by omega
      have hget : cov0[p]? = some cov0[p] := List.getElem?_eq_getElem hp0
      have hz : cov0[p] = 0 := buildCoverageHash_zero hbuild c cov0 hc0 p _ hget
      rw [h3 p _ hget (by rw [hz]; decide), hz, Nat.zero_add]
      congr 1
      apply Nat.mod_eq_of_lt
      exact lt_of_le_of_lt (List.countP_le_length _) hovf

/-- C2 at the catalog `chr1 0 10` with one forward read on `[2,5)` and expansion
0: the counters are `0,0,1,1,1,0,0,0,0,0`. -/
theorem C2_coverage_counts_reads_witness :
    addReadCounts [("chr1", [⟨"chr1", 0, 10⟩])] [("chr1", List.replicate 10 0)] ["chr1"] 0
        [⟨0, 2, 0, 5⟩] = .ok [("chr1", [0, 0, 1, 1, 1, 0, 0, 0, 0, 0])] ∧
    ∃ store, addReadCounts [("chr1", [⟨"chr1", 0, 10⟩])] [("chr1", List.replicate 10 0)]
        ["chr1"] 0 [⟨0, 2, 0, 5⟩] = .ok store ∧
      ∀ c, (hashFindVal store c).map List.length
          = (hashFindVal [("chr1", List.replicate 10 0)] c).map List.length ∧
        ∀ coverage, hashFindVal store c = some coverage → ∀ p, p < coverage.length →
          coverage[p]? = some
            (List.countP (coversPosition [("chr1", [⟨"chr1", 0, 10⟩])] ["chr1"] 0 c p)
              [⟨0, 2, 0, 5⟩]) :=
  ⟨rfl, C2_coverage_counts_reads [("chr1", [⟨"chr1", 0, 10⟩])] ["chr1"] 0 [⟨0, 2, 0, 5⟩]
    [("chr1", List.replicate 10 0)] rfl
    (by
      intro b hb _
      rw [List.mem_singleton.mp hb]
      exact ⟨"chr1", rfl⟩)
    (by
      intro b hb chrom coverage ht hv _
      rw [List.mem_singleton.mp hb] at ht ⊢
      have h1 : chrom = "chr1" := by
        have h2 : (Except.ok "chr1" : Except Fault String) = .ok chrom := ht
        injection h2 with h3
        exact h3.symm
      subst h1
      have h4 : coverage = List.replicate 10 0 := by
        have h5 : some (List.replicate 10 0) = some coverage := hv
        injection h5 with h6
        exact h6.symm
      subst h4
      decide)
    (by decide)⟩

/-- C3 (no position outside the array is ever written): evaluation of the code on
the catalog `chr1 0 10`, whose store holds an array of length 10.  With
expansion 0 a forward read on `[8,15)` is projected to `(8, 15)` and the
counting loop reaches index 10, outside the array; with expansion 3 a
reverse-strand read on `[8,15)` is projected to `(12, 15)` and the first write
is already outside.  Only the forward-strand expansion clamps the end to the
array length: with expansion 30 the same forward read is projected to
`(8, 10)`. -/
theorem C3_write_outside_array :
    buildCoverageHash [("chr1", [⟨"chr1", 0, 10⟩])] = .ok [("chr1", List.replicate 10 0)] ∧
    projectRead 0 ⟨0, 8, 0, 15⟩ (findChromMax [("chr1", [⟨"chr1", 0, 10⟩])] "chr1") = (8, 15) ∧
    incrLoop (15 - 8) 8 (List.replicate 10 0) = .error .undefinedBehaviour ∧
    addReadCounts [("chr1", [⟨"chr1", 0, 10⟩])] [("chr1", List.replicate 10 0)] ["chr1"] 0
        [⟨0, 8, 0, 15⟩] = .error .undefinedBehaviour ∧
    projectRead 3 ⟨0, 8, 16, 15⟩ (findChromMax [("chr1", [⟨"chr1", 0, 10⟩])] "chr1")
      = (12, 15) ∧
    addReadCounts [("chr1", [⟨"chr1", 0, 10⟩])] [("chr1", List.replicate 10 0)] ["chr1"] 3
        [⟨0, 8, 16, 15⟩] = .error .undefinedBehaviour ∧
    projectRead 30 ⟨0, 8, 0, 15⟩ (findChromMax [("chr1", [⟨"chr1", 0, 10⟩])] "chr1")
      = (8, 10) ∧
    addReadCounts [("chr1", [⟨"chr1", 0, 10⟩])] [("chr1", List.replicate 10 0)] ["chr1"] 30
        [⟨0, 8, 0, 15⟩] = .ok [("chr1", [0, 0, 0, 0, 0, 0, 0, 0, 1, 1])] :=
  ⟨rfl, rfl, rfl, rfl, rfl, rfl, rfl, rfl⟩

/-- C6 (discarded records change nothing): for every catalog, header, expansion
setting and state, a record with one of the flags secondary, QC-fail, duplicate
or unmapped leaves the store and the cached resolution as they are, and the
store after a whole file is the same with and without the record. -/
theorem C6_discarded_record_no_effect (noGapHash : Hash (List Bed))
    (targetName : List String) (optExpansion : Int) (st : ReadState) (b : Bam1)
    (hflag : b.flag &&& BAM_FSECONDARY ≠ 0 ∨ b.flag &&& BAM_FQCFAIL ≠ 0 ∨
      b.flag &&& BAM_FDUP ≠ 0 ∨ b.flag &&& BAM_FUNMAP ≠ 0) :
    addReadCountsStep noGapHash targetName optExpansion st b = .ok st ∧
      ∀ (coverageHash : Hash (List Nat)) (pre post : List Bam1),
        addReadCounts noGapHash coverageHash targetName optExpansion (pre ++ b :: post) =
          addReadCounts noGapHash coverageHash targetName optExpansion (pre ++ post) := by
  have hk := keepRead_eq_false b hflag
  have hstep : ∀ st1, addReadCountsStep noGapHash targetName optExpansion st1 b = .ok st1 := by
    intro st1
    simp [addReadCountsStep, hk]
  refine ⟨hstep st, ?_⟩
  intro coverageHash pre post
  rw [addReadCounts_eq_map, addReadCounts_eq_map, addReadCountsLoop_append,
    addReadCountsLoop_append]
  cases addReadCountsLoop noGapHash targetName optExpansion pre (initialState coverageHash) with
  | error err => rfl
  | ok st1 => simp only [addReadCountsLoop, hstep st1]

/-- C6 at a duplicate-flagged read on `[2,5)` with expansion 3. -/
theorem C6_discarded_record_no_effect_witness :
    addReadCountsStep [("chr1", [⟨"chr1", 0, 10⟩])] ["chr1"] 3
        (initialState [("chr1", List.replicate 10 0)]) ⟨0, 2, 1024, 5⟩
      = .ok (initialState [("chr1", List.replicate 10 0)]) :=
  (C6_discarded_record_no_effect [("chr1", [⟨"chr1", 0, 10⟩])] ["chr1"] 3
    (initialState [("chr1", List.replicate 10 0)]) ⟨0, 2, 1024, 5⟩
    (Or.inr (Or.inr (Or.inl (by decide))))).1

/-- C7 (reverse-strand expansion): for a kept reverse-strand record and an
expansion `E > 0`, the projected interval is `[end - E, end)` when `end > E` and
`[0, end)` otherwise, whatever `chromMax` is; and when that interval ends inside
the chromosome's array, exactly its counters are incremented. -/
theorem C7_reverse_strand_interval (noGapHash : Hash (List Bed)) (targetName : List String)
    (st : ReadState) (b : Bam1) (chrom : String) (coverage : List Nat) (E : Nat)
    (hE : 0 < E) (hE2 : E < 2147483648)
    (hc : CacheOk noGapHash targetName st) (hk : keepRead b = true)
    (hrev : b.flag &&& BAM_FREVERSE ≠ 0)
    (ht : targetNameAt targetName b.tid = .ok chrom)
    (hv : hashFindVal st.coverageHash chrom = some coverage)
    (hend : b.calend ≤ coverage.length) (h32 : b.calend < UINT_MOD) :
    (∀ chromMax, projectRead (E : Int) b chromMax
        = (if E < b.calend then b.calend - E else 0, b.calend)) ∧
    ∃ st1 coverage1,
      addReadCountsStep noGapHash targetName (E : Int) st b = .ok st1 ∧
      hashFindVal st1.coverageHash chrom = some coverage1 ∧
      coverage1.length = coverage.length ∧
      ∀ p, coverage1[p]? =
        if (if E < b.calend then b.calend - E else 0) ≤ p ∧ p < b.calend
        then (coverage[p]?).map (fun v => (v + 1) % UINT_MOD) else coverage[p]? := by
  have hproj := fun chromMax => projectRead_reverse E b chromMax hE hE2 hrev h32
  refine ⟨hproj, ?_⟩
  obtain ⟨st1, cov1, h1, h2, h3, h4, _⟩ :=
    addReadCountsStep_interval (E : Int) hc hk ht hv
      (by rw [hproj]; intro _; exact hend)
  rw [hproj] at h4
  exact ⟨st1, cov1, h1, h2, h3, h4⟩

/-- C7 at a reverse-strand read on `[2,5)` with expansion 3: the interval is
`[2,5)`. -/
theorem C7_reverse_strand_interval_witness :
    (∀ chromMax, projectRead 3 ⟨0, 2, 16, 5⟩ chromMax = (2, 5)) ∧
    ∃ st1 coverage1,
      addReadCountsStep [("chr1", [⟨"chr1", 0, 10⟩])] ["chr1"] 3
        (initialState [("chr1", List.replicate 10 0)]) ⟨0, 2, 16, 5⟩ = .ok st1 ∧
      hashFindVal st1.coverageHash "chr1" = some coverage1 ∧
      coverage1.length = (List.replicate 10 0).length ∧
      ∀ p, coverage1[p]? =
        if 2 ≤ p ∧ p < 5
        then ((List.replicate 10 0)[p]?).map (fun v => (v + 1) % UINT_MOD)
        else (List.replicate 10 0)[p]? :=
  C7_reverse_strand_interval [("chr1", [⟨"chr1", 0, 10⟩])] ["chr1"]
    (initialState [("chr1", List.replicate 10 0)]) ⟨0, 2, 16, 5⟩ "chr1"
    (List.replicate 10 0) 3 (by decide) (by decide)
    (initialState_cacheOk _ _ _) rfl (by decide) rfl rfl (by decide) (by decide)

/-- C8 (forward-strand expansion): for a kept forward-strand record with start
`s`, an expansion `E > 0` with `s + E` below `2^32`, and `chromMax` the
maximum end coordinate of the record's chromosome in the catalog, the projected
interval is `[s, min (s + E) chromMax)`, so its end never exceeds `chromMax`; and when the
array has at least `chromMax` counters, exactly the counters of that interval
are incremented. -/
theorem C8_forward_strand_interval (noGapHash : Hash (List Bed)) (targetName : List String)
    (st : ReadState) (b : Bam1) (chrom : String) (coverage : List Nat) (E : Nat)
    (hE : 0 < E) (hE2 : E < 2147483648)
    (hc : CacheOk noGapHash targetName st) (hk : keepRead b = true)
    (hfwd : b.flag &&& BAM_FREVERSE = 0)
    (ht : targetNameAt targetName b.tid = .ok chrom)
    (hv : hashFindVal st.coverageHash chrom = some coverage)
    (hsum : toUnsigned b.pos + E < UINT_MOD)
    (hmax : findChromMax noGapHash chrom ≤ coverage.length) :
    projectRead (E : Int) b (findChromMax noGapHash chrom)
        = (toUnsigned b.pos, min (toUnsigned b.pos + E) (findChromMax noGapHash chrom)) ∧
    (projectRead (E : Int) b (findChromMax noGapHash chrom)).2
        ≤ findChromMax noGapHash chrom ∧
    ∃ st1 coverage1,
      addReadCountsStep noGapHash targetName (E : Int) st b = .ok st1 ∧
      hashFindVal st1.coverageHash chrom = some coverage1 ∧
      coverage1.length = coverage.length ∧
      ∀ p, coverage1[p]? =
        if toUnsigned b.pos ≤ p ∧
            p < min (toUnsigned b.pos + E) (findChromMax noGapHash chrom)
        then (coverage[p]?).map (fun v => (v + 1) % UINT_MOD) else coverage[p]? := by
  have hproj := projectRead_forward E b (findChromMax noGapHash chrom) hE hE2 hfwd hsum
  refine ⟨hproj, by rw [hproj]; exact Nat.min_le_right _ _, ?_⟩
  obtain ⟨st1, cov1, h1, h2, h3, h4, _⟩ :=
    addReadCountsStep_interval (E : Int) hc hk ht hv
      (by
        rw [hproj]
        intro _
        exact le_trans (Nat.min_le_right _ _) hmax)
  rw [hproj] at h4
  exact ⟨st1, cov1, h1, h2, h3, h4⟩

/-- C8 at a forward read starting at 8 with expansion 30 on the catalog
`chr1 0 10`: the interval is `[8, 10)`. -/
theorem C8_forward_strand_interval_witness :
    projectRead 30 ⟨0, 8, 0, 15⟩ (findChromMax [("chr1", [⟨"chr1", 0, 10⟩])] "chr1")
        = (8, min (8 + 30) (findChromMax [("chr1", [⟨"chr1", 0, 10⟩])] "chr1")) ∧
    (projectRead 30 ⟨0, 8, 0, 15⟩ (findChromMax [("chr1", [⟨"chr1", 0, 10⟩])] "chr1")).2
        ≤ findChromMax [("chr1", [⟨"chr1", 0, 10⟩])] "chr1" ∧
    ∃ st1 coverage1,
      addReadCountsStep [("chr1", [⟨"chr1", 0, 10⟩])] ["chr1"] 30
        (initialState [("chr1", List.replicate 10 0)]) ⟨0, 8, 0, 15⟩ = .ok st1 ∧
      hashFindVal st1.coverageHash "chr1" = some coverage1 ∧
      coverage1.length = (List.replicate 10 0).length ∧
      ∀ p, coverage1[p]? =
        if 8 ≤ p ∧ p < min (8 + 30) (findChromMax [("chr1", [⟨"chr1", 0, 10⟩])] "chr1")
        then ((List.replicate 10 0)[p]?).map (fun v => (v + 1) % UINT_MOD)
        else (List.replicate 10 0)[p]? :=
  C8_forward_strand_interval [("chr1", [⟨"chr1", 0, 10⟩])] ["chr1"]
    (initialState [("chr1", List.replicate 10 0)]) ⟨0, 8, 0, 15⟩ "chr1"
    (List.replicate 10 0) 30 (by decide) (by decide)
    (initialState_cacheOk _ _ _) rfl (by decide) rfl rfl (by decide) (by decide)

/-- C9 (no expansion): with expansion 0 the projected interval is the raw
interval `[position, CIGAR-derived end)` for every record, whatever its strand
flag and whatever `chromMax`; a record and the same record with the strand flag
flipped act alike on every state, so the stores after two files that differ in
the strand of one record are equal; and for a kept record whose raw interval
ends inside the chromosome's array, exactly the counters of the raw interval
are incremented. -/
theorem C9_no_expansion_raw_interval (noGapHash : Hash (List Bed)) (targetName : List String)
    (st : ReadState) (b : Bam1) (chrom : String) (coverage : List Nat)
    (hc : CacheOk noGapHash targetName st) (hk : keepRead b = true)
    (ht : targetNameAt targetName b.tid = .ok chrom)
    (hv : hashFindVal st.coverageHash chrom = some coverage)
    (hend : b.calend ≤ coverage.length) :
    (∀ (b1 : Bam1) (chromMax : Nat),
      projectRead 0 b1 chromMax = (toUnsigned b1.pos, b1.calend)) ∧
    (∀ (st0 : ReadState) (b1 : Bam1),
      addReadCountsStep noGapHash targetName 0 st0
          { b1 with flag := b1.flag ^^^ BAM_FREVERSE }
        = addReadCountsStep noGapHash targetName 0 st0 b1) ∧
    (∀ (coverageHash : Hash (List Nat)) (pre post : List Bam1) (b1 : Bam1),
      addReadCounts noGapHash coverageHash targetName 0
          (pre ++ { b1 with flag := b1.flag ^^^ BAM_FREVERSE } :: post)
        = addReadCounts noGapHash coverageHash targetName 0 (pre ++ b1 :: post)) ∧
    ∃ st1 coverage1,
      addReadCountsStep noGapHash targetName 0 st b = .ok st1 ∧
      hashFindVal st1.coverageHash chrom = some coverage1 ∧
      coverage1.length = coverage.length ∧
      ∀ p, coverage1[p]? =
        if toUnsigned b.pos ≤ p ∧ p < b.calend
        then (coverage[p]?).map (fun v => (v + 1) % UINT_MOD) else coverage[p]? := by
  have hstep : ∀ (st0 : ReadState) (b1 : Bam1),
      addReadCountsStep noGapHash targetName 0 st0
          { b1 with flag := b1.flag ^^^ BAM_FREVERSE }
        = addReadCountsStep noGapHash targetName 0 st0 b1 := by
    intro st0 b1
    simp only [addReadCountsStep, keepRead_flip_strand, projectRead_zero, resolveChrom]
  refine ⟨projectRead_zero, hstep, ?_, ?_⟩
  · intro coverageHash pre post b1
    rw [addReadCounts_eq_map, addReadCounts_eq_map, addReadCountsLoop_append,
      addReadCountsLoop_append]
    cases addReadCountsLoop noGapHash targetName 0 pre (initialState coverageHash) with
    | error err => rfl
    | ok st1 => simp only [addReadCountsLoop, hstep]
  · obtain ⟨st1, cov1, h1, h2, h3, h4, _⟩ :=
      addReadCountsStep_interval 0 hc hk ht hv
        (by rw [projectRead_zero]; intro _; exact hend)
    rw [projectRead_zero] at h4
    exact ⟨st1, cov1, h1, h2, h3, h4⟩

/-- C9 at a reverse-strand read on `[2,5)` with expansion 0: the counters of
`[2,5)` are incremented, as for the forward read. -/
theorem C9_no_expansion_raw_interval_witness :
    addReadCountsStep [("chr1", [⟨"chr1", 0, 10⟩])] ["chr1"] 0
        (initialState [("chr1", List.replicate 10 0)]) ⟨0, 2, 16, 5⟩
      = addReadCountsStep [("chr1", [⟨"chr1", 0, 10⟩])] ["chr1"] 0
        (initialState [("chr1", List.replicate 10 0)]) ⟨0, 2, 0, 5⟩ ∧
    ∃ st1 coverage1,
      addReadCountsStep [("chr1", [⟨"chr1", 0, 10⟩])] ["chr1"] 0
        (initialState [("chr1", List.replicate 10 0)]) ⟨0, 2, 16, 5⟩ = .ok st1 ∧
      hashFindVal st1.coverageHash "chr1" = some coverage1 ∧
      coverage1.length = (List.replicate 10 0).length ∧
      ∀ p, coverage1[p]? =
        if 2 ≤ p ∧ p < 5
        then ((List.replicate 10 0)[p]?).map (fun v => (v + 1) % UINT_MOD)
        else (List.replicate 10 0)[p]? :=
  have h := C9_no_expansion_raw_interval [("chr1", [⟨"chr1", 0, 10⟩])] ["chr1"]
    (initialState [("chr1", List.replicate 10 0)]) ⟨0, 2, 16, 5⟩ "chr1"
    (List.replicate 10 0) (initialState_cacheOk _ _ _) rfl rfl rfl (by decide)
  ⟨(h.2.1 (initialState [("chr1", List.replicate 10 0)]) ⟨0, 2, 0, 5⟩), h.2.2.2⟩

/-- C10 (records on a chromosome without an array are skipped): when the
record's chromosome has no entry in the store, the iteration ends normally and
leaves the whole store as it is, at every expansion setting; and the store after
a whole file, hence what the writers print, is the same with and without the
record. -/
theorem C10_unknown_chromosome_skipped (noGapHash : Hash (List Bed))
    (targetName : List String) (optExpansion : Int) (b : Bam1) (chrom : String)
    (coverageHash : Hash (List Nat))
    (ht : targetNameAt targetName b.tid = .ok chrom)
    (hv : hashFindVal coverageHash chrom = none) :
    (∀ st, CacheOk noGapHash targetName st → st.coverageHash = coverageHash →
      ∃ st1, addReadCountsStep noGapHash targetName optExpansion st b = .ok st1 ∧
        st1.coverageHash = coverageHash) ∧
    ∀ pre post : List Bam1, (∀ r ∈ post, ValidTarget targetName r) →
      addReadCounts noGapHash coverageHash targetName optExpansion (pre ++ b :: post) =
        addReadCounts noGapHash coverageHash targetName optExpansion (pre ++ post) := by
  have hvalid : ValidTarget targetName b := fun _ => ⟨chrom, ht⟩
  have key : ∀ st, CacheOk noGapHash targetName st →
      hashFindIdx st.coverageHash chrom = none →
      ∃ st1, addReadCountsStep noGapHash targetName optExpansion st b = .ok st1 ∧
        st1.coverageHash = st.coverageHash := by
    intro st hc hidx
    have hfresh : addReadCountsFresh noGapHash targetName optExpansion st.coverageHash b
        = .ok st.coverageHash := by
      unfold addReadCountsFresh
      by_cases hk : keepRead b = true
      · simp only [hk, if_true, ht, hidx]
      · simp only [hk]
        rfl
    exact (addReadCountsStep_fresh optExpansion hc hvalid).2 _ hfresh
  constructor
  · intro st hc hst
    obtain ⟨st1, h1, h2⟩ := key st hc (by rw [hst, hashFindIdx_eq_none]; exact hv)
    exact ⟨st1, h1, by rw [h2, hst]⟩
  · intro pre post hpost
    refine addReadCounts_skip noGapHash coverageHash targetName optExpansion pre post b hpost ?_
    intro st hc hidx
    exact key st hc (by rw [hidx chrom, hashFindIdx_eq_none]; exact hv)

/-- C10 at a read on `chr2` when the store holds `chr1` only. -/
theorem C10_unknown_chromosome_skipped_witness :
    ∃ st1, addReadCountsStep [("chr1", [⟨"chr1", 0, 10⟩])] ["chr1", "chr2"] 3
        (initialState [("chr1", List.replicate 10 0)]) ⟨1, 3, 0, 8⟩ = .ok st1 ∧
      st1.coverageHash = [("chr1", List.replicate 10 0)] :=
  (C10_unknown_chromosome_skipped [("chr1", [⟨"chr1", 0, 10⟩])] ["chr1", "chr2"] 3
    ⟨1, 3, 0, 8⟩ "chr2" [("chr1", List.replicate 10 0)] rfl rfl).1
    (initialState [("chr1", List.replicate 10 0)]) (initialState_cacheOk _ _ _) rfl

/-! ## Maximum end coordinate -/

theorem maxEndLoop_spec :
    ∀ (l : List Bed) (m : Nat), m ≤ maxEndLoop l m ∧
      (∀ b ∈ l, b.chromEnd ≤ maxEndLoop l m) ∧
      (maxEndLoop l m = m ∨ ∃ b ∈ l, b.chromEnd = maxEndLoop l m) := by
  intro l
  induction l with
  | nil => intro m; simp [maxEndLoop]
  | cons bunk rest ih =>
    intro m
    simp only [maxEndLoop]
    obtain ⟨h1, h2, h3⟩ := ih (if bunk.chromEnd > m then bunk.chromEnd else m)
    by_cases hgt : bunk.chromEnd > m
    · simp only [hgt, if_true] at h1 h2 h3 ⊢
      refine ⟨by omega, ?_, ?_⟩
      · intro b hb
        rcases List.mem_cons.mp hb with h | h
        · subst h; exact h1
        · exact h2 b h
      · right
        rcases h3 with h | ⟨b, hb, h⟩
        · exact ⟨bunk, List.mem_cons_self _ _, h.symm⟩
        · exact ⟨b, List.mem_cons_of_mem _ hb, h⟩
    · simp only [hgt, if_false] at h1 h2 h3 ⊢
      refine ⟨h1, ?_, ?_⟩
      · intro b hb
        rcases List.mem_cons.mp hb with h | h
        · subst h; omega
        · exact h2 b h
      · rcases h3 with h | ⟨b, hb, h⟩
        · exact Or.inl h
        · exact Or.inr ⟨b, List.mem_cons_of_mem _ hb, h⟩

/-- The scan from 0 over a non-empty list returns the end of one of its intervals. -/
theorem maxEndLoop_attained (l : List Bed) (hl : l ≠ []) :
    ∃ b ∈ l, b.chromEnd = maxEndLoop l 0 := by
  obtain ⟨_, h2, h3⟩ := maxEndLoop_spec l 0
  rcases h3 with h | h
  · cases l with
    | nil => exact absurd rfl hl
    | cons b rest =>
      refine ⟨b, List.mem_cons_self _ _, ?_⟩
      have := h2 b (List.mem_cons_self _ _)
      omega
  · exact h

/-- C15 (`findChromMax` is the maximum end coordinate): when the chromosome is a
key of the catalog, `findChromMax` is at least the end of every interval of the
chromosome's list and, the list being non-empty, is the end of one of them; when
the chromosome is absent it is 0. -/
theorem C15_findChromMax_is_max (noGapHash : Hash (List Bed)) (chrom : String) :
    (∀ l, hashFindVal noGapHash chrom = some l →
      (∀ b ∈ l, b.chromEnd ≤ findChromMax noGapHash chrom) ∧
        (l ≠ [] → ∃ b ∈ l, b.chromEnd = findChromMax noGapHash chrom)) ∧
    (hashFindVal noGapHash chrom = none → findChromMax noGapHash chrom = 0) := by
  constructor
  · intro l hl
    simp only [findChromMax, hl]
    exact ⟨(maxEndLoop_spec l 0).2.1, maxEndLoop_attained l⟩
  · intro hnone
    simp only [findChromMax, hnone]

/-- C15 at the catalog `chr1 0 10`, `chr1 20 25`: the maximum for `chr1` is 25
and the value for the absent `chr2` is 0. -/
theorem C15_findChromMax_is_max_witness :
    ((∀ b ∈ [(⟨"chr1", 0, 10⟩ : Bed), ⟨"chr1", 20, 25⟩],
        b.chromEnd ≤ findChromMax [("chr1", [⟨"chr1", 0, 10⟩, ⟨"chr1", 20, 25⟩])] "chr1") ∧
      ∃ b ∈ [(⟨"chr1", 0, 10⟩ : Bed), ⟨"chr1", 20, 25⟩],
        b.chromEnd = findChromMax [("chr1", [⟨"chr1", 0, 10⟩, ⟨"chr1", 20, 25⟩])] "chr1") ∧
    findChromMax [("chr1", [⟨"chr1", 0, 10⟩, ⟨"chr1", 20, 25⟩])] "chr1" = 25 ∧
    findChromMax [("chr1", [⟨"chr1", 0, 10⟩, ⟨"chr1", 20, 25⟩])] "chr2" = 0 :=
  have h1 := (C15_findChromMax_is_max [("chr1", [⟨"chr1", 0, 10⟩, ⟨"chr1", 20, 25⟩])]
    "chr1").1 [⟨"chr1", 0, 10⟩, ⟨"chr1", 20, 25⟩] rfl
  ⟨⟨h1.1, h1.2 (by simp)⟩, rfl,
    (C15_findChromMax_is_max [("chr1", [⟨"chr1", 0, 10⟩, ⟨"chr1", 20, 25⟩])] "chr2").2 rfl⟩

/-! ## Empty projected intervals -/

theorem list_set_self {α : Type} (l : List α) (i : Nat) (a : α) (h : l[i]? = some a) :
    l.set i a = l := by
  induction l generalizing i with
  | nil => rfl
  | cons x rest ih =>
    cases i with
    | zero =>
      simp at h
      subst h
      rfl
    | succ j =>
      simp at h
      simp only [List.set_cons_succ, ih j h]

/-- The counting loop over an interval with `end <= start` returns the store as
it is. -/
theorem addCounts_empty {coverageHash : Hash (List Nat)} {chrom : String} {i : Nat}
    (s e : Nat) (hi : hashFindIdx coverageHash chrom = some i) (hle : e ≤ s) :
    addCounts coverageHash i s e = .ok coverageHash := by
  obtain ⟨w, h1, _⟩ := hashFindIdx_get coverageHash chrom i hi
  have hzero : e - s = 0 := by omega
  unfold addCounts
  rw [h1]
  simp only [hzero, incrLoop]
  rw [list_set_self coverageHash i (chrom, w) h1]

/-- C18 (a forward read that starts at or beyond the chromosome's maximum end):
with an expansion `E > 0`, a kept forward-strand record on a header target whose
start is at least `findChromMax` of its chromosome (which is 0 when the catalog
does not know the chromosome) is projected to an interval with `end <= start`,
and the iteration ends normally with every counter of the store unchanged. -/
theorem C18_start_beyond_chromMax (noGapHash : Hash (List Bed)) (targetName : List String)
    (optExpansion : Int) (st : ReadState) (b : Bam1) (chrom : String)
    (hE : 0 < optExpansion)
    (hc : CacheOk noGapHash targetName st) (hk : keepRead b = true)
    (hfwd : b.flag &&& BAM_FREVERSE = 0)
    (ht : targetNameAt targetName b.tid = .ok chrom)
    (hstart : findChromMax noGapHash chrom ≤ toUnsigned b.pos) :
    (projectRead optExpansion b (findChromMax noGapHash chrom)).2
        ≤ (projectRead optExpansion b (findChromMax noGapHash chrom)).1 ∧
    ∃ st1, addReadCountsStep noGapHash targetName optExpansion st b = .ok st1 ∧
      st1.coverageHash = st.coverageHash := by
  have hne : optExpansion ≠ 0 := by omega
  have hproj : projectRead optExpansion b (findChromMax noGapHash chrom)
      = (toUnsigned b.pos,
        minUnsigned ((toUnsigned b.pos + toUnsigned optExpansion) % UINT_MOD)
          (findChromMax noGapHash chrom)) := by
    simp only [projectRead, ne_eq, hne, not_false_eq_true, if_true, hfwd, not_true_eq_false,
      if_false]
  have hle : (projectRead optExpansion b (findChromMax noGapHash chrom)).2
      ≤ (projectRead optExpansion b (findChromMax noGapHash chrom)).1 := by
    rw [hproj, minUnsigned_eq_min]
    exact le_trans (Nat.min_le_right _ _) hstart
  refine ⟨hle, ?_⟩
  have hvalid : ValidTarget targetName b := fun _ => ⟨chrom, ht⟩
  have hfresh : addReadCountsFresh noGapHash targetName optExpansion st.coverageHash b
      = .ok st.coverageHash := by
    unfold addReadCountsFresh
    simp only [hk, if_true, ht]
    cases hidx : hashFindIdx st.coverageHash chrom with
    | none => rfl
    | some i => exact addCounts_empty _ _ hidx hle
  exact (addReadCountsStep_fresh optExpansion hc hvalid).2 _ hfresh

/-- C18 at a forward read starting at 12 on the catalog `chr1 0 10` with
expansion 5: the interval is `(12, 10)` and the store is unchanged. -/
theorem C18_start_beyond_chromMax_witness :
    (projectRead 5 ⟨0, 12, 0, 20⟩ (findChromMax [("chr1", [⟨"chr1", 0, 10⟩])] "chr1")).2
        ≤ (projectRead 5 ⟨0, 12, 0, 20⟩ (findChromMax [("chr1", [⟨"chr1", 0, 10⟩])] "chr1")).1 ∧
    ∃ st1, addReadCountsStep [("chr1", [⟨"chr1", 0, 10⟩])] ["chr1"] 5
        (initialState [("chr1", List.replicate 10 0)]) ⟨0, 12, 0, 20⟩ = .ok st1 ∧
      st1.coverageHash = (initialState [("chr1", List.replicate 10 0)]).coverageHash :=
  C18_start_beyond_chromMax [("chr1", [⟨"chr1", 0, 10⟩])] ["chr1"] 5
    (initialState [("chr1", List.replicate 10 0)]) ⟨0, 12, 0, 20⟩ "chr1"
    (by decide) (initialState_cacheOk _ _ _) rfl (by decide) rfl (by decide)

/-! ## The cache against fresh lookups -/

theorem addReadCountsLoop_noCache (noGapHash : Hash (List Bed)) (targetName : List String)
    (optExpansion : Int) :
    ∀ (reads : List Bam1) (st : ReadState), CacheOk noGapHash targetName st →
      (∀ b ∈ reads, ValidTarget targetName b) →
      Except.map ReadState.coverageHash
          (addReadCountsLoop noGapHash targetName optExpansion reads st)
        = addReadCountsNoCache noGapHash targetName optExpansion reads st.coverageHash := by
  intro reads
  induction reads with
  | nil => intro st _ _; rfl
  | cons b rest ih =>
    intro st hc hvalid
    have hvb := hvalid b (List.mem_cons_self _ _)
    have h1 := addReadCountsStep_map_eq optExpansion hc hvb
    simp only [addReadCountsLoop, addReadCountsNoCache]
    rw [← h1]
    cases hs : addReadCountsStep noGapHash targetName optExpansion st b with
    | error err => rfl
    | ok st1 =>
      simp only [Except.map]
      exact ih st1 (addReadCountsStep_cacheOk hc hs).1
        (fun b1 hb1 => hvalid b1 (List.mem_cons_of_mem _ hb1))

/-- C17 (the cache is an optimisation only): for every sequence of records, in
any order, whose kept records name header targets, `addReadCounts` with its
cache keyed on the last reference id ends with exactly the result of the
accumulation that looks the array and `chromMax` up afresh for every kept
record. -/
theorem C17_cache_equals_fresh_lookup (noGapHash : Hash (List Bed))
    (coverageHash : Hash (List Nat)) (targetName : List String) (optExpansion : Int)
    (reads : List Bam1) (hvalid : ∀ b ∈ reads, ValidTarget targetName b) :
    addReadCounts noGapHash coverageHash targetName optExpansion reads
      = addReadCountsNoCache noGapHash targetName optExpansion reads coverageHash := by
  rw [addReadCounts_eq_map]
  exact addReadCountsLoop_noCache noGapHash targetName optExpansion reads
    (initialState coverageHash) (initialState_cacheOk noGapHash targetName coverageHash) hvalid

/-- C17 at three reads that alternate between `chr1` and `chr2`. -/
theorem C17_cache_equals_fresh_lookup_witness :
    addReadCounts [("chr1", [⟨"chr1", 0, 6⟩]), ("chr2", [⟨"chr2", 0, 4⟩])]
        [("chr1", List.replicate 6 0), ("chr2", List.replicate 4 0)] ["chr1", "chr2"] 2
        [⟨0, 1, 0, 4⟩, ⟨1, 0, 0, 3⟩, ⟨0, 3, 16, 5⟩]
      = addReadCountsNoCache [("chr1", [⟨"chr1", 0, 6⟩]), ("chr2", [⟨"chr2", 0, 4⟩])]
        ["chr1", "chr2"] 2 [⟨0, 1, 0, 4⟩, ⟨1, 0, 0, 3⟩, ⟨0, 3, 16, 5⟩]
        [("chr1", List.replicate 6 0), ("chr2", List.replicate 4 0)] :=
  C17_cache_equals_fresh_lookup [("chr1", [⟨"chr1", 0, 6⟩]), ("chr2", [⟨"chr2", 0, 4⟩])]
    [("chr1", List.replicate 6 0), ("chr2", List.replicate 4 0)] ["chr1", "chr2"] 2
    [⟨0, 1, 0, 4⟩, ⟨1, 0, 0, 3⟩, ⟨0, 3, 16, 5⟩]
    (by
      intro b hb _
      simp only [List.mem_cons, List.mem_singleton, List.not_mem_nil, or_false] at hb
      rcases hb with h | h | h
      · subst h; exact ⟨"chr1", rfl⟩
      · subst h; exact ⟨"chr2", rfl⟩
      · subst h; exact ⟨"chr1", rfl⟩)

/-! ## Order of the records and sums of counters -/

/-- Counting invariant of the `while` loop for arbitrary starting counters: a
counter that no record covers keeps its value, and a counter covered by `k > 0`
records ends as its value plus `k`, modulo `2^32`. -/
theorem addReadCountsLoop_counts_any (noGapHash : Hash (List Bed)) (targetName : List String)
    (optExpansion : Int) :
    ∀ (reads : List Bam1) (st : ReadState), CacheOk noGapHash targetName st →
      (∀ b ∈ reads, ValidTarget targetName b) →
      (∀ b ∈ reads, InBounds noGapHash targetName optExpansion st.coverageHash b) →
      ∃ st1, addReadCountsLoop noGapHash targetName optExpansion reads st = .ok st1 ∧
        (∀ c, hashFindVal st.coverageHash c = none → hashFindVal st1.coverageHash c = none) ∧
        ∀ c coverage, hashFindVal st.coverageHash c = some coverage →
          ∃ coverage1, hashFindVal st1.coverageHash c = some coverage1 ∧
            coverage1.length = coverage.length ∧
            ∀ p v, coverage[p]? = some v → coverage1[p]? = some
              (if reads.countP (coversPosition noGapHash targetName optExpansion c p) = 0
                then v
                else (v + reads.countP (coversPosition noGapHash targetName optExpansion c p))
                  % UINT_MOD) := by
  intro reads
  induction reads with
  | nil =>
    intro st _ _ _
    refine ⟨st, rfl, fun _ h => h, ?_⟩
    intro c coverage hcov
    refine ⟨coverage, hcov, rfl, ?_⟩
    intro p v hpv
    simp [hpv]
  | cons b rest ih =>
    intro st hc hvalid hin
    have hvb := hvalid b (List.mem_cons_self _ _)
    obtain ⟨h1, hf, hnone, hsome⟩ :=
      addReadCountsFresh_spec optExpansion hvb (hin b (List.mem_cons_self _ _))
    obtain ⟨st1, hstep, hh1⟩ := (addReadCountsStep_fresh optExpansion hc hvb).2 h1 hf
    have hc1 := ((addReadCountsStep_fresh optExpansion hc hvb).1 st1 hstep).2
    subst hh1
    have hin1 : ∀ b1 ∈ rest,
        InBounds noGapHash targetName optExpansion st1.coverageHash b1 := by
      intro b1 hb1
      refine (hin b1 (List.mem_cons_of_mem _ hb1)).transfer hnone ?_
      intro c coverage hcov
      obtain ⟨cov1, h2, h3, _⟩ := hsome c coverage hcov
      exact ⟨cov1, h2, h3⟩
    obtain ⟨st2, hloop, hnone2, hsome2⟩ :=
      ih st1 hc1 (fun b1 hb1 => hvalid b1 (List.mem_cons_of_mem _ hb1)) hin1
    refine ⟨st2, ?_, fun c h => hnone2 c (hnone c h), ?_⟩
    · simp only [addReadCountsLoop, hstep]
      exact hloop
    · intro c coverage hcov
      obtain ⟨cov1, h2, h3, h4⟩ := hsome c coverage hcov
      obtain ⟨cov2, h5, h6, h7⟩ := hsome2 c cov1 h2
      refine ⟨cov2, h5, by rw [h6, h3], ?_⟩
      intro p v hpv
      have hstep1 := h4 p v hpv
      rw [h7 p _ hstep1, List.countP_cons]
      congr 1
      by_cases hcp : coversPosition noGapHash targetName optExpansion c p b = true
      · simp only [hcp, if_true]
        by_cases hz : List.countP (coversPosition noGapHash targetName optExpansion c p) rest = 0
        · simp [hz]
        · have hnz : ¬ (List.countP (coversPosition noGapHash targetName optExpansion c p) rest
              + 1 = 0) := by omega
          rw [if_neg hz, if_neg hnz, Nat.add_mod, Nat.mod_mod, ← Nat.add_mod]
          congr 1
          omega
      · simp only [hcp]
        simp

/-- C20 (the order of the records does not matter): for every catalog, header,
expansion setting and starting store, and every sequence of records that name
header targets and whose projected intervals lie inside the arrays,
`addReadCounts` ends normally on the sequence and on every permutation of it,
and both runs leave the same array for every chromosome. -/
theorem C20_order_independent (noGapHash : Hash (List Bed)) (coverageHash : Hash (List Nat))
    (targetName : List String) (optExpansion : Int) (reads1 reads2 : List Bam1)
    (hperm : reads2.Perm reads1)
    (hvalid : ∀ b ∈ reads1, ValidTarget targetName b)
    (hin : ∀ b ∈ reads1, InBounds noGapHash targetName optExpansion coverageHash b) :
    ∃ store1 store2,
      addReadCounts noGapHash coverageHash targetName optExpansion reads1 = .ok store1 ∧
      addReadCounts noGapHash coverageHash targetName optExpansion reads2 = .ok store2 ∧
      ∀ c, hashFindVal store1 c = hashFindVal store2 c := by
  obtain ⟨st1, hl1, hnone1, hsome1⟩ :=
    addReadCountsLoop_counts_any noGapHash targetName optExpansion reads1
      (initialState coverageHash) (initialState_cacheOk _ _ _) hvalid hin
  obtain ⟨st2, hl2, hnone2, hsome2⟩ :=
    addReadCountsLoop_counts_any noGapHash targetName optExpansion reads2
      (initialState coverageHash) (initialState_cacheOk _ _ _)
      (fun b hb => hvalid b (hperm.mem_iff.mp hb))
      (fun b hb => hin b (hperm.mem_iff.mp hb))
  refine ⟨st1.coverageHash, st2.coverageHash, by simp only [addReadCounts, hl1],
    by simp only [addReadCounts, hl2], ?_⟩
  intro c
  cases hc0 : hashFindVal coverageHash c with
  | none => rw [hnone1 c hc0, hnone2 c hc0]
  | some cov0 =>
    obtain ⟨cov1, h1, h2, h3⟩ := hsome1 c cov0 hc0
    obtain ⟨cov2, h4, h5, h6⟩ := hsome2 c cov0 hc0
    rw [h1, h4]
    congr 1
    apply List.ext_getElem?
    intro p
    by_cases hp : p < cov0.length
    · have hget : cov0[p]? = some cov0[p] := List.getElem?_eq_getElem hp
      rw [h3 p _ hget, h6 p _ hget,
        hperm.countP_eq (coversPosition noGapHash targetName optExpansion c p)]
    · rw [List.getElem?_eq_none (by omega), List.getElem?_eq_none (by omega)]

/-- C20 at two overlapping reads on `chr1` in both orders. -/
theorem C20_order_independent_witness :
    ∃ store1 store2,
      addReadCounts [("chr1", [⟨"chr1", 0, 6⟩])] [("chr1", List.replicate 6 0)] ["chr1"] 0
        [⟨0, 1, 0, 4⟩, ⟨0, 3, 16, 5⟩] = .ok store1 ∧
      addReadCounts [("chr1", [⟨"chr1", 0, 6⟩])] [("chr1", List.replicate 6 0)] ["chr1"] 0
        [⟨0, 3, 16, 5⟩, ⟨0, 1, 0, 4⟩] = .ok store2 ∧
      ∀ c, hashFindVal store1 c = hashFindVal store2 c :=
  C20_order_independent [("chr1", [⟨"chr1", 0, 6⟩])] [("chr1", List.replicate 6 0)] ["chr1"] 0
    [⟨0, 1, 0, 4⟩, ⟨0, 3, 16, 5⟩] [⟨0, 3, 16, 5⟩, ⟨0, 1, 0, 4⟩]
    (List.Perm.swap _ _ _)
    (by
      intro b hb _
      simp only [List.mem_cons, List.mem_singleton, List.not_mem_nil, or_false] at hb
      rcases hb with h | h
      · subst h; exact ⟨"chr1", rfl⟩
      · subst h; exact ⟨"chr1", rfl⟩)
    (by
      intro b hb chrom coverage ht hv _
      have hcov : coverage = List.replicate 6 0 := by
        simp only [List.mem_cons, List.mem_singleton, List.not_mem_nil, or_false] at hb
        rcases hb with h | h
        · subst h
          have h2 : (Except.ok "chr1" : Except Fault String) = .ok chrom := ht
          injection h2 with h3
          subst h3
          have h5 : some (List.replicate 6 0) = some coverage := hv
          injection h5 with h6
          exact h6.symm
        · subst h
          have h2 : (Except.ok "chr1" : Except Fault String) = .ok chrom := ht
          injection h2 with h3
          subst h3
          have h5 : some (List.replicate 6 0) = some coverage := hv
          injection h5 with h6
          exact h6.symm
      subst hcov
      simp only [List.mem_cons, List.mem_singleton, List.not_mem_nil, or_false] at hb
      rcases hb with h | h
      · subst h
        have h2 : (Except.ok "chr1" : Except Fault String) = .ok chrom := ht
        injection h2 with h3
        subst h3
        decide
      · subst h
        have h2 : (Except.ok "chr1" : Except Fault String) = .ok chrom := ht
        injection h2 with h3
        subst h3
        decide)

/-- From the zero store built from the catalog the run ends normally and every
counter is the number of records that cover its position. -/
theorem addReadCounts_pointwise (noGapHash : Hash (List Bed)) (targetName : List String)
    (optExpansion : Int) (reads : List Bam1) (store0 : Hash (List Nat))
    (hbuild : buildCoverageHash noGapHash = .ok store0)
    (hvalid : ∀ b ∈ reads, ValidTarget targetName b)
    (hin : ∀ b ∈ reads, InBounds noGapHash targetName optExpansion store0 b)
    (hovf : reads.length < UINT_MOD) :
    ∃ store, addReadCounts noGapHash store0 targetName optExpansion reads = .ok store ∧
      ∀ c coverage, hashFindVal store c = some coverage →
        (hashFindVal store0 c).map List.length = some coverage.length ∧
        ∀ p, p < coverage.length → coverage[p]? = some
          (reads.countP (coversPosition noGapHash targetName optExpansion c p)) := by
  obtain ⟨st1, hloop, _, hnone, hsome⟩ :=
    addReadCountsLoop_counts noGapHash targetName optExpansion reads (initialState store0)
      (initialState_cacheOk noGapHash targetName store0) hvalid hin
  refine ⟨st1.coverageHash, by simp only [addReadCounts, hloop], ?_⟩
  intro c coverage hcov
  cases hc0 : hashFindVal store0 c with
  | none =>
    have h := hnone c hc0
    rw [hcov] at h
    cases h
  | some cov0 =>
    obtain ⟨cov1, h1, h2, h3⟩ := hsome c cov0 hc0
    rw [hcov] at h1
    cases h1
    refine ⟨by simp [h2], ?_⟩
    intro p hp
    have hp0 : p < cov0.length := by omega
    have hget : cov0[p]? = some cov0[p] := List.getElem?_eq_getElem hp0
    have hz : cov0[p] = 0 := buildCoverageHash_zero hbuild c cov0 hc0 p _ hget
    rw [h3 p _ hget (by rw [hz]; decide), hz, Nat.zero_add]
    congr 1
    apply Nat.mod_eq_of_lt
    exact lt_of_le_of_lt (List.countP_le_length _) hovf

theorem sum_range_indicator (s e : Nat) :
    ∀ n : Nat, ((List.range n).map (fun p => if s ≤ p ∧ p < e then 1 else 0)).sum
      = min e n - min s n := by
  intro n
  induction n with
  | zero => simp
  | succ n ih =>
    rw [List.range_succ, List.map_append, List.sum_append, ih]
    simp only [List.map_cons, List.map_nil, List.sum_cons, List.sum_nil, Nat.add_zero]
    by_cases h : s ≤ n ∧ n < e
    · rw [if_pos h]; omega
    · rw [if_neg h]; omega

theorem sum_countP_exchange {α : Type} (f : Nat → α → Bool) (l : List Nat) :
    ∀ reads : List α, (l.map (fun p => reads.countP (f p))).sum
      = (reads.map (fun b => (l.map (fun p => if f p b = true then 1 else 0)).sum)).sum := by
  intro reads
  induction reads with
  | nil => simp
  | cons b rest ih =>
    simp only [List.countP_cons, List.map_cons, List.sum_cons]
    rw [List.sum_map_add, ih]
    omega

theorem list_eq_map_range (l : List Nat) (f : Nat → Nat)
    (h : ∀ p, p < l.length → l[p]? = some (f p)) : l = (List.range l.length).map f := by
  apply List.ext_getElem?
  intro p
  by_cases hp : p < l.length
  · rw [h p hp]
    simp [hp]
  · rw [List.getElem?_eq_none (by omega), List.getElem?_eq_none (by simp; omega)]

/-- Number of positions below `n` that a record covers on `chrom`, when its
projected interval is empty or ends at or below `n`. -/
theorem sum_coversPosition (noGapHash : Hash (List Bed)) (targetName : List String)
    (optExpansion : Int) (chrom : String) (b : Bam1) (n : Nat)
    (hb : onChrom targetName chrom b = true →
      (projectRead optExpansion b (findChromMax noGapHash chrom)).1
        < (projectRead optExpansion b (findChromMax noGapHash chrom)).2 →
      (projectRead optExpansion b (findChromMax noGapHash chrom)).2 ≤ n) :
    ((List.range n).map (fun p =>
        if coversPosition noGapHash targetName optExpansion chrom p b = true then 1 else 0)).sum
      = projectedLength noGapHash targetName optExpansion chrom b := by
  by_cases hon : onChrom targetName chrom b = true
  · have hk : keepRead b = true := by
      simp only [onChrom, Bool.and_eq_true] at hon
      exact hon.1
    have ht : targetNameAt targetName b.tid = .ok chrom := by
      simp only [onChrom, Bool.and_eq_true] at hon
      cases h : targetNameAt targetName b.tid with
      | error err => rw [h] at hon; simp at hon
      | ok c =>
        rw [h] at hon
        simp at hon
        rw [hon.2]
    have hfun : (fun p : Nat =>
        if coversPosition noGapHash targetName optExpansion chrom p b = true then 1 else 0)
        = (fun p : Nat =>
          if (projectRead optExpansion b (findChromMax noGapHash chrom)).1 ≤ p ∧
            p < (projectRead optExpansion b (findChromMax noGapHash chrom)).2 then 1 else 0) := by
      funext p
      simp [coversPosition, hk, ht]
    rw [hfun, sum_range_indicator]
    simp only [projectedLength, hon, if_true]
    have := hb hon
    omega
  · have hfun : (fun p : Nat =>
        if coversPosition noGapHash targetName optExpansion chrom p b = true then 1 else 0)
        = (fun _ : Nat => 0) := by
      funext p
      have : coversPosition noGapHash targetName optExpansion chrom p b = false := by
        simp only [onChrom, Bool.and_eq_true, not_and] at hon
        simp only [coversPosition]
        by_cases hk : keepRead b = true
        · have h2 := hon hk
          cases h : targetNameAt targetName b.tid with
          | error err => simp
          | ok c =>
            rw [h] at h2
            simp at h2
            simp [h2]
        · simp [hk]
      simp [this]
    rw [hfun]
    simp [projectedLength, hon]

theorem sum_projectedLength_const (noGapHash : Hash (List Bed)) (targetName : List String)
    (optExpansion : Int) (c : String) (L : Nat) :
    ∀ reads : List Bam1,
      (∀ b ∈ reads, onChrom targetName c b = true →
        projectedLength noGapHash targetName optExpansion c b = L) →
      (reads.map (projectedLength noGapHash targetName optExpansion c)).sum
        = reads.countP (onChrom targetName c) * L := by
  intro reads
  induction reads with
  | nil => intro _; simp
  | cons b rest ih =>
    intro hL
    simp only [List.map_cons, List.sum_cons, List.countP_cons]
    rw [ih (fun b1 hb1 => hL b1 (List.mem_cons_of_mem _ hb1))]
    by_cases hon : onChrom targetName c b = true
    · rw [hL b (List.mem_cons_self _ _) hon, if_pos hon]
      ring
    · have : projectedLength noGapHash targetName optExpansion c b = 0 := by
        simp [projectedLength, hon]
      rw [this, if_neg hon]
      ring

/-- C11 (sum of the counters of a chromosome): from the all-zero store built from
the catalog, after fewer than `2^32` records that name header targets and whose
projected intervals lie inside the arrays, the counters of a chromosome add up
to the sum of the lengths `end - start` of the projected intervals of the kept
records on that chromosome; when each of the `k` kept records on the chromosome
has length `L` the sum is `k * L`. -/
theorem C11_sum_of_counters (noGapHash : Hash (List Bed)) (targetName : List String)
    (optExpansion : Int) (reads : List Bam1) (store0 : Hash (List Nat))
    (hbuild : buildCoverageHash noGapHash = .ok store0)
    (hvalid : ∀ b ∈ reads, ValidTarget targetName b)
    (hin : ∀ b ∈ reads, InBounds noGapHash targetName optExpansion store0 b)
    (hovf : reads.length < UINT_MOD) :
    ∃ store, addReadCounts noGapHash store0 targetName optExpansion reads = .ok store ∧
      ∀ c coverage, hashFindVal store c = some coverage →
        coverage.sum
          = (reads.map (projectedLength noGapHash targetName optExpansion c)).sum ∧
        ∀ L, (∀ b ∈ reads, onChrom targetName c b = true →
            projectedLength noGapHash targetName optExpansion c b = L) →
          coverage.sum = reads.countP (onChrom targetName c) * L := by
  obtain ⟨store, hrun, hpt⟩ := addReadCounts_pointwise noGapHash targetName optExpansion reads
    store0 hbuild hvalid hin hovf
  refine ⟨store, hrun, ?_⟩
  intro c coverage hcov
  obtain ⟨hlen, hval⟩ := hpt c coverage hcov
  have hsum : coverage.sum
      = (reads.map (projectedLength noGapHash targetName optExpansion c)).sum := by
    have heq := list_eq_map_range coverage
      (fun p => reads.countP (coversPosition noGapHash targetName optExpansion c p)) hval
    conv_lhs => rw [heq]
    rw [sum_countP_exchange]
    congr 1
    apply List.map_congr_left
    intro b hb
    apply sum_coversPosition
    intro hon hlt
    have ht : targetNameAt targetName b.tid = .ok c := by
      simp only [onChrom, Bool.and_eq_true] at hon
      cases h : targetNameAt targetName b.tid with
      | error err => rw [h] at hon; simp at hon
      | ok c1 =>
        rw [h] at hon
        simp at hon
        rw [hon.2]
    cases hc0 : hashFindVal store0 c with
    | none => rw [hc0] at hlen; cases hlen
    | some cov0 =>
      rw [hc0] at hlen
      simp at hlen
      rw [← hlen]
      exact hin b hb c cov0 ht hc0 hlt
  refine ⟨hsum, ?_⟩
  intro L hL
  rw [hsum]
  exact sum_projectedLength_const noGapHash targetName optExpansion c L reads hL

theorem validTarget_of_lookup {targetName : List String} {b : Bam1} {chrom : String}
    (ht : targetNameAt targetName b.tid = .ok chrom) : ValidTarget targetName b :=
  fun _ => ⟨chrom, ht⟩

theorem inBounds_of_lookup {noGapHash : Hash (List Bed)} {targetName : List String}
    {optExpansion : Int} {coverageHash : Hash (List Nat)} {b : Bam1} {chrom : String}
    {coverage : List Nat}
    (ht : targetNameAt targetName b.tid = .ok chrom)
    (hv : hashFindVal coverageHash chrom = some coverage)
    (hle : (projectRead optExpansion b (findChromMax noGapHash chrom)).2 ≤ coverage.length) :
    InBounds noGapHash targetName optExpansion coverageHash b := by
  intro chrom1 coverage1 ht1 hv1 _
  rw [ht] at ht1
  cases ht1
  rw [hv] at hv1
  cases hv1
  exact hle

/-- C11 at the catalog `chr1 0 10` with the forward reads `[2,5)` and `[4,7)`,
expansion 0: the counters add up to `3 + 3`, which is `2 * 3`. -/
theorem C11_sum_of_counters_witness :
    addReadCounts [("chr1", [⟨"chr1", 0, 10⟩])] [("chr1", List.replicate 10 0)] ["chr1"] 0
        [⟨0, 2, 0, 5⟩, ⟨0, 4, 0, 7⟩] = .ok [("chr1", [0, 0, 1, 1, 2, 1, 1, 0, 0, 0])] ∧
    ∃ store, addReadCounts [("chr1", [⟨"chr1", 0, 10⟩])] [("chr1", List.replicate 10 0)]
        ["chr1"] 0 [⟨0, 2, 0, 5⟩, ⟨0, 4, 0, 7⟩] = .ok store ∧
      ∀ c coverage, hashFindVal store c = some coverage →
        coverage.sum
          = (List.map (projectedLength [("chr1", [⟨"chr1", 0, 10⟩])] ["chr1"] 0 c)
              [⟨0, 2, 0, 5⟩, ⟨0, 4, 0, 7⟩]).sum ∧
        ∀ L, (∀ b ∈ [(⟨0, 2, 0, 5⟩ : Bam1), ⟨0, 4, 0, 7⟩], onChrom ["chr1"] c b = true →
            projectedLength [("chr1", [⟨"chr1", 0, 10⟩])] ["chr1"] 0 c b = L) →
          coverage.sum
            = List.countP (onChrom ["chr1"] c) [(⟨0, 2, 0, 5⟩ : Bam1), ⟨0, 4, 0, 7⟩] * L :=
  ⟨rfl, C11_sum_of_counters [("chr1", [⟨"chr1", 0, 10⟩])] ["chr1"] 0
    [⟨0, 2, 0, 5⟩, ⟨0, 4, 0, 7⟩] [("chr1", List.replicate 10 0)] rfl
    (by
      intro b hb
      simp only [List.mem_cons, List.mem_singleton, List.not_mem_nil, or_false] at hb
      rcases hb with h | h
      · subst h; exact @validTarget_of_lookup _ _ "chr1" rfl
      · subst h; exact @validTarget_of_lookup _ _ "chr1" rfl)
    (by
      intro b hb
      simp only [List.mem_cons, List.mem_singleton, List.not_mem_nil, or_false] at hb
      rcases hb with h | h
      · subst h
        exact @inBounds_of_lookup _ _ _ _ _ "chr1" (List.replicate 10 0) rfl rfl (by decide)
      · subst h
        exact @inBounds_of_lookup _ _ _ _ _ "chr1" (List.replicate 10 0) rfl rfl (by decide))
    (by decide)⟩

/-! ## The dense writer -/

theorem printCoverageBunks_blocks (coverage : List Nat) :
    ∀ (bunks : List Bed) (out : List WigLine), printCoverageBunks coverage bunks = .ok out →
      ∃ blocks : List (List WigLine),
        List.Forall₂ (fun bunk block => printCoverageBunk coverage bunk = .ok block)
          bunks blocks ∧ out = blocks.flatten := by
  intro bunks
  induction bunks with
  | nil =>
    intro out h
    simp [printCoverageBunks] at h
    subst h
    exact ⟨[], List.Forall₂.nil, rfl⟩
  | cons bunk rest ih =>
    intro out h
    simp only [printCoverageBunks] at h
    cases hb : printCoverageBunk coverage bunk with
    | error err => rw [hb] at h; cases h
    | ok block =>
      rw [hb] at h
      simp only [] at h
      cases hr : printCoverageBunks coverage rest with
      | error err => rw [hr] at h; cases h
      | ok outRest =>
        rw [hr] at h
        simp at h
        subst h
        obtain ⟨blocks, h1, h2⟩ := ih outRest hr
        exact ⟨block :: blocks, List.Forall₂.cons hb h1, by simp [h2]⟩

/-- Shape of the lines that the body of the `bunk` loop of `printCoverage` emits
for one interval that is empty or lies inside the array: the header with start
`s + 1`, then `e - s` value lines, the `i`-th carrying the counter at `s + i`;
and the output for a list of intervals is the concatenation of their blocks. -/
theorem printCoverageBunk_shape (coverage : List Nat) (bunk : Bed)
    (hstart : bunk.chromStart + 1 < UINT_MOD)
    (hlen : bunk.chromStart < bunk.chromEnd → bunk.chromEnd ≤ coverage.length) :
    (∃ vals, printCoverageBunk coverage bunk
          = .ok (WigLine.fixedStep bunk.chrom (bunk.chromStart + 1) :: vals) ∧
        (WigLine.fixedStep bunk.chrom (bunk.chromStart + 1)).render
          = "fixedStep chrom=" ++ bunk.chrom ++ " start=" ++ toString (bunk.chromStart + 1)
            ++ " step=1" ∧
        vals.length = bunk.chromEnd - bunk.chromStart ∧
        ∀ i, i < bunk.chromEnd - bunk.chromStart →
          ∃ v, coverage[bunk.chromStart + i]? = some v ∧ vals[i]? = some (WigLine.value v) ∧
            (WigLine.value v).render = toString v) ∧
    ∀ (bunks : List Bed) (out : List WigLine), printCoverageBunks coverage bunks = .ok out →
      ∃ blocks : List (List WigLine),
        List.Forall₂ (fun bk block => printCoverageBunk coverage bk = .ok block) bunks blocks ∧
        out = blocks.flatten := by
  refine ⟨?_, printCoverageBunks_blocks coverage⟩
  have hok : ∃ vals, printCoverageValues coverage (bunk.chromEnd - bunk.chromStart)
      bunk.chromStart = .ok vals := by
    by_cases hse : bunk.chromStart < bunk.chromEnd
    · exact printCoverageValues_ok coverage _ _ (by have := hlen hse; omega)
    · have hz : bunk.chromEnd - bunk.chromStart = 0 := by omega
      rw [hz]
      exact ⟨[], rfl⟩
  obtain ⟨vals, hvals⟩ := hok
  obtain ⟨h1, _, h3⟩ := printCoverageValues_spec coverage _ _ vals hvals
  refine ⟨vals, ?_, rfl, h1, ?_⟩
  · simp only [printCoverageBunk, hvals, Nat.mod_eq_of_lt hstart]
  · intro i hi
    obtain ⟨h4, _, h6⟩ := h3 i hi
    refine ⟨coverage[bunk.chromStart + i], List.getElem?_eq_getElem h6, ?_, rfl⟩
    rw [h4, List.getElem?_eq_getElem h6]
    rfl

/-! ## The store built from a well-formed catalog -/

theorem hashFindVal_eq_none_iff {α : Type} (h : Hash α) (name : String) :
    hashFindVal h name = none ↔ name ∉ h.map Prod.fst := by
  induction h with
  | nil => simp [hashFindVal]
  | cons kv rest ih =>
    obtain ⟨k, v⟩ := kv
    by_cases hk : k = name
    · simp [hashFindVal, hk]
    · simp only [hashFindVal, hk, if_false, List.map_cons, List.mem_cons, not_or]
      rw [ih]
      exact ⟨fun h => ⟨fun h2 => hk h2.symm, h⟩, fun h => h.2⟩

theorem hashFindVal_map {α β : Type} (f : α → β) (h : Hash α) (name : String) :
    hashFindVal (h.map (fun kv => (kv.1, f kv.2))) name = (hashFindVal h name).map f := by
  induction h with
  | nil => rfl
  | cons kv rest ih =>
    obtain ⟨k, v⟩ := kv
    by_cases hk : k = name
    · simp [hashFindVal, hk]
    · simp only [List.map_cons, hashFindVal, hk, if_false]
      exact ih

theorem chromListFromNoGapHashLoop_eq :
    ∀ (noGapHash : Hash (List Bed)) (headChrom : List SlChrom),
      (∀ kv ∈ noGapHash, kv.2 ≠ [] ∧ ∀ b ∈ kv.2, b.chrom = kv.1) →
      chromListFromNoGapHashLoop noGapHash headChrom
        = .ok ((noGapHash.map (fun kv => (⟨kv.1, maxEndLoop kv.2 0⟩ : SlChrom))).reverse
            ++ headChrom) := by
  intro noGapHash
  induction noGapHash with
  | nil => intro headChrom _; rfl
  | cons kv rest ih =>
    intro headChrom hok
    obtain ⟨k, l⟩ := kv
    obtain ⟨hne, hchrom⟩ := hok (k, l) (List.mem_cons_self _ _)
    cases l with
    | nil => exact absurd rfl hne
    | cons b tail =>
      simp only [chromListFromNoGapHashLoop]
      rw [ih _ (fun kv hkv => hok kv (List.mem_cons_of_mem _ hkv))]
      have hb : b.chrom = k := hchrom b (List.mem_cons_self _ _)
      simp [hb]

theorem chromListToUnsignedHashLoop_eq :
    ∀ (chromList : List SlChrom) (answer : Hash (List Nat)),
      (chromList.map SlChrom.name).Nodup →
      (∀ c ∈ chromList, c.name ∉ answer.map Prod.fst) →
      chromListToUnsignedHashLoop chromList answer
        = .ok ((chromList.reverse.map (fun c => (c.name, List.replicate c.length 0)))
            ++ answer) := by
  intro chromList
  induction chromList with
  | nil => intro answer _ _; rfl
  | cons c rest ih =>
    intro answer hnodup hfresh
    have hc : hashFindVal answer c.name = none :=
      (hashFindVal_eq_none_iff answer c.name).mpr (hfresh c (List.mem_cons_self _ _))
    simp only [chromListToUnsignedHashLoop, hashAddUnique, hc, hashAdd]
    rw [List.map_cons, List.nodup_cons] at hnodup
    rw [ih _ hnodup.2]
    · simp
    · intro c1 hc1
      simp only [List.map_cons, List.mem_cons, not_or]
      refine ⟨?_, hfresh c1 (List.mem_cons_of_mem _ hc1)⟩
      intro heq
      exact hnodup.1 (heq ▸ List.mem_map_of_mem SlChrom.name hc1)

/-- The store built from a well-formed catalog: one zeroed array per entry, in
the order of the entries, of the length that the scan of the entry's list finds. -/
theorem buildCoverageHash_eq (noGapHash : Hash (List Bed)) (hok : CatalogOk noGapHash) :
    buildCoverageHash noGapHash
      = .ok (noGapHash.map (fun kv => (kv.1, List.replicate (maxEndLoop kv.2 0) 0))) := by
  unfold buildCoverageHash chromListFromNoGapHash chromListToUnsignedHash
  rw [chromListFromNoGapHashLoop_eq noGapHash [] hok.2]
  simp only [List.append_nil]
  rw [chromListToUnsignedHashLoop_eq _ [] ?_ (by simp)]
  · simp [List.map_reverse, Function.comp_def]
  · rw [List.map_reverse, List.nodup_reverse, List.map_map]
    exact hok.1

/-- C16 (the store built from the catalog): for every well-formed catalog the
two building steps end normally, the store has exactly the catalog's
chromosomes as keys, and the array of each chromosome `c` has length
`findChromMax catalog c` and holds 0 in every counter. -/
theorem C16_store_from_catalog (noGapHash : Hash (List Bed)) (hok : CatalogOk noGapHash) :
    ∃ store, buildCoverageHash noGapHash = .ok store ∧
      store.map Prod.fst = noGapHash.map Prod.fst ∧
      ∀ c, ((hashFindVal store c).isSome = (hashFindVal noGapHash c).isSome) ∧
        ∀ coverage, hashFindVal store c = some coverage →
          coverage.length = findChromMax noGapHash c ∧
          ∀ p, p < coverage.length → coverage[p]? = some 0 := by
  refine ⟨_, buildCoverageHash_eq noGapHash hok, by simp [Function.comp_def], ?_⟩
  intro c
  rw [hashFindVal_map (fun l => List.replicate (maxEndLoop l 0) 0) noGapHash c]
  refine ⟨by simp, ?_⟩
  intro coverage hcov
  cases hl : hashFindVal noGapHash c with
  | none => rw [hl] at hcov; cases hcov
  | some l =>
    rw [hl] at hcov
    simp at hcov
    subst hcov
    constructor
    · simp only [findChromMax, hl, List.length_replicate]
    · intro p hp
      rw [List.length_replicate] at hp
      simp [hp]

/-- C16 at the catalog with `chr1 0 4`, `chr1 6 9` and `chr2 2 3`. -/
theorem C16_store_from_catalog_witness :
    buildCoverageHash [("chr1", [⟨"chr1", 0, 4⟩, ⟨"chr1", 6, 9⟩]), ("chr2", [⟨"chr2", 2, 3⟩])]
      = .ok [("chr1", List.replicate 9 0), ("chr2", List.replicate 3 0)] ∧
    ∃ store,
      buildCoverageHash [("chr1", [⟨"chr1", 0, 4⟩, ⟨"chr1", 6, 9⟩]), ("chr2", [⟨"chr2", 2, 3⟩])]
        = .ok store ∧
      store.map Prod.fst
        = List.map Prod.fst
          [("chr1", [(⟨"chr1", 0, 4⟩ : Bed), ⟨"chr1", 6, 9⟩]), ("chr2", [⟨"chr2", 2, 3⟩])] ∧
      ∀ c, ((hashFindVal store c).isSome
          = (hashFindVal [("chr1", [(⟨"chr1", 0, 4⟩ : Bed), ⟨"chr1", 6, 9⟩]),
              ("chr2", [⟨"chr2", 2, 3⟩])] c).isSome) ∧
        ∀ coverage, hashFindVal store c = some coverage →
          coverage.length
            = findChromMax [("chr1", [⟨"chr1", 0, 4⟩, ⟨"chr1", 6, 9⟩]),
                ("chr2", [⟨"chr2", 2, 3⟩])] c ∧
          ∀ p, p < coverage.length → coverage[p]? = some 0 :=
  ⟨rfl, C16_store_from_catalog
    [("chr1", [⟨"chr1", 0, 4⟩, ⟨"chr1", 6, 9⟩]), ("chr2", [⟨"chr2", 2, 3⟩])]
    ⟨by decide, by
      intro kv hkv
      simp only [List.mem_cons, List.mem_singleton, List.not_mem_nil, or_false] at hkv
      rcases hkv with h | h
      · subst h
        refine ⟨by simp, ?_⟩
        intro b hb
        simp only [List.mem_cons, List.mem_singleton, List.not_mem_nil, or_false] at hb
        rcases hb with h1 | h1 <;> subst h1 <;> rfl
      · subst h
        refine ⟨by simp, ?_⟩
        intro b hb
        simp only [List.mem_cons, List.mem_singleton, List.not_mem_nil, or_false] at hb
        subst hb
        rfl⟩⟩

/-! ## Faults of the writers -/

theorem printCoverage_eq_writeTrack (noGapHash : Hash (List Bed))
    (coverageHash : Hash (List Nat)) :
    printCoverage noGapHash coverageHash = writeTrack printCoverageBunks noGapHash coverageHash := by
  induction noGapHash with
  | nil => rfl
  | cons kv rest ih =>
    obtain ⟨k, l⟩ := kv
    cases l with
    | nil => rfl
    | cons b tail =>
      simp only [printCoverage, writeTrack, ih]
      cases hashMustFindVal coverageHash b.chrom with
      | error e => rfl
      | ok coverage =>
        simp only []
        cases printCoverageBunks coverage (b :: tail) with
        | error e => rfl
        | ok out =>
          simp only []
          cases writeTrack printCoverageBunks rest coverageHash <;> rfl

theorem printCoverageBedGraph_eq_writeTrack (noGapHash : Hash (List Bed))
    (coverageHash : Hash (List Nat)) :
    printCoverageBedGraph noGapHash coverageHash
      = writeTrack printBedGraphBunks noGapHash coverageHash := by
  induction noGapHash with
  | nil => rfl
  | cons kv rest ih =>
    obtain ⟨k, l⟩ := kv
    cases l with
    | nil => rfl
    | cons b tail =>
      simp only [printCoverageBedGraph, writeTrack, ih]
      cases hashMustFindVal coverageHash b.chrom with
      | error e => rfl
      | ok coverage =>
        simp only []
        cases printBedGraphBunks coverage (b :: tail) with
        | error e => rfl
        | ok out =>
          simp only []
          cases writeTrack printBedGraphBunks rest coverageHash <;> rfl

theorem readAt_error {coverage : List Nat} {i : Nat} {e : Fault}
    (h : readAt coverage i = .error e) : e = .undefinedBehaviour := by
  unfold readAt at h
  cases hc : coverage[i]? with
  | none => rw [hc] at h; cases h; rfl
  | some v => rw [hc] at h; cases h

theorem printCoverageValues_error (coverage : List Nat) :
    ∀ (n basePos : Nat) (e : Fault), printCoverageValues coverage n basePos = .error e →
      e = .undefinedBehaviour := by
  intro n
  induction n with
  | zero => intro _ _ h; cases h
  | succ n ih =>
    intro basePos e h
    unfold printCoverageValues at h
    cases hr : readAt coverage basePos with
    | error err =>
      rw [hr] at h
      cases h
      exact readAt_error hr
    | ok v =>
      rw [hr] at h
      cases hrest : printCoverageValues coverage n (basePos + 1) with
      | error err =>
        rw [hrest] at h
        cases h
        exact ih _ _ hrest
      | ok rest => rw [hrest] at h; cases h

theorem printCoverageBunks_error (coverage : List Nat) :
    ∀ (bunks : List Bed) (e : Fault), printCoverageBunks coverage bunks = .error e →
      e = .undefinedBehaviour := by
  intro bunks
  induction bunks with
  | nil => intro _ h; cases h
  | cons bunk rest ih =>
    intro e h
    simp only [printCoverageBunks] at h
    cases hb : printCoverageBunk coverage bunk with
    | error err =>
      rw [hb] at h
      cases h
      unfold printCoverageBunk at hb
      cases hv : printCoverageValues coverage (bunk.chromEnd - bunk.chromStart)
          bunk.chromStart with
      | error err1 =>
        rw [hv] at hb
        cases hb
        exact printCoverageValues_error coverage _ _ _ hv
      | ok vals => rw [hv] at hb; cases hb
    | ok out =>
      rw [hb] at h
      simp only [] at h
      cases hr : printCoverageBunks coverage rest with
      | error err =>
        rw [hr] at h
        cases h
        exact ih _ hr
      | ok outRest => rw [hr] at h; cases h

theorem printBedGraphLoop_error (coverage : List Nat) (chrom : String) (chromEnd : Nat) :
    ∀ (n basePos printStart printNum : Nat) (e : Fault),
      printBedGraphLoop coverage chrom chromEnd n basePos printStart printNum = .error e →
      e = .undefinedBehaviour := by
  intro n
  induction n with
  | zero => intro _ _ _ _ h; cases h
  | succ n ih =>
    intro basePos printStart printNum e h
    unfold printBedGraphLoop at h
    cases hr : readAt coverage basePos with
    | error err =>
      rw [hr] at h
      cases h
      exact readAt_error hr
    | ok v =>
      rw [hr] at h
      simp only [] at h
      cases hrest : printBedGraphLoop coverage chrom chromEnd n (basePos + 1)
          (if (v != printNum) = true then basePos else printStart)
          (if (v != printNum) = true then v else printNum) with
      | error err =>
        rw [hrest] at h
        cases h
        exact ih _ _ _ _ hrest
      | ok rest => rw [hrest] at h; cases h

theorem printBedGraphBunks_error (coverage : List Nat) :
    ∀ (bunks : List Bed) (e : Fault), printBedGraphBunks coverage bunks = .error e →
      e = .undefinedBehaviour := by
  intro bunks
  induction bunks with
  | nil => intro _ h; cases h
  | cons bunk rest ih =>
    intro e h
    simp only [printBedGraphBunks] at h
    cases hb : printBedGraphBunk coverage bunk with
    | error err =>
      rw [hb] at h
      cases h
      unfold printBedGraphBunk at hb
      cases hr : readAt coverage bunk.chromStart with
      | error err1 =>
        rw [hr] at hb
        cases hb
        exact readAt_error hr
      | ok v =>
        rw [hr] at hb
        exact printBedGraphLoop_error coverage _ _ _ _ _ _ _ hb
    | ok out =>
      rw [hb] at h
      simp only [] at h
      cases hr : printBedGraphBunks coverage rest with
      | error err =>
        rw [hr] at h
        cases h
        exact ih _ hr
      | ok outRest => rw [hr] at h; cases h

theorem printCoverageBunks_ok (coverage : List Nat) :
    ∀ bunks : List Bed,
      (∀ bunk ∈ bunks, bunk.chromStart < coverage.length ∧ bunk.chromEnd ≤ coverage.length) →
      ∃ out, printCoverageBunks coverage bunks = .ok out := by
  intro bunks
  induction bunks with
  | nil => intro _; exact ⟨[], rfl⟩
  | cons bunk rest ih =>
    intro hin
    obtain ⟨hs, he⟩ := hin bunk (List.mem_cons_self _ _)
    have hvals : ∃ vals, printCoverageValues coverage (bunk.chromEnd - bunk.chromStart)
        bunk.chromStart = .ok vals := by
      by_cases hse : bunk.chromStart ≤ bunk.chromEnd
      · exact printCoverageValues_ok coverage _ _ (by omega)
      · exact printCoverageValues_ok coverage _ _ (by omega)
    obtain ⟨vals, hv⟩ := hvals
    obtain ⟨outRest, hr⟩ := ih (fun b hb => hin b (List.mem_cons_of_mem _ hb))
    simp only [printCoverageBunks, printCoverageBunk, hv, hr]
    exact ⟨_, rfl⟩

theorem printBedGraphBunks_ok (coverage : List Nat) :
    ∀ bunks : List Bed,
      (∀ bunk ∈ bunks, bunk.chromStart < coverage.length ∧ bunk.chromEnd ≤ coverage.length) →
      ∃ out, printBedGraphBunks coverage bunks = .ok out := by
  intro bunks
  induction bunks with
  | nil => intro _; exact ⟨[], rfl⟩
  | cons bunk rest ih =>
    intro hin
    obtain ⟨hs, he⟩ := hin bunk (List.mem_cons_self _ _)
    obtain ⟨out, hb⟩ := @printBedGraphBunk_ok coverage bunk hs he
    obtain ⟨outRest, hr⟩ := ih (fun b hb => hin b (List.mem_cons_of_mem _ hb))
    simp only [printBedGraphBunks, hb, hr]
    exact ⟨_, rfl⟩

theorem MissingChrom.cons_iff (kv : String × List Bed) (rest : Hash (List Bed))
    (coverageHash : Hash (List Nat)) :
    MissingChrom (kv :: rest) coverageHash ↔
      (∃ b tail, kv.2 = b :: tail ∧ hashFindVal coverageHash b.chrom = none) ∨
        MissingChrom rest coverageHash := by
  constructor
  · rintro ⟨kv1, hmem, b, tail, h1, h2⟩
    rcases List.mem_cons.mp hmem with h | h
    · subst h
      exact Or.inl ⟨b, tail, h1, h2⟩
    · exact Or.inr ⟨kv1, h, b, tail, h1, h2⟩
  · rintro (⟨b, tail, h1, h2⟩ | ⟨kv1, hmem, b, tail, h1, h2⟩)
    · exact ⟨kv, List.mem_cons_self _ _, b, tail, h1, h2⟩
    · exact ⟨kv1, List.mem_cons_of_mem _ hmem, b, tail, h1, h2⟩

theorem writeTrack_abort {α : Type} (perChrom : List Nat → List Bed → Except Fault (List α))
    (hUB : ∀ coverage bunks e, perChrom coverage bunks = .error e → e = .undefinedBehaviour)
    (coverageHash : Hash (List Nat)) :
    ∀ noGapHash : Hash (List Bed),
      writeTrack perChrom noGapHash coverageHash = .error .abort →
      MissingChrom noGapHash coverageHash := by
  intro noGapHash
  induction noGapHash with
  | nil => intro h; cases h
  | cons kv rest ih =>
    intro h
    obtain ⟨k, l⟩ := kv
    rw [MissingChrom.cons_iff]
    cases l with
    | nil => simp [writeTrack] at h
    | cons b tail =>
      simp only [writeTrack, hashMustFindVal] at h
      cases hf : hashFindVal coverageHash b.chrom with
      | none => exact Or.inl ⟨b, tail, rfl, hf⟩
      | some coverage =>
        rw [hf] at h
        simp only [] at h
        cases hp : perChrom coverage (b :: tail) with
        | error err =>
          rw [hp] at h
          simp only [] at h
          have := hUB _ _ _ hp
          subst this
          cases h
        | ok out =>
          rw [hp] at h
          simp only [] at h
          cases hr : writeTrack perChrom rest coverageHash with
          | error err =>
            rw [hr] at h
            simp only [] at h
            cases h
            exact Or.inr (ih hr)
          | ok outRest => rw [hr] at h; cases h

theorem writeTrack_missing {α : Type} (perChrom : List Nat → List Bed → Except Fault (List α))
    (coverageHash : Hash (List Nat)) :
    ∀ noGapHash : Hash (List Bed), MissingChrom noGapHash coverageHash →
      ∃ e, writeTrack perChrom noGapHash coverageHash = .error e := by
  intro noGapHash
  induction noGapHash with
  | nil =>
    rintro ⟨kv, hmem, _⟩
    cases hmem
  | cons kv rest ih =>
    intro hmiss
    obtain ⟨k, l⟩ := kv
    rw [MissingChrom.cons_iff] at hmiss
    cases l with
    | nil => exact ⟨_, rfl⟩
    | cons b tail =>
      simp only [writeTrack, hashMustFindVal]
      cases hf : hashFindVal coverageHash b.chrom with
      | none => exact ⟨_, rfl⟩
      | some coverage =>
        simp only []
        cases hp : perChrom coverage (b :: tail) with
        | error err => exact ⟨_, rfl⟩
        | ok out =>
          simp only []
          rcases hmiss with ⟨b1, tail1, h1, h2⟩ | hrest
          · simp only [List.cons.injEq] at h1
            obtain ⟨h3, _⟩ := h1
            subst h3
            rw [hf] at h2
            cases h2
          · obtain ⟨e, he⟩ := ih hrest
            rw [he]
            exact ⟨_, rfl⟩

theorem writeTrack_defined {α : Type} (perChrom : List Nat → List Bed → Except Fault (List α))
    (hOk : ∀ coverage bunks,
      (∀ bunk ∈ bunks, bunk.chromStart < coverage.length ∧ bunk.chromEnd ≤ coverage.length) →
      ∃ out, perChrom coverage bunks = .ok out)
    (coverageHash : Hash (List Nat)) :
    ∀ noGapHash : Hash (List Bed), ReadsInBounds noGapHash coverageHash →
      (MissingChrom noGapHash coverageHash →
        writeTrack perChrom noGapHash coverageHash = .error .abort) ∧
      (¬ MissingChrom noGapHash coverageHash →
        ∃ out, writeTrack perChrom noGapHash coverageHash = .ok out) := by
  intro noGapHash
  induction noGapHash with
  | nil =>
    intro _
    refine ⟨?_, fun _ => ⟨[], rfl⟩⟩
    rintro ⟨kv, hmem, _⟩
    cases hmem
  | cons kv rest ih =>
    intro hin
    obtain ⟨k, l⟩ := kv
    obtain ⟨b, tail, hl, hbounds⟩ := hin (k, l) (List.mem_cons_self _ _)
    simp only at hl
    subst hl
    obtain ⟨ih1, ih2⟩ := ih (fun kv hkv => hin kv (List.mem_cons_of_mem _ hkv))
    rw [MissingChrom.cons_iff]
    simp only [writeTrack, hashMustFindVal]
    cases hf : hashFindVal coverageHash b.chrom with
    | none =>
      refine ⟨fun _ => rfl, ?_⟩
      intro hnot
      exact absurd (Or.inl ⟨b, tail, rfl, hf⟩) hnot
    | some coverage =>
      obtain ⟨out, hp⟩ := hOk coverage (b :: tail) (hbounds coverage hf)
      simp only [hp]
      constructor
      · rintro (⟨b1, tail1, h1, h2⟩ | hrest)
        · simp only [List.cons.injEq] at h1
          obtain ⟨h3, _⟩ := h1
          subst h3
          rw [hf] at h2
          cases h2
        · rw [ih1 hrest]
      · intro hnot
        obtain ⟨outRest, hr⟩ := ih2 (fun h => hnot (Or.inr h))
        rw [hr]
        exact ⟨_, rfl⟩

/-- C14 (hard lookup in the writers): a writer aborts only when some chromosome
of the catalog has no entry in the coverage store, so with every chromosome
present neither writer raises a lookup error; with a chromosome missing both
writers fail; and when every array access is defined, each writer aborts exactly
when some chromosome of the catalog has no entry in the store. -/
theorem C14_writers_abort_iff_missing (noGapHash : Hash (List Bed))
    (coverageHash : Hash (List Nat)) :
    (printCoverage noGapHash coverageHash = .error .abort →
      MissingChrom noGapHash coverageHash) ∧
    (printCoverageBedGraph noGapHash coverageHash = .error .abort →
      MissingChrom noGapHash coverageHash) ∧
    (MissingChrom noGapHash coverageHash →
      (∃ e, printCoverage noGapHash coverageHash = .error e) ∧
        ∃ e, printCoverageBedGraph noGapHash coverageHash = .error e) ∧
    (ReadsInBounds noGapHash coverageHash →
      (printCoverage noGapHash coverageHash = .error .abort ↔
        MissingChrom noGapHash coverageHash) ∧
      (printCoverageBedGraph noGapHash coverageHash = .error .abort ↔
        MissingChrom noGapHash coverageHash)) := by
  rw [printCoverage_eq_writeTrack, printCoverageBedGraph_eq_writeTrack]
  have h1 := writeTrack_abort printCoverageBunks printCoverageBunks_error coverageHash noGapHash
  have h2 := writeTrack_abort printBedGraphBunks printBedGraphBunks_error coverageHash noGapHash
  refine ⟨h1, h2, ?_, ?_⟩
  · intro hmiss
    exact ⟨writeTrack_missing printCoverageBunks coverageHash noGapHash hmiss,
      writeTrack_missing printBedGraphBunks coverageHash noGapHash hmiss⟩
  · intro hin
    exact ⟨⟨h1, (writeTrack_defined printCoverageBunks printCoverageBunks_ok coverageHash
        noGapHash hin).1⟩,
      ⟨h2, (writeTrack_defined printBedGraphBunks printBedGraphBunks_ok coverageHash
        noGapHash hin).1⟩⟩

/-- C14 at the catalog `chr1 0 3`, `chr2 0 2` and a store that holds `chr1`
only: both writers abort. -/
theorem C14_writers_abort_iff_missing_witness :
    printCoverage [("chr1", [⟨"chr1", 0, 3⟩]), ("chr2", [⟨"chr2", 0, 2⟩])]
        [("chr1", [0, 1, 1])] = .error .abort ∧
    printCoverageBedGraph [("chr1", [⟨"chr1", 0, 3⟩]), ("chr2", [⟨"chr2", 0, 2⟩])]
        [("chr1", [0, 1, 1])] = .error .abort ∧
    MissingChrom [("chr1", [⟨"chr1", 0, 3⟩]), ("chr2", [⟨"chr2", 0, 2⟩])]
        [("chr1", [0, 1, 1])] :=
  have hmiss := (C14_writers_abort_iff_missing
    [("chr1", [⟨"chr1", 0, 3⟩]), ("chr2", [⟨"chr2", 0, 2⟩])] [("chr1", [0, 1, 1])]).1 rfl
  ⟨rfl, rfl, hmiss⟩

/-! ## Array lengths under accumulation -/

theorem incrLoop_length :
    ∀ (n x : Nat) (coverage coverage1 : List Nat), incrLoop n x coverage = .ok coverage1 →
      coverage1.length = coverage.length := by
  intro n
  induction n with
  | zero =>
    intro x coverage coverage1 h
    simp [incrLoop] at h
    subst h
    rfl
  | succ n ih =>
    intro x coverage coverage1 h
    unfold incrLoop at h
    by_cases hx : x < coverage.length
    · rw [incrAt_of_lt coverage x hx] at h
      rw [ih _ _ _ h, List.length_set]
    · rw [incrAt_of_ge coverage x (by omega)] at h
      cases h

theorem addCounts_lengths {coverageHash coverageHash1 : Hash (List Nat)} {chrom : String}
    {i s e : Nat} (hi : hashFindIdx coverageHash chrom = some i)
    (h : addCounts coverageHash i s e = .ok coverageHash1) (c : String) :
    (hashFindVal coverageHash1 c).map List.length
      = (hashFindVal coverageHash c).map List.length := by
  obtain ⟨w, h1, h2⟩ := hashFindIdx_get coverageHash chrom i hi
  unfold addCounts at h
  rw [h1] at h
  simp only [] at h
  cases hl : incrLoop (e - s) s w with
  | error err => rw [hl] at h; cases h
  | ok w1 =>
    rw [hl] at h
    simp at h
    subst h
    rw [hashFindVal_set coverageHash chrom i w1 hi c]
    by_cases hc : chrom = c
    · subst hc
      rw [if_pos rfl, h2]
      simp [incrLoop_length _ _ _ _ hl]
    · rw [if_neg hc]

theorem addReadCountsStep_lengths {noGapHash : Hash (List Bed)} {targetName : List String}
    {optExpansion : Int} {st st1 : ReadState} {b : Bam1}
    (hc : CacheOk noGapHash targetName st)
    (h : addReadCountsStep noGapHash targetName optExpansion st b = .ok st1) (c : String) :
    (hashFindVal st1.coverageHash c).map List.length
      = (hashFindVal st.coverageHash c).map List.length := by
  unfold addReadCountsStep at h
  by_cases hk : keepRead b = true
  · simp only [hk, if_true] at h
    cases hr : resolveChrom noGapHash targetName st b with
    | error err => rw [hr] at h; cases h
    | ok st0 =>
      rw [hr] at h
      obtain ⟨hc0, hh0⟩ := resolveChrom_cacheOk hc hr
      simp only [] at h
      cases hcov : st0.coverage with
      | none =>
        rw [hcov] at h
        simp at h
        subst h
        rw [hh0]
      | some i =>
        rw [hcov] at h
        simp only [] at h
        cases ha : addCounts st0.coverageHash i
            (projectRead optExpansion b st0.chromMax).1
            (projectRead optExpansion b st0.chromMax).2 with
        | error err => rw [ha] at h; cases h
        | ok h1 =>
          rw [ha] at h
          simp at h
          subst h
          rcases hc0 with ⟨_, h2⟩ | ⟨c0, _, h3, _⟩
          · rw [hcov] at h2; cases h2
          · rw [hcov] at h3
            simp only
            rw [addCounts_lengths h3.symm ha c, hh0]
  · simp [hk] at h
    subst h
    rfl

theorem addReadCountsLoop_lengths (noGapHash : Hash (List Bed)) (targetName : List String)
    (optExpansion : Int) :
    ∀ (reads : List Bam1) (st st1 : ReadState), CacheOk noGapHash targetName st →
      addReadCountsLoop noGapHash targetName optExpansion reads st = .ok st1 →
      ∀ c, (hashFindVal st1.coverageHash c).map List.length
        = (hashFindVal st.coverageHash c).map List.length := by
  intro reads
  induction reads with
  | nil =>
    intro st st1 _ h c
    simp [addReadCountsLoop] at h
    subst h
    rfl
  | cons b rest ih =>
    intro st st1 hc h c
    simp only [addReadCountsLoop] at h
    cases hs : addReadCountsStep noGapHash targetName optExpansion st b with
    | error err => rw [hs] at h; cases h
    | ok st0 =>
      rw [hs] at h
      rw [ih st0 st1 (addReadCountsStep_cacheOk hc hs).1 h c, addReadCountsStep_lengths hc hs c]

/-- A run of `addReadCounts` that ends normally keeps the keys of the store and
the length of every array. -/
theorem addReadCounts_lengths {noGapHash : Hash (List Bed)} {coverageHash store : Hash (List Nat)}
    {targetName : List String} {optExpansion : Int} {reads : List Bam1}
    (h : addReadCounts noGapHash coverageHash targetName optExpansion reads = .ok store)
    (c : String) :
    (hashFindVal store c).map List.length = (hashFindVal coverageHash c).map List.length := by
  unfold addReadCounts at h
  cases hl : addReadCountsLoop noGapHash targetName optExpansion reads
      (initialState coverageHash) with
  | error err => rw [hl] at h; cases h
  | ok st =>
    rw [hl] at h
    simp at h
    subst h
    exact addReadCountsLoop_lengths noGapHash targetName optExpansion reads _ st
      (initialState_cacheOk _ _ _) hl c

theorem hashFindVal_of_mem {α : Type} (h : Hash α) (k : String) (v : α)
    (hnodup : (h.map Prod.fst).Nodup) (hmem : (k, v) ∈ h) : hashFindVal h k = some v := by
  induction h with
  | nil => cases hmem
  | cons kv rest ih =>
    obtain ⟨k1, v1⟩ := kv
    rw [List.map_cons, List.nodup_cons] at hnodup
    rcases List.mem_cons.mp hmem with h1 | h1
    · cases h1
      simp [hashFindVal]
    · have hne : k1 ≠ k := by
        intro heq
        apply hnodup.1
        rw [heq]
        exact List.mem_map.mpr ⟨(k, v), h1, rfl⟩
      simp only [hashFindVal, hne, if_false]
      exact ih hnodup.2 h1

/-- In the store built from a well-formed catalog, and in any store that an
accumulation leaves, the array of every chromosome of the catalog reaches
the end of every interval of the chromosome. -/
theorem store_covers_catalog {noGapHash : Hash (List Bed)} {store0 store : Hash (List Nat)}
    {targetName : List String} {optExpansion : Int} {reads : List Bam1}
    (hok : CatalogOk noGapHash)
    (hbuild : buildCoverageHash noGapHash = .ok store0)
    (hacc : addReadCounts noGapHash store0 targetName optExpansion reads = .ok store) :
    ∀ kv ∈ noGapHash, ∃ coverage, hashFindVal store kv.1 = some coverage ∧
      ∀ b ∈ kv.2, b.chromEnd ≤ coverage.length := by
  intro kv hkv
  rw [buildCoverageHash_eq noGapHash hok] at hbuild
  have hs0 : store0 = noGapHash.map (fun kv => (kv.1, List.replicate (maxEndLoop kv.2 0) 0)) := by
    injection hbuild with h
    exact h.symm
  have hfind : hashFindVal noGapHash kv.1 = some kv.2 :=
    hashFindVal_of_mem noGapHash kv.1 kv.2 hok.1 hkv
  have h0 : hashFindVal store0 kv.1 = some (List.replicate (maxEndLoop kv.2 0) 0) := by
    rw [hs0, hashFindVal_map (fun l => List.replicate (maxEndLoop l 0) 0) noGapHash kv.1, hfind]
    rfl
  have hlen := addReadCounts_lengths hacc kv.1
  rw [h0] at hlen
  cases hst : hashFindVal store kv.1 with
  | none => rw [hst] at hlen; cases hlen
  | some coverage =>
    rw [hst] at hlen
    simp at hlen
    refine ⟨coverage, rfl, ?_⟩
    intro b hb
    rw [hlen]
    exact (maxEndLoop_spec kv.2 0).2.1 b hb

/-- C19 (the writers complete on the store built from the catalog): for every
well-formed catalog whose intervals all have `start < end`, with the store built
from the catalog and then left by any accumulation that ended normally, the
hard lookup of every catalog chromosome succeeds, every interval starts and
ends inside the chromosome's array, and both writers end without a fault. -/
theorem C19_writers_complete (noGapHash : Hash (List Bed)) (store0 store : Hash (List Nat))
    (targetName : List String) (optExpansion : Int) (reads : List Bam1)
    (hok : CatalogOk noGapHash)
    (hpos : ∀ kv ∈ noGapHash, ∀ b ∈ kv.2, b.chromStart < b.chromEnd)
    (hbuild : buildCoverageHash noGapHash = .ok store0)
    (hacc : addReadCounts noGapHash store0 targetName optExpansion reads = .ok store) :
    (∀ kv ∈ noGapHash, ∃ coverage, hashFindVal store kv.1 = some coverage ∧
      ∀ b ∈ kv.2, b.chromStart < coverage.length ∧ b.chromEnd ≤ coverage.length) ∧
    (∃ out, printCoverage noGapHash store = .ok out) ∧
    ∃ out, printCoverageBedGraph noGapHash store = .ok out := by
  have hcov : ∀ kv ∈ noGapHash, ∃ coverage, hashFindVal store kv.1 = some coverage ∧
      ∀ b ∈ kv.2, b.chromStart < coverage.length ∧ b.chromEnd ≤ coverage.length := by
    intro kv hkv
    obtain ⟨coverage, h1, h2⟩ := store_covers_catalog hok hbuild hacc kv hkv
    refine ⟨coverage, h1, ?_⟩
    intro b hb
    have := hpos kv hkv b hb
    have := h2 b hb
    exact ⟨by omega, by omega⟩
  have hhead : ∀ kv ∈ noGapHash, ∃ b tail, kv.2 = b :: tail ∧ b.chrom = kv.1 := by
    intro kv hkv
    obtain ⟨hne, hchrom⟩ := hok.2 kv hkv
    cases hl : kv.2 with
    | nil => exact absurd hl hne
    | cons b tail =>
      exact ⟨b, tail, rfl, hchrom b (by rw [hl]; exact List.mem_cons_self _ _)⟩
  have hin : ReadsInBounds noGapHash store := by
    intro kv hkv
    obtain ⟨b, tail, hl, hb⟩ := hhead kv hkv
    refine ⟨b, tail, hl, ?_⟩
    intro coverage hfind
    obtain ⟨cov1, h1, h2⟩ := hcov kv hkv
    rw [hb, h1] at hfind
    cases hfind
    exact h2
  have hnot : ¬ MissingChrom noGapHash store := by
    rintro ⟨kv, hkv, b, tail, hl, hnone⟩
    obtain ⟨b1, tail1, hl1, hb1⟩ := hhead kv hkv
    rw [hl] at hl1
    simp only [List.cons.injEq] at hl1
    obtain ⟨h3, _⟩ := hl1
    subst h3
    obtain ⟨cov1, h1, _⟩ := hcov kv hkv
    rw [hb1, h1] at hnone
    cases hnone
  refine ⟨hcov, ?_, ?_⟩
  · rw [printCoverage_eq_writeTrack]
    exact (writeTrack_defined printCoverageBunks printCoverageBunks_ok store noGapHash hin).2 hnot
  · rw [printCoverageBedGraph_eq_writeTrack]
    exact (writeTrack_defined printBedGraphBunks printBedGraphBunks_ok store noGapHash hin).2 hnot

/-- C19 at the catalog `chr1 0 3`, `chr1 4 5` after one forward read on `[1,3)`:
both writers end normally. -/
theorem C19_writers_complete_witness :
    (∀ kv ∈ [("chr1", [(⟨"chr1", 0, 3⟩ : Bed), ⟨"chr1", 4, 5⟩])],
      ∃ coverage, hashFindVal [("chr1", [0, 1, 1, 0, 0])] kv.1 = some coverage ∧
        ∀ b ∈ kv.2, b.chromStart < coverage.length ∧ b.chromEnd ≤ coverage.length) ∧
    (∃ out, printCoverage [("chr1", [⟨"chr1", 0, 3⟩, ⟨"chr1", 4, 5⟩])]
        [("chr1", [0, 1, 1, 0, 0])] = .ok out) ∧
    ∃ out, printCoverageBedGraph [("chr1", [⟨"chr1", 0, 3⟩, ⟨"chr1", 4, 5⟩])]
        [("chr1", [0, 1, 1, 0, 0])] = .ok out :=
  C19_writers_complete [("chr1", [⟨"chr1", 0, 3⟩, ⟨"chr1", 4, 5⟩])]
    [("chr1", [0, 0, 0, 0, 0])] [("chr1", [0, 1, 1, 0, 0])] ["chr1"] 0 [⟨0, 1, 0, 3⟩]
    ⟨by decide, by
      intro kv hkv
      rw [List.mem_singleton.mp hkv]
      refine ⟨by simp, ?_⟩
      intro b hb
      simp only [List.mem_cons, List.mem_singleton, List.not_mem_nil, or_false] at hb
      rcases hb with h1 | h1 <;> subst h1 <;> rfl⟩
    (by
      intro kv hkv b hb
      rw [List.mem_singleton.mp hkv] at hb
      simp only [List.mem_cons, List.mem_singleton, List.not_mem_nil, or_false] at hb
      rcases hb with h1 | h1 <;> subst h1 <;> decide)
    rfl rfl

/-! ## Grouping of the regions by chromosome -/

theorem bedLe_total (a b : Bed) : bedLe a b ∨ bedLe b a := by
  unfold bedLe
  rcases lt_trichotomy a.chrom.data b.chrom.data with h | h | h
  · exact Or.inl (Or.inl h)
  · have heq : a.chrom = b.chrom := String.ext_iff.mpr h
    rcases Nat.le_total a.chromStart b.chromStart with h1 | h1
    · exact Or.inl (Or.inr ⟨heq, h1⟩)
    · exact Or.inr (Or.inr ⟨heq.symm, h1⟩)
  · exact Or.inr (Or.inl h)

theorem bedLe_trans {a b c : Bed} (hab : bedLe a b) (hbc : bedLe b c) : bedLe a c := by
  unfold bedLe at *
  rcases hab with h1 | ⟨h1, h2⟩
  · rcases hbc with h3 | ⟨h3, _⟩
    · exact Or.inl (lt_trans h1 h3)
    · exact Or.inl (h3 ▸ h1)
  · rcases hbc with h3 | ⟨h3, h4⟩
    · exact Or.inl (h1 ▸ h3)
    · exact Or.inr ⟨h1.trans h3, le_trans h2 h4⟩

theorem bedLe_chrom_lt {a b : Bed} (hab : bedLe a b) (hne : a.chrom ≠ b.chrom) :
    a.chrom.data < b.chrom.data := by
  rcases hab with h | ⟨h, _⟩
  · exact h
  · exact absurd h hne

theorem bedLe_chrom_le {a b : Bed} (hab : bedLe a b) : a.chrom.data ≤ b.chrom.data := by
  rcases hab with h | ⟨h, _⟩
  · exact le_of_lt h
  · rw [h]

theorem bedLe_start_le {a b : Bed} (hab : bedLe a b) (heq : a.chrom = b.chrom) :
    a.chromStart ≤ b.chromStart := by
  rcases hab with h | ⟨_, h⟩
  · rw [heq] at h
    exact absurd h (lt_irrefl _)
  · exact h

theorem slSortBed_perm (regions : List Bed) : (slSortBed regions).Perm regions :=
  List.perm_insertionSort bedLe regions

theorem slSortBed_sorted (regions : List Bed) : List.Pairwise bedLe (slSortBed regions) :=
  @List.sorted_insertionSort Bed bedLe _ ⟨bedLe_total⟩ ⟨fun _ _ _ => bedLe_trans⟩ regions

theorem filter_all {α : Type} (p : α → Bool) (l : List α) (h : ∀ a ∈ l, p a = true) :
    l.filter p = l := by
  induction l with
  | nil => rfl
  | cons a rest ih =>
    rw [List.filter_cons, if_pos (h a (List.mem_cons_self _ _)),
      ih (fun b hb => h b (List.mem_cons_of_mem _ hb))]

theorem filter_none {α : Type} (p : α → Bool) (l : List α) (h : ∀ a ∈ l, p a = false) :
    l.filter p = [] := by
  induction l with
  | nil => rfl
  | cons a rest ih =>
    rw [List.filter_cons, h a (List.mem_cons_self _ _)]
    simp only [Bool.false_eq_true, if_false]
    exact ih (fun b hb => h b (List.mem_cons_of_mem _ hb))

/-- When a run ends at `bed` in a sorted list, every later interval lies on
another chromosome. -/
theorem endsRun_rest {bed : Bed} {rest : List Bed}
    (hsorted : List.Pairwise bedLe (bed :: rest)) (hend : endsRun bed rest = true) :
    ∀ b ∈ rest, b.chrom ≠ bed.chrom := by
  cases rest with
  | nil => intro b hb; cases hb
  | cons next tail =>
    simp only [endsRun, decide_eq_true_eq] at hend
    rw [List.pairwise_cons] at hsorted
    obtain ⟨h1, h2⟩ := hsorted
    rw [List.pairwise_cons] at h2
    have hlt : bed.chrom.data < next.chrom.data :=
      bedLe_chrom_lt (h1 next (List.mem_cons_self _ _)) hend
    intro b hb heq
    rcases List.mem_cons.mp hb with h | h
    · subst h
      exact hend heq.symm
    · have hle := bedLe_chrom_le (h2.1 b h)
      rw [heq] at hle
      exact absurd (lt_of_lt_of_le hlt hle) (lt_irrefl _)

/-- Invariant of the grouping loop of `bedLoadNInHash` on a sorted list: the loop
adds, in front of the hash it was given, one entry per chromosome that passes
the filter, holding exactly the intervals of that chromosome in list order. -/
theorem bedLoadNInHashLoop_spec (restrictToChrom : Option String) :
    ∀ (l cur : List Bed) (h : Hash (List Bed)),
      List.Pairwise bedLe (cur ++ l) →
      (∀ a ∈ cur, ∀ b, l.head? = some b → a.chrom = b.chrom) →
      (l = [] → cur = []) →
      ∃ new : Hash (List Bed),
        bedLoadNInHashLoop restrictToChrom l cur h = new ++ h ∧
        (new.map Prod.fst).Nodup ∧
        (∀ kv ∈ new, kv.2 ≠ [] ∧
          kv.2 = (cur ++ l).filter (fun b => decide (b.chrom = kv.1)) ∧
          passesRestrict restrictToChrom kv.1 = true) ∧
        (∀ b ∈ cur ++ l, passesRestrict restrictToChrom b.chrom = true →
          b.chrom ∈ new.map Prod.fst) ∧
        (restrictToChrom = none → (new.map Prod.snd).flatten.Perm (cur ++ l)) := by
  intro l
  induction l with
  | nil =>
    intro cur h _ _ hcur
    rw [hcur rfl]
    refine ⟨[], rfl, List.nodup_nil, ?_, ?_, ?_⟩
    · intro kv hkv; cases hkv
    · intro b hb; cases hb
    · intro _; exact List.Perm.refl _
  | cons bed rest ih =>
    intro cur h hsorted hcur _
    have hcurbed : ∀ a ∈ cur, a.chrom = bed.chrom := fun a ha => hcur a ha bed rfl
    have hsorted2 : List.Pairwise bedLe (bed :: rest) := (List.pairwise_append.mp hsorted).2.1
    simp only [bedLoadNInHashLoop]
    by_cases hend : endsRun bed rest = true
    · have hrest := endsRun_rest hsorted2 hend
      have hsorted3 : List.Pairwise bedLe ([] ++ rest) := by
        rw [List.nil_append]
        exact (List.pairwise_cons.mp hsorted2).2
      have hkeep : ∀ (new1 : Hash (List Bed)),
          (∀ kv ∈ new1, kv.2 ≠ [] ∧
            kv.2 = ([] ++ rest).filter (fun b => decide (b.chrom = kv.1)) ∧
            passesRestrict restrictToChrom kv.1 = true) →
          ∀ kv ∈ new1, kv.1 ≠ bed.chrom ∧ (kv.2 ≠ [] ∧
            kv.2 = (cur ++ bed :: rest).filter (fun b => decide (b.chrom = kv.1)) ∧
            passesRestrict restrictToChrom kv.1 = true) := by
        intro new1 hnew1 kv hkv
        obtain ⟨h1, h2, h3⟩ := hnew1 kv hkv
        rw [List.nil_append] at h2
        have hne : kv.1 ≠ bed.chrom := by
          intro heq
          cases hl : kv.2 with
          | nil => exact h1 hl
          | cons b tail =>
            have hb : b ∈ rest.filter (fun b => decide (b.chrom = kv.1)) := by
              rw [← h2, hl]
              exact List.mem_cons_self _ _
            rw [List.mem_filter] at hb
            have hbc : b.chrom = kv.1 := by simpa using hb.2
            exact hrest b hb.1 (hbc.trans heq)
        refine ⟨hne, h1, ?_, h3⟩
        rw [List.filter_append, List.filter_cons]
        have hc : cur.filter (fun b => decide (b.chrom = kv.1)) = [] := by
          apply filter_none
          intro a ha
          rw [hcurbed a ha]
          simp [Ne.symm hne]
        have hb : decide (bed.chrom = kv.1) = false := by simp [Ne.symm hne]
        rw [hc, hb]
        simpa using h2
      simp only [hend, if_true]
      by_cases hpass : passesRestrict restrictToChrom bed.chrom = true
      · simp only [hpass, if_true]
        obtain ⟨new1, hloop, hnodup, hentries, hkeys, hperm⟩ :=
          ih [] (hashAdd h bed.chrom (cur ++ [bed])) hsorted3
            (fun a ha => by cases ha) (fun _ => rfl)
        have hk := hkeep new1 hentries
        refine ⟨new1 ++ [(bed.chrom, cur ++ [bed])], ?_, ?_, ?_, ?_, ?_⟩
        · rw [hloop]
          simp [hashAdd]
        · rw [List.map_append, List.nodup_append]
          refine ⟨hnodup, by simp, ?_⟩
          intro k hk1 hk2
          simp only [List.map_cons, List.map_nil, List.mem_singleton] at hk2
          obtain ⟨kv, hkv, hkeq⟩ := List.mem_map.mp hk1
          exact (hk kv hkv).1 (hkeq.trans hk2)
        · intro kv hkv
          rcases List.mem_append.mp hkv with h1 | h1
          · exact (hk kv h1).2
          · rw [List.mem_singleton] at h1
            subst h1
            refine ⟨by simp, ?_, hpass⟩
            simp only
            rw [List.filter_append, List.filter_cons]
            have hc : cur.filter (fun b => decide (b.chrom = bed.chrom)) = cur := by
              apply filter_all
              intro a ha
              simp [hcurbed a ha]
            have hr : rest.filter (fun b => decide (b.chrom = bed.chrom)) = [] := by
              apply filter_none
              intro a ha
              simp [hrest a ha]
            rw [hc, hr]
            simp
        · intro b hb hbpass
          rw [List.map_append, List.mem_append]
          rcases List.mem_append.mp hb with h1 | h1
          · right
            simp [hcurbed b h1]
          · rcases List.mem_cons.mp h1 with h2 | h2
            · right
              simp [h2]
            · left
              exact hkeys b (by simpa using h2) hbpass
        · intro hnone
          have hp := hperm hnone
          rw [List.nil_append] at hp
          rw [List.map_append, List.flatten_append]
          simp only [List.map_cons, List.map_nil, List.flatten_cons, List.flatten_nil,
            List.append_nil]
          refine (List.Perm.append hp (List.Perm.refl _)).trans ?_
          refine List.perm_append_comm.trans ?_
          simp
      · simp only [hpass]
        obtain ⟨new1, hloop, hnodup, hentries, hkeys, hperm⟩ :=
          ih [] h hsorted3 (fun a ha => by cases ha) (fun _ => rfl)
        have hk := hkeep new1 hentries
        refine ⟨new1, hloop, hnodup, fun kv hkv => (hk kv hkv).2, ?_, ?_⟩
        · intro b hb hbpass
          rcases List.mem_append.mp hb with h1 | h1
          · rw [hcurbed b h1] at hbpass
            exact absurd hbpass hpass
          · rcases List.mem_cons.mp h1 with h2 | h2
            · rw [h2] at hbpass
              exact absurd hbpass hpass
            · exact hkeys b (by simpa using h2) hbpass
        · intro hnone
          rw [hnone] at hpass
          exact absurd rfl hpass
    · simp only [hend]
      have hnext : ∃ next tail, rest = next :: tail ∧ bed.chrom = next.chrom := by
        cases rest with
        | nil => exact absurd rfl hend
        | cons next tail =>
          refine ⟨next, tail, rfl, ?_⟩
          simpa [endsRun] using hend
      obtain ⟨next, tail, hr, hchrom⟩ := hnext
      have happ : (cur ++ [bed]) ++ rest = cur ++ bed :: rest := by simp
      obtain ⟨new1, hloop, hnodup, hentries, hkeys, hperm⟩ :=
        ih (cur ++ [bed]) h (by rw [happ]; exact hsorted)
          (by
            intro a ha b hb
            rw [hr] at hb
            simp only [List.head?_cons, Option.some.injEq] at hb
            subst hb
            rcases List.mem_append.mp ha with h1 | h1
            · rw [hcurbed a h1, hchrom]
            · rw [List.mem_singleton] at h1
              rw [h1, hchrom])
          (by intro hnil; rw [hr] at hnil; cases hnil)
      rw [happ] at hentries hkeys hperm
      exact ⟨new1, hloop, hnodup, hentries, hkeys, hperm⟩

theorem passesRestrict_iff (restrictToChrom : Option String) (c : String) :
    passesRestrict restrictToChrom c = true ↔
      (restrictToChrom = none ∨ restrictToChrom = some c) := by
  cases restrictToChrom with
  | none => simp [passesRestrict]
  | some r =>
    simp only [passesRestrict, decide_eq_true_eq, Option.some.injEq, false_or, reduceCtorEq]
    exact eq_comm

/-- The catalog that `bedLoadNInHash` returns, described entry by entry. -/
theorem bedLoadNInHash_entries (regions : List Bed) (restrictToChrom : Option String) :
    ((bedLoadNInHash regions restrictToChrom).map Prod.fst).Nodup ∧
    (∀ kv ∈ bedLoadNInHash regions restrictToChrom, kv.2 ≠ [] ∧
      kv.2 = (slSortBed regions).filter (fun b => decide (b.chrom = kv.1)) ∧
      passesRestrict restrictToChrom kv.1 = true) ∧
    (∀ b ∈ regions, passesRestrict restrictToChrom b.chrom = true →
      b.chrom ∈ (bedLoadNInHash regions restrictToChrom).map Prod.fst) ∧
    (restrictToChrom = none →
      ((bedLoadNInHash regions restrictToChrom).map Prod.snd).flatten.Perm regions) := by
  obtain ⟨new, hloop, hnodup, hentries, hkeys, hperm⟩ :=
    bedLoadNInHashLoop_spec restrictToChrom (slSortBed regions) [] []
      (by rw [List.nil_append]; exact slSortBed_sorted regions)
      (fun a ha => by cases ha) (fun _ => rfl)
  rw [List.append_nil] at hloop
  rw [List.nil_append] at hkeys hperm
  have hcat : bedLoadNInHash regions restrictToChrom = new := hloop
  rw [hcat]
  refine ⟨hnodup, ?_, ?_, ?_⟩
  · intro kv hkv
    have := hentries kv hkv
    rw [List.nil_append] at this
    exact this
  · intro b hb hpass
    exact hkeys b ((slSortBed_perm regions).mem_iff.mpr hb) hpass
  · intro hnone
    exact (hperm hnone).trans (slSortBed_perm regions)

/-- The catalog that `bedLoadNInHash` returns is well formed. -/
theorem bedLoadNInHash_catalogOk (regions : List Bed) (restrictToChrom : Option String) :
    CatalogOk (bedLoadNInHash regions restrictToChrom) := by
  obtain ⟨hnodup, hentries, _, _⟩ := bedLoadNInHash_entries regions restrictToChrom
  refine ⟨hnodup, ?_⟩
  intro kv hkv
  obtain ⟨h1, h2, _⟩ := hentries kv hkv
  refine ⟨h1, ?_⟩
  intro b hb
  rw [h2, List.mem_filter] at hb
  simpa using hb.2

/-- C13 (`bedLoadNInHash` groups the intervals by chromosome): in the returned
catalog no chromosome is a key twice; a chromosome is a key exactly when it
occurs in the input and passes the filter (no filter, or equal to
`restrictToChrom`); every key is mapped to the input intervals of that
chromosome, each as often as it occurs in the input, in ascending start order;
and without a filter the lists of the catalog together are a rearrangement of
the input. -/
theorem C13_bedLoadNInHash_groups (regions : List Bed) (restrictToChrom : Option String) :
    ((bedLoadNInHash regions restrictToChrom).map Prod.fst).Nodup ∧
    (∀ c, c ∈ (bedLoadNInHash regions restrictToChrom).map Prod.fst ↔
      ((∃ b ∈ regions, b.chrom = c) ∧
        (restrictToChrom = none ∨ restrictToChrom = some c))) ∧
    (∀ c ∈ (bedLoadNInHash regions restrictToChrom).map Prod.fst,
      ∃ l, hashFindVal (bedLoadNInHash regions restrictToChrom) c = some l ∧
        l.Perm (regions.filter (fun b => decide (b.chrom = c))) ∧
        l.Pairwise (fun a b => a.chromStart ≤ b.chromStart)) ∧
    (restrictToChrom = none →
      ((bedLoadNInHash regions restrictToChrom).map Prod.snd).flatten.Perm regions) := by
  obtain ⟨hnodup, hentries, hkeys, hperm⟩ := bedLoadNInHash_entries regions restrictToChrom
  refine ⟨hnodup, ?_, ?_, hperm⟩
  · intro c
    constructor
    · intro hc
      obtain ⟨kv, hkv, hkc⟩ := List.mem_map.mp hc
      obtain ⟨h1, h2, h3⟩ := hentries kv hkv
      rw [hkc] at h2 h3
      refine ⟨?_, (passesRestrict_iff restrictToChrom c).mp h3⟩
      cases hl : kv.2 with
      | nil => exact absurd hl h1
      | cons b tail =>
        have hb : b ∈ (slSortBed regions).filter (fun b => decide (b.chrom = c)) := by
          rw [← h2, hl]
          exact List.mem_cons_self _ _
        rw [List.mem_filter] at hb
        exact ⟨b, (slSortBed_perm regions).mem_iff.mp hb.1, by simpa using hb.2⟩
    · rintro ⟨⟨b, hb, hbc⟩, hpass⟩
      rw [← hbc]
      exact hkeys b hb (by rw [hbc]; exact (passesRestrict_iff restrictToChrom c).mpr hpass)
  · intro c hc
    obtain ⟨kv, hkv, hkc⟩ := List.mem_map.mp hc
    obtain ⟨_, h2, _⟩ := hentries kv hkv
    rw [hkc] at h2
    refine ⟨kv.2, ?_, ?_, ?_⟩
    · rw [← hkc]
      exact hashFindVal_of_mem _ kv.1 kv.2 hnodup hkv
    · rw [h2]
      exact (slSortBed_perm regions).filter _
    · rw [h2]
      refine List.Pairwise.imp_of_mem ?_ ((slSortBed_sorted regions).filter _)
      intro a b ha hb hab
      rw [List.mem_filter] at ha hb
      have hac : a.chrom = c := by simpa using ha.2
      have hbc : b.chrom = c := by simpa using hb.2
      exact bedLe_start_le hab (hac.trans hbc.symm)

/-- C13 at the input `chr2 5 9`, `chr1 7 9`, `chr1 0 4`, without and with the
filter `chr1`. -/
theorem C13_bedLoadNInHash_groups_witness :
    bedLoadNInHash [⟨"chr2", 5, 9⟩, ⟨"chr1", 7, 9⟩, ⟨"chr1", 0, 4⟩] none
      = [("chr2", [⟨"chr2", 5, 9⟩]), ("chr1", [⟨"chr1", 0, 4⟩, ⟨"chr1", 7, 9⟩])] ∧
    bedLoadNInHash [⟨"chr2", 5, 9⟩, ⟨"chr1", 7, 9⟩, ⟨"chr1", 0, 4⟩] (some "chr1")
      = [("chr1", [⟨"chr1", 0, 4⟩, ⟨"chr1", 7, 9⟩])] ∧
    ((bedLoadNInHash [⟨"chr2", 5, 9⟩, ⟨"chr1", 7, 9⟩, ⟨"chr1", 0, 4⟩] none).map
      Prod.fst).Nodup ∧
    ((bedLoadNInHash [⟨"chr2", 5, 9⟩, ⟨"chr1", 7, 9⟩, ⟨"chr1", 0, 4⟩] none).map
      Prod.snd).flatten.Perm [⟨"chr2", 5, 9⟩, ⟨"chr1", 7, 9⟩, ⟨"chr1", 0, 4⟩] :=
  have h := C13_bedLoadNInHash_groups [⟨"chr2", 5, 9⟩, ⟨"chr1", 7, 9⟩, ⟨"chr1", 0, 4⟩] none
  ⟨rfl, rfl, h.1, h.2.2.2 rfl⟩

/-! ## The dense writer over the whole catalog -/

theorem printCoverageValues_eq (coverage : List Nat) (n basePos : Nat) (vals : List WigLine)
    (h : printCoverageValues coverage n basePos = .ok vals) :
    vals = ((coverage.drop basePos).take n).map WigLine.value := by
  obtain ⟨h1, _, h3⟩ := printCoverageValues_spec coverage n basePos vals h
  apply List.ext_getElem?
  intro i
  by_cases hi : i < n
  · rw [(h3 i hi).1]
    simp [List.getElem?_take, List.getElem?_drop, hi]
  · rw [List.getElem?_eq_none (by omega)]
    simp [List.getElem?_take, hi]

theorem printCoverageBunk_eq (coverage : List Nat) (bunk : Bed) (block : List WigLine)
    (hstart : bunk.chromStart + 1 < UINT_MOD)
    (h : printCoverageBunk coverage bunk = .ok block) :
    block = denseBlock coverage bunk := by
  unfold printCoverageBunk at h
  cases hv : printCoverageValues coverage (bunk.chromEnd - bunk.chromStart)
      bunk.chromStart with
  | error err => rw [hv] at h; cases h
  | ok vals =>
    rw [hv] at h
    simp only [Nat.mod_eq_of_lt hstart] at h
    injection h with h1
    rw [← h1, printCoverageValues_eq coverage _ _ vals hv]
    rfl

theorem printCoverageBunks_eq (coverage : List Nat) :
    ∀ (bunks : List Bed) (out : List WigLine),
      (∀ bunk ∈ bunks, bunk.chromStart + 1 < UINT_MOD) →
      printCoverageBunks coverage bunks = .ok out → out = denseBlocks coverage bunks := by
  intro bunks
  induction bunks with
  | nil =>
    intro out _ h
    simp [printCoverageBunks] at h
    subst h
    rfl
  | cons bunk rest ih =>
    intro out hstart h
    simp only [printCoverageBunks] at h
    cases hb : printCoverageBunk coverage bunk with
    | error err => rw [hb] at h; cases h
    | ok block =>
      rw [hb] at h
      simp only [] at h
      cases hr : printCoverageBunks coverage rest with
      | error err => rw [hr] at h; cases h
      | ok outRest =>
        rw [hr] at h
        simp only [] at h
        injection h with h1
        rw [← h1, printCoverageBunk_eq coverage bunk block
          (hstart bunk (List.mem_cons_self _ _)) hb,
          ih outRest (fun b hb1 => hstart b (List.mem_cons_of_mem _ hb1)) hr]
        rfl

theorem printCoverageBunks_defined (coverage : List Nat) :
    ∀ bunks : List Bed,
      (∀ bunk ∈ bunks, bunk.chromStart < bunk.chromEnd → bunk.chromEnd ≤ coverage.length) →
      ∃ out, printCoverageBunks coverage bunks = .ok out := by
  intro bunks
  induction bunks with
  | nil => intro _; exact ⟨[], rfl⟩
  | cons bunk rest ih =>
    intro hin
    have hvals : ∃ vals, printCoverageValues coverage (bunk.chromEnd - bunk.chromStart)
        bunk.chromStart = .ok vals := by
      by_cases hse : bunk.chromStart < bunk.chromEnd
      · have := hin bunk (List.mem_cons_self _ _) hse
        exact printCoverageValues_ok coverage _ _ (by omega)
      · have hz : bunk.chromEnd - bunk.chromStart = 0 := by omega
        rw [hz]
        exact ⟨[], rfl⟩
    obtain ⟨vals, hv⟩ := hvals
    obtain ⟨outRest, hr⟩ := ih (fun b hb => hin b (List.mem_cons_of_mem _ hb))
    simp only [printCoverageBunks, printCoverageBunk, hv, hr]
    exact ⟨_, rfl⟩

/-- Whatever `printCoverage` returns is the dense track of the catalog. -/
theorem printCoverage_eq_denseTrack (coverageHash : Hash (List Nat)) :
    ∀ (noGapHash : Hash (List Bed)) (out : List WigLine),
      (∀ kv ∈ noGapHash, ∀ bunk ∈ kv.2, bunk.chromStart + 1 < UINT_MOD) →
      printCoverage noGapHash coverageHash = .ok out →
      out = denseTrack noGapHash coverageHash := by
  intro noGapHash
  induction noGapHash with
  | nil =>
    intro out _ h
    simp [printCoverage] at h
    subst h
    rfl
  | cons kv rest ih =>
    intro out hstart h
    obtain ⟨k, l⟩ := kv
    cases l with
    | nil => simp [printCoverage] at h
    | cons b tail =>
      simp only [printCoverage, hashMustFindVal] at h
      cases hf : hashFindVal coverageHash b.chrom with
      | none => rw [hf] at h; cases h
      | some coverage =>
        rw [hf] at h
        simp only [] at h
        cases hp : printCoverageBunks coverage (b :: tail) with
        | error err => rw [hp] at h; cases h
        | ok out1 =>
          rw [hp] at h
          simp only [] at h
          cases hr : printCoverage rest coverageHash with
          | error err => rw [hr] at h; cases h
          | ok outRest =>
            rw [hr] at h
            simp only [] at h
            injection h with h1
            rw [← h1, printCoverageBunks_eq coverage (b :: tail) out1
              (hstart (k, b :: tail) (List.mem_cons_self _ _)) hp,
              ih outRest (fun kv hkv => hstart kv (List.mem_cons_of_mem _ hkv)) hr]
            simp only [denseTrack, hf]

/-- When the store covers the catalog, `printCoverage` returns its lines. -/
theorem printCoverage_defined (coverageHash : Hash (List Nat)) :
    ∀ noGapHash : Hash (List Bed), DenseDefined noGapHash coverageHash →
      ∃ out, printCoverage noGapHash coverageHash = .ok out := by
  intro noGapHash
  induction noGapHash with
  | nil => intro _; exact ⟨[], rfl⟩
  | cons kv rest ih =>
    intro hdef
    obtain ⟨k, l⟩ := kv
    obtain ⟨b, tail, hl, coverage, hf, hin⟩ := hdef (k, l) (List.mem_cons_self _ _)
    simp only at hl
    subst hl
    obtain ⟨out1, hp⟩ := printCoverageBunks_defined coverage (b :: tail) hin
    obtain ⟨outRest, hr⟩ := ih (fun kv hkv => hdef kv (List.mem_cons_of_mem _ hkv))
    simp only [printCoverage, hashMustFindVal, hf, hp, hr]
    exact ⟨_, rfl⟩

/-- C12 (what `printCoverage` emits): for every catalog whose interval starts
leave room for the 1-based start (`s + 1` below `2^32`) and every store,
whatever `printCoverage` returns is the dense track of the catalog: for each
entry of the catalog in catalog order, over the array that the store holds for
the entry's chromosome, one block per interval in list order; and when the store
covers the catalog `printCoverage` does return it.  The block of an interval
`[s, e)` that ends inside the array is the header
`fixedStep chrom=<name> start=<s+1> step=1` followed by exactly `e - s` value
lines, the `i`-th of which carries the counter at position `s + i`. -/
theorem C12_printCoverage_dense_track (noGapHash : Hash (List Bed))
    (coverageHash : Hash (List Nat))
    (hstart : ∀ kv ∈ noGapHash, ∀ bunk ∈ kv.2, bunk.chromStart + 1 < UINT_MOD) :
    (∀ out, printCoverage noGapHash coverageHash = .ok out →
      out = denseTrack noGapHash coverageHash) ∧
    (DenseDefined noGapHash coverageHash →
      printCoverage noGapHash coverageHash = .ok (denseTrack noGapHash coverageHash)) ∧
    ∀ (coverage : List Nat) (bunk : Bed),
      (bunk.chromStart < bunk.chromEnd → bunk.chromEnd ≤ coverage.length) →
      (denseBlock coverage bunk)[0]?
          = some (WigLine.fixedStep bunk.chrom (bunk.chromStart + 1)) ∧
        (WigLine.fixedStep bunk.chrom (bunk.chromStart + 1)).render
          = "fixedStep chrom=" ++ bunk.chrom ++ " start=" ++ toString (bunk.chromStart + 1)
            ++ " step=1" ∧
        (denseBlock coverage bunk).length = 1 + (bunk.chromEnd - bunk.chromStart) ∧
        ∀ i, i < bunk.chromEnd - bunk.chromStart →
          ∃ v, coverage[bunk.chromStart + i]? = some v ∧
            (denseBlock coverage bunk)[i + 1]? = some (WigLine.value v) ∧
            (WigLine.value v).render = toString v := by
  refine ⟨fun out h => printCoverage_eq_denseTrack coverageHash noGapHash out hstart h, ?_, ?_⟩
  · intro hdef
    obtain ⟨out, hout⟩ := printCoverage_defined coverageHash noGapHash hdef
    rw [hout, printCoverage_eq_denseTrack coverageHash noGapHash out hstart hout]
  · intro coverage bunk hin
    refine ⟨by simp [denseBlock], rfl, ?_, ?_⟩
    · simp only [denseBlock, List.length_cons, List.length_map, List.length_take,
        List.length_drop]
      by_cases hse : bunk.chromStart < bunk.chromEnd
      · have := hin hse
        omega
      · omega
    · intro i hi
      have hlt : bunk.chromStart + i < coverage.length := by
        have := hin (by omega)
        omega
      refine ⟨coverage[bunk.chromStart + i], List.getElem?_eq_getElem hlt, ?_, rfl⟩
      simp only [denseBlock, List.getElem?_cons_succ]
      simp [List.getElem?_take, List.getElem?_drop, hi, List.getElem?_eq_getElem hlt]

/-- C12 at the catalog `chr1 2 5`, `chr1 0 1` and `chr2 1 3` with counters
`0,0,1,1,1,0` for `chr1` and `7,8,9` for `chr2`: one block per interval, in
catalog order and list order. -/
theorem C12_printCoverage_dense_track_witness :
    printCoverage [("chr1", [⟨"chr1", 2, 5⟩, ⟨"chr1", 0, 1⟩]), ("chr2", [⟨"chr2", 1, 3⟩])]
        [("chr2", [7, 8, 9]), ("chr1", [0, 0, 1, 1, 1, 0])]
      = .ok [.fixedStep "chr1" 3, .value 1, .value 1, .value 1,
          .fixedStep "chr1" 1, .value 0,
          .fixedStep "chr2" 2, .value 8, .value 9] ∧
    printCoverage [("chr1", [⟨"chr1", 2, 5⟩, ⟨"chr1", 0, 1⟩]), ("chr2", [⟨"chr2", 1, 3⟩])]
        [("chr2", [7, 8, 9]), ("chr1", [0, 0, 1, 1, 1, 0])]
      = .ok (denseTrack
          [("chr1", [⟨"chr1", 2, 5⟩, ⟨"chr1", 0, 1⟩]), ("chr2", [⟨"chr2", 1, 3⟩])]
          [("chr2", [7, 8, 9]), ("chr1", [0, 0, 1, 1, 1, 0])]) :=
  ⟨rfl, (C12_printCoverage_dense_track
    [("chr1", [⟨"chr1", 2, 5⟩, ⟨"chr1", 0, 1⟩]), ("chr2", [⟨"chr2", 1, 3⟩])]
    [("chr2", [7, 8, 9]), ("chr1", [0, 0, 1, 1, 1, 0])]
    (by
      intro kv hkv bunk hb
      simp only [List.mem_cons, List.mem_singleton, List.not_mem_nil, or_false] at hkv
      rcases hkv with h | h
      · subst h
        simp only [List.mem_cons, List.mem_singleton, List.not_mem_nil, or_false] at hb
        rcases hb with h1 | h1 <;> subst h1 <;> decide
      · subst h
        simp only [List.mem_cons, List.mem_singleton, List.not_mem_nil, or_false] at hb
        subst hb
        decide)).2.1
    (by
      intro kv hkv
      simp only [List.mem_cons, List.mem_singleton, List.not_mem_nil, or_false] at hkv
      rcases hkv with h | h
      · subst h
        refine ⟨⟨"chr1", 2, 5⟩, [⟨"chr1", 0, 1⟩], rfl, [0, 0, 1, 1, 1, 0], rfl, ?_⟩
        intro bunk hb _
        simp only [List.mem_cons, List.mem_singleton, List.not_mem_nil, or_false] at hb
        rcases hb with h1 | h1 <;> subst h1 <;> decide
      · subst h
        refine ⟨⟨"chr2", 1, 3⟩, [], rfl, [7, 8, 9], rfl, ?_⟩
        intro bunk hb _
        simp only [List.mem_singleton] at hb
        subst hb
        decide)⟩

end BamToWig
